import Mathlib

/-! Account annotation of transaction batches (`core/account/annotate.go`).

A shallow embedding of `AnnotateTxs` and a verification of its contract.

Modelling conventions.

* A Go `interface{}` value decoded from JSON is a tree (`Value`); a Go
  `map[string]interface{}` is an association list read with `goGet`/`index`
  and written with `goSet`.
* In the tree model records are distinct map objects (the batch is a tree, as a
  JSON decoder produces it), so the pointer to a record that the Go code stores
  in its index maps is the record's position in the batch (`Ref`), and a write
  through the pointer is `modRec` at that position.
* A batch in which one map object stands at several places is a `Mem`: a heap of
  record objects and sides that hold addresses; `AnnotateTxsMem` is the same code
  on it, with the writes going to the heap.
* The registry (`pg.ForQueryRows`) is a parameter: a function from the key array
  to the scanned rows and the error it returns.
* A Go string is a Lean `String`; `hex.DecodeString` is the standard library
  decoder (the payload of its `InvalidByteError` and the `%T` text of the type
  errors are not modelled).
* A run-time panic (index out of range) is the result `none`.
-/

namespace Chain.Account

/-! ## Values and Go maps -/

/-- Raw byte strings; every element is a byte value. -/
abbrev Bytes := List Nat

/-- A dynamically typed Go value (`interface{}`) as found in a decoded transaction,
plus `raw` for the `*json.RawMessage` that annotation stores. The payload of `num`
stands for a JSON number; no operation of `AnnotateTxs` looks at it. -/
inductive Value where
  | null
  | bool (b : Bool)
  | num (n : Int)
  | str (s : String)
  | raw (bs : Bytes)
  | slice (xs : List Value)
  | map (kvs : List (String × Value))

mutual
/-- Decidable equality of values. -/
def Value.decEq : (a b : Value) → Decidable (a = b)
  | .null, .null => isTrue rfl
  | .bool a, .bool b =>
    if h : a = b then isTrue (by rw [h]) else isFalse (by intro e; cases e; exact h rfl)
  | .num a, .num b =>
    if h : a = b then isTrue (by rw [h]) else isFalse (by intro e; cases e; exact h rfl)
  | .str a, .str b =>
    if h : a = b then isTrue (by rw [h]) else isFalse (by intro e; cases e; exact h rfl)
  | .raw a, .raw b =>
    if h : a = b then isTrue (by rw [h]) else isFalse (by intro e; cases e; exact h rfl)
  | .slice a, .slice b =>
    match Value.decEqList a b with
    | isTrue h => isTrue (by rw [h])
    | isFalse h => isFalse (by intro e; cases e; exact h rfl)
  | .map a, .map b =>
    match Value.decEqKvs a b with
    | isTrue h => isTrue (by rw [h])
    | isFalse h => isFalse (by intro e; cases e; exact h rfl)
  | .null, .bool _ | .null, .num _ | .null, .str _ | .null, .raw _ | .null, .slice _
  | .null, .map _ => isFalse (by intro e; cases e)
  | .bool _, .null | .bool _, .num _ | .bool _, .str _ | .bool _, .raw _ | .bool _, .slice _
  | .bool _, .map _ => isFalse (by intro e; cases e)
  | .num _, .null | .num _, .bool _ | .num _, .str _ | .num _, .raw _ | .num _, .slice _
  | .num _, .map _ => isFalse (by intro e; cases e)
  | .str _, .null | .str _, .bool _ | .str _, .num _ | .str _, .raw _ | .str _, .slice _
  | .str _, .map _ => isFalse (by intro e; cases e)
  | .raw _, .null | .raw _, .bool _ | .raw _, .num _ | .raw _, .str _ | .raw _, .slice _
  | .raw _, .map _ => isFalse (by intro e; cases e)
  | .slice _, .null | .slice _, .bool _ | .slice _, .num _ | .slice _, .str _ | .slice _, .raw _
  | .slice _, .map _ => isFalse (by intro e; cases e)
  | .map _, .null | .map _, .bool _ | .map _, .num _ | .map _, .str _ | .map _, .raw _
  | .map _, .slice _ => isFalse (by intro e; cases e)
/-- Decidable equality of slices of values. -/
def Value.decEqList : (a b : List Value) → Decidable (a = b)
  | [], [] => isTrue rfl
  | [], _ :: _ => isFalse (by intro e; cases e)
  | _ :: _, [] => isFalse (by intro e; cases e)
  | x :: xs, y :: ys =>
    match Value.decEq x y, Value.decEqList xs ys with
    | isTrue h1, isTrue h2 => isTrue (by rw [h1, h2])
    | isFalse h, _ => isFalse (by intro e; cases e; exact h rfl)
    | _, isFalse h => isFalse (by intro e; cases e; exact h rfl)
/-- Decidable equality of key-value lists. -/
def Value.decEqKvs : (a b : List (String × Value)) → Decidable (a = b)
  | [], [] => isTrue rfl
  | [], _ :: _ => isFalse (by intro e; cases e)
  | _ :: _, [] => isFalse (by intro e; cases e)
  | (k, x) :: xs, (k', y) :: ys =>
    if hk : k = k' then
      match Value.decEq x y, Value.decEqKvs xs ys with
      | isTrue h1, isTrue h2 => isTrue (by rw [hk, h1, h2])
      | isFalse h, _ => isFalse (by intro e; cases e; exact h rfl)
      | _, isFalse h => isFalse (by intro e; cases e; exact h rfl)
    else isFalse (by intro e; cases e; exact hk rfl)
end

instance : DecidableEq Value := Value.decEq

/-- A Go `map[string]interface{}`. -/
abbrev Record := List (String × Value)

/-- Lookup in a Go map: `none` when the key is absent. -/
def goGet {κ ν : Type} [DecidableEq κ] (k : κ) : List (κ × ν) → Option ν
  | [] => none
  | (k', v) :: t => if k' = k then some v else goGet k t

/-- Assignment `m[k] = v` in a Go map. -/
def goSet {κ ν : Type} [DecidableEq κ] (k : κ) (v : ν) : List (κ × ν) → List (κ × ν)
  | [] => [(k, v)]
  | (k', v') :: t => if k' = k then (k, v) :: t else (k', v') :: goSet k v t

/-- In-place change of the value stored under `k`, when there is one. -/
def goModify {κ ν : Type} [DecidableEq κ] (k : κ) (f : ν → ν) : List (κ × ν) → List (κ × ν)
  | [] => []
  | (k', v') :: t => if k' = k then (k', f v') :: t else (k', v') :: goModify k f t

/-- The Go expression `m[k]` on a `map[string]interface{}`: the nil interface
when the key is absent. -/
def index (m : Record) (k : String) : Value :=
  (goGet k m).getD Value.null

/-- The Go expression `m[k]` on a map of slices: the nil slice when absent. -/
def indexList {κ α : Type} [DecidableEq κ] (m : List (κ × List α)) (k : κ) : List α :=
  (goGet k m).getD []

/-- Change of the `i`-th element of a list, when there is one. -/
def modifyAt {α : Type} (f : α → α) : Nat → List α → List α
  | _, [] => []
  | 0, x :: t => f x :: t
  | i + 1, x :: t => x :: modifyAt f i t

/-! ## Errors and `hex.DecodeString` -/

/-- The errors `AnnotateTxs` can return. -/
inductive Error where
  | expectedSlice
  | expectedMap
  | expectedString
  | hexInvalidByte
  | hexLength
  | registry (code : Nat)
  deriving DecidableEq

/-- Value of one hexadecimal digit (`fromHexChar`). -/
def fromHexChar (c : Char) : Option Nat :=
  if '0' ≤ c ∧ c ≤ '9' then some (c.toNat - '0'.toNat)
  else if 'a' ≤ c ∧ c ≤ 'f' then some (c.toNat - 'a'.toNat + 10)
  else if 'A' ≤ c ∧ c ≤ 'F' then some (c.toNat - 'A'.toNat + 10)
  else none

/-- The loop of `hex.Decode` over the characters of the source. -/
def hexDecode : List Char → Except Error Bytes
  | [] => .ok []
  | [c] => if (fromHexChar c).isNone then .error .hexInvalidByte else .error .hexLength
  | p :: q :: rest =>
    match fromHexChar p with
    | none => .error .hexInvalidByte
    | some a =>
      match fromHexChar q with
      | none => .error .hexInvalidByte
      | some b =>
        match hexDecode rest with
        | .error e => .error e
        | .ok bs => .ok ((a * 16 + b) :: bs)

/-- Go `hex.DecodeString`. -/
def hexDecodeString (s : String) : Except Error Bytes :=
  hexDecode s.data

/-! ## The batch as a heap of records -/

/-- The two record sequences of a transaction. -/
inductive Side where
  | outputs
  | inputs
  deriving DecidableEq

/-- The key of a transaction under which a side is stored. -/
def Side.key : Side → String
  | .outputs => "outputs"
  | .inputs => "inputs"

/-- The address of a record: transaction number, side, position in the side. -/
structure Ref where
  tx : Nat
  side : Side
  idx : Nat
  deriving DecidableEq

/-- The record stored at an address, when the address holds a key-value record. -/
def getRec (txs : List Record) (ref : Ref) : Option Record :=
  match txs[ref.tx]? with
  | none => none
  | some tx =>
    match goGet ref.side.key tx with
    | some (.slice xs) =>
      match xs[ref.idx]? with
      | some (.map r) => some r
      | _ => none
    | _ => none

/-- The effect of a write through a record pointer on the element holding the record. -/
def modElem (f : Record → Record) : Value → Value
  | .map r => .map (f r)
  | y => y

/-- The effect of a write to record `i` of a side on the value of the side. -/
def modSide (f : Record → Record) (i : Nat) : Value → Value
  | .slice xs => .slice (modifyAt (modElem f) i xs)
  | w => w

/-- A write through a record pointer: the record at `ref` becomes `f` of itself. -/
def modRec (f : Record → Record) (ref : Ref) (txs : List Record) : List Record :=
  modifyAt (goModify ref.side.key (modSide f ref.idx)) ref.tx txs

/-! ## Collector -/

/-- The index maps an `update` call appends to. -/
inductive MapSel where
  | control
  | output
  deriving DecidableEq

/-- The variables the `update` closure captures and its variadic targets. -/
structure Collector where
  controlMaps : List (Bytes × List Ref)
  outputMaps : List (Bytes × List Ref)
  controlPrograms : List Bytes

/-- The statement `m[string(controlProgram)] = append(m[string(controlProgram)], asMap)`. -/
def appendTo (m : List (Bytes × List Ref)) (p : Bytes) (r : Ref) : List (Bytes × List Ref) :=
  goSet p (indexList m p ++ [r]) m

/-- The same statement on the map a selector names. -/
def Collector.append (st : Collector) (sel : MapSel) (p : Bytes) (r : Ref) : Collector :=
  match sel with
  | .control => { st with controlMaps := appendTo st.controlMaps p r }
  | .output => { st with outputMaps := appendTo st.outputMaps p r }

/-- The body of the loop of `update` for the element `m` at address `ref`. -/
def updateOne (maps : List MapSel) (ref : Ref) (st : Collector) (m : Value) :
    Except Error Collector :=
  match m with
  | .map asMap =>
    match index asMap "control_program" with
    | .null => .ok st
    | .str controlString =>
      match hexDecodeString controlString with
      | .error e => .error e
      | .ok controlProgram =>
        .ok (maps.foldl (fun s sel => s.append sel controlProgram ref)
          { st with controlPrograms := st.controlPrograms ++ [controlProgram] })
    | _ => .error .expectedString
  | _ => .error .expectedMap

/-- The loop of `update` over the elements of the slice, from position `j` on. -/
def updateLoop (maps : List MapSel) (k : Nat) (side : Side) :
    Nat → List Value → Collector → Except Error Collector
  | _, [], st => .ok st
  | j, m :: rest, st =>
    match updateOne maps ⟨k, side, j⟩ st m with
    | .error e => .error e
    | .ok st' => updateLoop maps k side (j + 1) rest st'

/-- The closure `update(s, maps...)`, called on side `side` of transaction `k`. -/
def update (s : Value) (k : Nat) (side : Side) (maps : List MapSel) (st : Collector) :
    Except Error Collector :=
  match s with
  | .slice asSlice => updateLoop maps k side 0 asSlice st
  | _ => .error .expectedSlice

/-- The loop over the transactions, from transaction number `k` on. -/
def collectLoop : Nat → List Record → Collector → Except Error Collector
  | _, [], st => .ok st
  | k, tx :: rest, st =>
    match update (index tx "outputs") k .outputs [.control, .output] st with
    | .error e => .error e
    | .ok st1 =>
      match update (index tx "inputs") k .inputs [.control] st1 with
      | .error e => .error e
      | .ok st2 => collectLoop (k + 1) rest st2

/-- The collection stage of `AnnotateTxs`. -/
def collect (txs : List Record) : Except Error Collector :=
  collectLoop 0 txs ⟨[], [], []⟩

/-! ## Resolver -/

/-- Go `sql.NullString`. -/
structure NullString where
  str : String
  valid : Bool
  deriving DecidableEq

/-- The arguments of one call of the row callback. -/
structure ScanRow where
  accountID : String
  program : Bytes
  change : Bool
  accountAlias : NullString
  accountTags : Bytes
  deriving DecidableEq

/-- What `pg.ForQueryRows` does: the rows it hands to the callback, and its error. -/
structure QueryResult where
  rows : List ScanRow
  err : Option Error

/-- The five result columns. -/
structure Columns where
  ids : List String
  programs : List Bytes
  changeFlags : List Bool
  aliases : List NullString
  tags : List (Option Bytes)

/-- The row callback. -/
def callback (c : Columns) (row : ScanRow) : Columns :=
  { ids := c.ids ++ [row.accountID]
    programs := c.programs ++ [row.program]
    changeFlags := c.changeFlags ++ [row.change]
    aliases := c.aliases ++ [row.accountAlias]
    tags := c.tags ++ [if row.accountTags.length > 0 then some row.accountTags else none] }

/-- The columns after the callback has run on all rows. -/
def scanRows (rows : List ScanRow) : Columns :=
  rows.foldl callback ⟨[], [], [], [], []⟩

/-! ## Distributor -/

/-- The body of the loop over `controlMaps[program]`. -/
def annotateIdentity (id : String) (tag : Option Bytes) (accountAlias : NullString) (m : Record) :
    Record :=
  let m1 := goSet "account_id" (.str id) m
  let m2 := match tag with
    | some t => goSet "account_tags" (.raw t) m1
    | none => m1
  if accountAlias.valid then goSet "account_alias" (.str accountAlias.str) m2 else m2

/-- The body of the loop over `outputMaps[program]`. -/
def annotatePurpose (change : Bool) (out : Record) : Record :=
  if change then goSet "purpose" (.str "change") out
  else goSet "purpose" (.str "receive") out

/-- One iteration of the loop over the rows. -/
def distributeRow (controlMaps outputMaps : List (Bytes × List Ref)) (txs : List Record)
    (id : String) (program : Bytes) (change : Bool) (accountAlias : NullString)
    (tag : Option Bytes) : List Record :=
  let maps := indexList controlMaps program
  let txs1 := maps.foldl (fun t ref => modRec (annotateIdentity id tag accountAlias) ref t) txs
  let outs := indexList outputMaps program
  outs.foldl (fun t ref => modRec (annotatePurpose change) ref t) txs1

/-- The loop `for i := range ids`; an index out of range is a panic (`none`). -/
def distribute (c : Columns) (controlMaps outputMaps : List (Bytes × List Ref))
    (txs : List Record) : Option (List Record) :=
  (List.range c.ids.length).foldlM (fun t i =>
    match c.ids[i]?, c.programs[i]?, c.changeFlags[i]?, c.aliases[i]?, c.tags[i]? with
    | some id, some program, some change, some accountAlias, some tag =>
      some (distributeRow controlMaps outputMaps t id program change accountAlias tag)
    | _, _, _, _, _ => none) txs

/-- `AnnotateTxs`: the returned error (`none` for nil) and the batch after the call;
the whole result is `none` when the call panics. -/
def AnnotateTxs (db : List Bytes → QueryResult) (txs : List Record) :
    Option (Option Error × List Record) :=
  match collect txs with
  | .error e => some (some e, txs)
  | .ok st =>
    let res := db st.controlPrograms
    let c := scanRows res.rows
    match res.err with
    | some e => some (some e, txs)
    | none =>
      match distribute c st.controlMaps st.outputMaps txs with
      | none => none
      | some txs' => some (none, txs')

/-! ## Descriptions used in the statements -/

/-- The control program a record carries, when it carries a decodable one. -/
def progOf (r : Record) : Option Bytes :=
  match index r "control_program" with
  | .str s =>
    match hexDecodeString s with
    | .ok p => some p
    | .error _ => none
  | _ => none

/-- Application of `g j` to the record at each position `j` of a slice, counted from `j0`. -/
def mapSlice (g : Nat → Record → Record) : Nat → List Value → List Value
  | _, [] => []
  | j, x :: t => modElem (g j) x :: mapSlice g (j + 1) t

/-- Application of `g j` to every record of a side. -/
def mapSide (g : Nat → Record → Record) : Value → Value
  | .slice xs => .slice (mapSlice g 0 xs)
  | w => w

/-- Application of `g side j` to every record of a transaction. -/
def mapTx (g : Side → Nat → Record → Record) (tx : Record) : Record :=
  goModify "outputs" (mapSide (g .outputs)) (goModify "inputs" (mapSide (g .inputs)) tx)

/-- Application of `g ref` to the record at every address, transactions counted from `k`. -/
def mapTxs (g : Ref → Record → Record) : Nat → List Record → List Record
  | _, [] => []
  | k, tx :: rest => mapTx (fun s j => g ⟨k, s, j⟩) tx :: mapTxs g (k + 1) rest

/-- Application of `g ref` to the record at every address `ref` of the batch. -/
def mapRecs (g : Ref → Record → Record) (txs : List Record) : List Record :=
  mapTxs g 0 txs

/-- A sequence of assignments to a record. -/
def applyOps (ops : List (String × Value)) (r : Record) : Record :=
  ops.foldl (fun acc op => goSet op.1 op.2 acc) r

/-- The value the last assignment to `k` in a sequence of assignments stores. -/
def lastVal (k : String) : List (String × Value) → Option Value
  | [] => none
  | (k', v) :: ops =>
    match lastVal k ops with
    | some w => some w
    | none => if k' = k then some v else none

/-- The index entry the scan of the element `m` at address `ref` makes. -/
def scanElem (ref : Ref) : Value → List (Ref × Bytes)
  | .map r =>
    match progOf r with
    | some p => [(ref, p)]
    | none => []
  | _ => []

/-- The index entries of a slice in scan order, positions counted from `j`. -/
def scanSlice (k : Nat) (side : Side) : Nat → List Value → List (Ref × Bytes)
  | _, [] => []
  | j, m :: rest => scanElem ⟨k, side, j⟩ m ++ scanSlice k side (j + 1) rest

/-- The index entries of a side in scan order. -/
def scanSide (k : Nat) (side : Side) : Value → List (Ref × Bytes)
  | .slice xs => scanSlice k side 0 xs
  | _ => []

/-- The index entries of the transactions in scan order (outputs before inputs),
transactions counted from `k`. -/
def scanTxs : Nat → List Record → List (Ref × Bytes)
  | _, [] => []
  | k, tx :: rest =>
    scanSide k .outputs (index tx "outputs") ++ scanSide k .inputs (index tx "inputs") ++
      scanTxs (k + 1) rest

/-- Every record of the batch that carries a decodable control program, with the
program, in scan order. -/
def scan (txs : List Record) : List (Ref × Bytes) :=
  scanTxs 0 txs

/-- The collector state holds exactly the index of the entries `items`. -/
def Indexed (st : Collector) (items : List (Ref × Bytes)) : Prop :=
  st.controlPrograms = items.map Prod.snd ∧
  (∀ p, indexList st.controlMaps p =
    (items.filter (fun e => decide (e.2 = p))).map Prod.fst) ∧
  (∀ p, indexList st.outputMaps p =
    (items.filter (fun e => decide (e.2 = p ∧ e.1.side = Side.outputs))).map Prod.fst) ∧
  (∀ p, (goGet p st.controlMaps).isSome ↔ p ∈ items.map Prod.snd)

/-- A record the collector accepts: no control program, or a decodable one. -/
def RecOk (r : Record) : Prop :=
  index r "control_program" = Value.null ∨
    ∃ s p, index r "control_program" = Value.str s ∧ hexDecodeString s = .ok p

/-- An element of a side the collector accepts: an accepted key-value record. -/
def ElemOk (x : Value) : Prop :=
  ∃ r, x = Value.map r ∧ RecOk r

/-- A batch the collector accepts: both sides of every transaction are slices
of accepted records. -/
def WellFormed (txs : List Record) : Prop :=
  ∀ tx ∈ txs, ∀ side : Side, ∃ xs, index tx side.key = Value.slice xs ∧ ∀ x ∈ xs, ElemOk x

/-- The entry of the `tags` column the callback makes for a row. -/
def rowTag (row : ScanRow) : Option Bytes :=
  if row.accountTags.length > 0 then some row.accountTags else none

/-- The assignments of the identity loop body, in order. -/
def identityOps (id : String) (tag : Option Bytes) (accountAlias : NullString) :
    List (String × Value) :=
  [("account_id", Value.str id)] ++
    (match tag with
      | some t => [("account_tags", Value.raw t)]
      | none => []) ++
    (if accountAlias.valid then [("account_alias", Value.str accountAlias.str)] else [])

/-- The assignment of the purpose loop body. -/
def purposeOps (change : Bool) : List (String × Value) :=
  [("purpose", Value.str (if change then "change" else "receive"))]

/-- The assignments one row makes to the record at `ref`, given the index maps. -/
def opsAt (controlMaps outputMaps : List (Bytes × List Ref)) (row : ScanRow) (ref : Ref) :
    List (String × Value) :=
  (if ref ∈ indexList controlMaps row.program then
      identityOps row.accountID (rowTag row) row.accountAlias else []) ++
    (if ref ∈ indexList outputMaps row.program then purposeOps row.change else [])

/-- The assignments all rows make to the record at `ref`, in order. -/
def allOpsAt (controlMaps outputMaps : List (Bytes × List Ref)) (rows : List ScanRow)
    (ref : Ref) : List (String × Value) :=
  (rows.map (fun row => opsAt controlMaps outputMaps row ref)).flatten

/-- One iteration of the loop over the rows, on the row itself. -/
def distributeScanRow (controlMaps outputMaps : List (Bytes × List Ref)) (txs : List Record)
    (row : ScanRow) : List Record :=
  distributeRow controlMaps outputMaps txs row.accountID row.program row.change
    row.accountAlias (rowTag row)

/-- The assignments one row makes to a record of side `side` it applies to. -/
def rowOps (side : Side) (row : ScanRow) : List (String × Value) :=
  identityOps row.accountID (rowTag row) row.accountAlias ++
    (if side = Side.outputs then purposeOps row.change else [])

/-- The assignments the rows make, in order, to a record of side `side` whose control
program is `p`. -/
def progOps (side : Side) (rows : List ScanRow) (p : Bytes) : List (String × Value) :=
  (rows.map (fun row => if row.program = p then rowOps side row else [])).flatten

/-- The annotation of a single record, as a function of the record, its side and the
rows alone. -/
def annotRec (side : Side) (rows : List ScanRow) (r : Record) : Record :=
  match progOf r with
  | some p => applyOps (progOps side rows p) r
  | none => r

/-- The last row for the program `p`. -/
def lastRowFor (p : Bytes) : List ScanRow → Option ScanRow
  | [] => none
  | row :: rest =>
    match lastRowFor p rest with
    | some found => some found
    | none => if row.program = p then some row else none

/-! ## Concrete batches and registries -/

/-- A record that carries only a control program. -/
def recOf (s : String) : Value :=
  Value.map [("control_program", Value.str s)]

/-- A transaction with the given outputs and inputs. -/
def txOf (outputs inputs : List Value) : Record :=
  [("outputs", Value.slice outputs), ("inputs", Value.slice inputs)]

/-- The registry row of the scenario: program `0xAA`, account `acct1`, not a change
program, alias `bob`, no tags. -/
def exRow : ScanRow :=
  ⟨"acct1", [170], false, ⟨"bob", true⟩, []⟩

/-- A registry that answers every lookup with the one row `exRow`. -/
def exDb : List Bytes → QueryResult :=
  fun _ => ⟨[exRow], none⟩

/-- The batch of the scenario: two transactions, `0xAA` on an output of each, an
issuance input, and an output with the unknown program `0xBB`. -/
def exBatch : List Record :=
  [txOf [recOf "aa"] [Value.map []], txOf [recOf "aa", recOf "bb"] []]

/-- The collector state after the scan of `exBatch`. -/
def exState : Collector :=
  { controlMaps := [([170], [⟨0, .outputs, 0⟩, ⟨1, .outputs, 0⟩]), ([187], [⟨1, .outputs, 1⟩])]
    outputMaps := [([170], [⟨0, .outputs, 0⟩, ⟨1, .outputs, 0⟩]), ([187], [⟨1, .outputs, 1⟩])]
    controlPrograms := [[170], [170], [187]] }

/-- A batch whose last record has a control program of odd length. -/
def badHexBatch : List Record :=
  [txOf [recOf "aa"] [], txOf [recOf "bb"] [recOf "aa", recOf "abc"]]

/-- A registry whose lookup fails. -/
def failingDb : List Bytes → QueryResult :=
  fun _ => ⟨[], some (Error.registry 7)⟩

/-- A batch of one transaction whose two outputs share the program `0xAA`; the first
already carries an `account_alias`. -/
def aliasBatch : List Record :=
  [txOf [Value.map [("control_program", Value.str "aa"), ("account_alias", Value.str "x")],
    recOf "aa"] []]

/-- A registry with one row for `0xAA` that has no alias and no tags. -/
def noAliasDb : List Bytes → QueryResult :=
  fun _ => ⟨[⟨"acct1", [170], false, ⟨"", false⟩, []⟩], none⟩

/-- The batch `aliasBatch` after annotation against `noAliasDb`. -/
def aliasBatchDone : List Record :=
  [txOf [Value.map [("control_program", Value.str "aa"), ("account_alias", Value.str "x"),
      ("account_id", Value.str "acct1"), ("purpose", Value.str "receive")],
    Value.map [("control_program", Value.str "aa"), ("account_id", Value.str "acct1"),
      ("purpose", Value.str "receive")]] []]

/-- A batch with one output for `0xAA`. -/
def oneOutputBatch : List Record :=
  [txOf [recOf "aa"] []]

/-- A registry with two rows for `0xAA`: a change row followed by a non-change row. -/
def twoRowDb : List Bytes → QueryResult :=
  fun _ => ⟨[⟨"acct1", [170], true, ⟨"", false⟩, []⟩,
    ⟨"acct1", [170], false, ⟨"", false⟩, []⟩], none⟩

/-- A batch with one output for the unknown program `0xBB` that already carries a
`purpose`. -/
def purposeBatch : List Record :=
  [txOf [Value.map [("control_program", Value.str "bb"), ("purpose", Value.str "x")]] []]

/-- The purpose rule as the specification states it, for a batch and a registry: after a
successful run an output whose program has a row with change flag true has purpose
`change`, one whose program has a row with change flag false has purpose `receive`, and
one whose program has no row has no `purpose` field. -/
def PurposeRuleStated (db : List Bytes → QueryResult) (txs : List Record) : Prop :=
  ∀ txs' st, AnnotateTxs db txs = some (none, txs') → collect txs = .ok st →
    ∀ ref r r' p, ref.side = Side.outputs → getRec txs ref = some r → progOf r = some p →
      getRec txs' ref = some r' →
      ((∃ row ∈ (db st.controlPrograms).rows, row.program = p ∧ row.change = true) →
        goGet "purpose" r' = some (Value.str "change")) ∧
      ((∃ row ∈ (db st.controlPrograms).rows, row.program = p ∧ row.change = false) →
        goGet "purpose" r' = some (Value.str "receive")) ∧
      ((∀ row ∈ (db st.controlPrograms).rows, row.program ≠ p) → goGet "purpose" r' = none)

/-- A batch with one record whose `control_program` is an explicit null. -/
def nullBatch : List Record :=
  [txOf [Value.map [("control_program", Value.null)]] []]

/-- A batch with one record whose `control_program` is a number. -/
def numBatch : List Record :=
  [txOf [recOf "aa"] [Value.map [("control_program", Value.num 5)]]]

/-- A batch with two outputs that share the program `0xAA`. -/
def dupBatch : List Record :=
  [txOf [recOf "aa", recOf "aa"] []]

/-- The batch `exBatch` after annotation against `exDb`. -/
def exBatchDone : List Record :=
  [txOf [Value.map [("control_program", Value.str "aa"), ("account_id", Value.str "acct1"),
      ("account_alias", Value.str "bob"), ("purpose", Value.str "receive")]] [Value.map []],
    txOf [Value.map [("control_program", Value.str "aa"), ("account_id", Value.str "acct1"),
      ("account_alias", Value.str "bob"), ("purpose", Value.str "receive")], recOf "bb"] []]

/-- The batch `oneOutputBatch` after annotation against `twoRowDb`. -/
def oneOutputBatchDone : List Record :=
  [txOf [Value.map [("control_program", Value.str "aa"), ("account_id", Value.str "acct1"),
    ("purpose", Value.str "receive")]] []]

/-- The index maps of a batch whose only indexed record is the first output, for `0xAA`. -/
def oneRefMaps : List (Bytes × List Ref) :=
  [([170], [⟨0, .outputs, 0⟩])]

/-- A row for `0xAA` with a tag blob and a null alias. -/
def taggedRow : ScanRow :=
  ⟨"acct2", [170], true, ⟨"", false⟩, [123, 125]⟩

/-- A batch with the program `0xAA` on an output, written `aa`, and on an input,
written `AA`. -/
def twinBatch : List Record :=
  [txOf [recOf "aa"] [recOf "AA"]]

/-- The batch `twinBatch` after annotation against `exDb`. -/
def twinBatchDone : List Record :=
  [txOf [Value.map [("control_program", Value.str "aa"), ("account_id", Value.str "acct1"),
      ("account_alias", Value.str "bob"), ("purpose", Value.str "receive")]]
    [Value.map [("control_program", Value.str "AA"), ("account_id", Value.str "acct1"),
      ("account_alias", Value.str "bob")]]]

/-- The collector state after the scan of `twinBatch`. -/
def twinState : Collector :=
  { controlMaps := [([170], [⟨0, .outputs, 0⟩, ⟨0, .inputs, 0⟩])]
    outputMaps := [([170], [⟨0, .outputs, 0⟩])]
    controlPrograms := [[170], [170]] }

/-- The collector state after the scan of `oneOutputBatch`. -/
def oneOutputState : Collector :=
  { controlMaps := [([170], [⟨0, .outputs, 0⟩])]
    outputMaps := [([170], [⟨0, .outputs, 0⟩])]
    controlPrograms := [[170]] }

/-- The batch `oneOutputBatch` after annotation against `exDb`. -/
def oneOutputBatchDoneEx : List Record :=
  [txOf [Value.map [("control_program", Value.str "aa"), ("account_id", Value.str "acct1"),
    ("account_alias", Value.str "bob"), ("purpose", Value.str "receive")]] []]

/-- Modelled from the spec: the batched lookup against a registry that holds the rows
`table` returns, without error, the rows whose control program is among the queried
programs; programs with no matching row are absent from the result. -/
def registryOf (table : List ScanRow) : List Bytes → QueryResult :=
  fun keys => ⟨table.filter (fun row => decide (row.program ∈ keys)), none⟩

/-- A batch whose transaction has no `inputs` key. -/
def noInputsBatch : List Record :=
  [[("outputs", Value.slice [recOf "aa"])]]

/-- The scan order on addresses: transactions in batch order, within a transaction the
outputs before the inputs, within a side by position. -/
def Ref.before (a b : Ref) : Prop :=
  a.tx < b.tx ∨
    (a.tx = b.tx ∧
      ((a.side = Side.outputs ∧ b.side = Side.inputs) ∨ (a.side = b.side ∧ a.idx < b.idx)))

/-- The slice stored as side `side` of transaction `k`, when there is one. -/
def sideOf (txs : List Record) (k : Nat) (side : Side) : Option (List Value) :=
  match txs[k]? with
  | none => none
  | some tx =>
    match goGet side.key tx with
    | some (.slice xs) => some xs
    | _ => none

/-! ## The batch in memory: records as shared map objects

The Go code holds every record as a reference to a map object, so one object can stand at
several places of a batch. `Mem` keeps the objects in a heap, a finite map from addresses
to records, and lets the sides refer to them by address; the functions below are
`AnnotateTxs` on such a memory. `layout` puts a tree-shaped batch into memory, every record
a distinct object, and `AnnotateTxsMem_layout` shows that on such a memory the code does
what the tree model says. -/

/-- An element of a side as the Go code holds it: a reference to a map object of the heap,
or a value that is not a map. -/
inductive Elem (α : Type) where
  | ptr (addr : α)
  | other
  deriving DecidableEq

/-- The value a transaction holds under a key: a slice of elements, or a value that is not
a slice. -/
inductive SideVal (α : Type) where
  | slice (xs : List (Elem α))
  | other
  deriving DecidableEq

/-- A batch in memory, with addresses of type `α`: the map objects of the records by
address, and the transactions, whose sides hold references to them. -/
structure Mem (α : Type) where
  heap : List (α × Record)
  txs : List (List (String × SideVal α))

/-- The variables the `update` closure captures, with records as addresses. -/
structure MemCollector (α : Type) where
  controlMaps : List (Bytes × List α)
  outputMaps : List (Bytes × List α)
  controlPrograms : List Bytes

/-- The statement `m[string(controlProgram)] = append(m[string(controlProgram)], asMap)` on
the map a selector names, `asMap` being the object at address `a`. -/
def MemCollector.append {α : Type} (st : MemCollector α) (sel : MapSel) (p : Bytes) (a : α) :
    MemCollector α :=
  match sel with
  | .control =>
    { st with controlMaps := goSet p (indexList st.controlMaps p ++ [a]) st.controlMaps }
  | .output =>
    { st with outputMaps := goSet p (indexList st.outputMaps p ++ [a]) st.outputMaps }

/-- The body of the loop of `update` for the element `m`; an address outside the heap does
not occur in a memory the Go program can build. -/
def updateOneMem {α : Type} [DecidableEq α] (maps : List MapSel) (heap : List (α × Record))
    (st : MemCollector α) (m : Elem α) : Except Error (MemCollector α) :=
  match m with
  | .ptr a =>
    match goGet a heap with
    | some asMap =>
      match index asMap "control_program" with
      | .null => .ok st
      | .str controlString =>
        match hexDecodeString controlString with
        | .error e => .error e
        | .ok controlProgram =>
          .ok (maps.foldl (fun s sel => s.append sel controlProgram a)
            { st with controlPrograms := st.controlPrograms ++ [controlProgram] })
      | _ => .error .expectedString
    | none => .error .expectedMap
  | .other => .error .expectedMap

/-- The loop of `update` over the elements of the slice. -/
def updateLoopMem {α : Type} [DecidableEq α] (maps : List MapSel) (heap : List (α × Record)) :
    List (Elem α) → MemCollector α → Except Error (MemCollector α)
  | [], st => .ok st
  | m :: rest, st =>
    match updateOneMem maps heap st m with
    | .error e => .error e
    | .ok st' => updateLoopMem maps heap rest st'

/-- The closure `update(s, maps...)`; `s` is `none` when the key is absent. -/
def updateMem {α : Type} [DecidableEq α] (s : Option (SideVal α)) (maps : List MapSel)
    (heap : List (α × Record)) (st : MemCollector α) : Except Error (MemCollector α) :=
  match s with
  | some (.slice asSlice) => updateLoopMem maps heap asSlice st
  | _ => .error .expectedSlice

/-- The loop over the transactions. -/
def collectLoopMem {α : Type} [DecidableEq α] (heap : List (α × Record)) :
    List (List (String × SideVal α)) → MemCollector α → Except Error (MemCollector α)
  | [], st => .ok st
  | tx :: rest, st =>
    match updateMem (goGet "outputs" tx) [.control, .output] heap st with
    | .error e => .error e
    | .ok st1 =>
      match updateMem (goGet "inputs" tx) [.control] heap st1 with
      | .error e => .error e
      | .ok st2 => collectLoopMem heap rest st2

/-- One iteration of the loop over the rows: the writes go through the stored references
to the objects of the heap. -/
def distributeRowMem {α : Type} [DecidableEq α] (controlMaps outputMaps : List (Bytes × List α))
    (heap : List (α × Record)) (id : String) (program : Bytes) (change : Bool)
    (accountAlias : NullString) (tag : Option Bytes) : List (α × Record) :=
  let maps := indexList controlMaps program
  let heap1 := maps.foldl (fun h a => goModify a (annotateIdentity id tag accountAlias) h) heap
  let outs := indexList outputMaps program
  outs.foldl (fun h a => goModify a (annotatePurpose change) h) heap1

/-- The loop `for i := range ids`; an index out of range is a panic (`none`). -/
def distributeMem {α : Type} [DecidableEq α] (c : Columns)
    (controlMaps outputMaps : List (Bytes × List α)) (heap : List (α × Record)) :
    Option (List (α × Record)) :=
  (List.range c.ids.length).foldlM (fun h i =>
    match c.ids[i]?, c.programs[i]?, c.changeFlags[i]?, c.aliases[i]?, c.tags[i]? with
    | some id, some program, some change, some accountAlias, some tag =>
      some (distributeRowMem controlMaps outputMaps h id program change accountAlias tag)
    | _, _, _, _, _ => none) heap

/-- `AnnotateTxs` on a batch in memory: the returned error and the heap after the call. -/
def AnnotateTxsMem {α : Type} [DecidableEq α] (db : List Bytes → QueryResult) (m : Mem α) :
    Option (Option Error × List (α × Record)) :=
  match collectLoopMem m.heap m.txs ⟨[], [], []⟩ with
  | .error e => some (some e, m.heap)
  | .ok st =>
    let res := db st.controlPrograms
    let c := scanRows res.rows
    match res.err with
    | some e => some (some e, m.heap)
    | none =>
      match distributeMem c st.controlMaps st.outputMaps m.heap with
      | none => none
      | some heap' => some (none, heap')

/-- The element of a side in memory for the element `x` of the tree standing at `ref`: the
record at `ref` is the object with address `ref`. -/
def layoutElem (ref : Ref) : Value → Elem Ref
  | .map _ => Elem.ptr ref
  | _ => Elem.other

/-- The elements of a slice in memory, positions counted from `j`. -/
def layoutSlice (k : Nat) (side : Side) : Nat → List Value → List (Elem Ref)
  | _, [] => []
  | j, x :: t => layoutElem ⟨k, side, j⟩ x :: layoutSlice k side (j + 1) t

/-- The value of a side in memory. -/
def layoutSide (k : Nat) (side : Side) : Value → SideVal Ref
  | .slice xs => SideVal.slice (layoutSlice k side 0 xs)
  | _ => SideVal.other

/-- The transactions in memory, counted from `k`. -/
def layoutTxs : Nat → List Record → List (List (String × SideVal Ref))
  | _, [] => []
  | k, tx :: rest =>
    [("outputs", layoutSide k .outputs (index tx "outputs")),
      ("inputs", layoutSide k .inputs (index tx "inputs"))] :: layoutTxs (k + 1) rest

/-- The object the element `x` standing at `ref` puts in the heap. -/
def recsElem (ref : Ref) : Value → List (Ref × Record)
  | .map r => [(ref, r)]
  | _ => []

/-- The objects of a slice, positions counted from `j`. -/
def recsSlice (k : Nat) (side : Side) : Nat → List Value → List (Ref × Record)
  | _, [] => []
  | j, x :: t => recsElem ⟨k, side, j⟩ x ++ recsSlice k side (j + 1) t

/-- The objects of a side. -/
def recsSide (k : Nat) (side : Side) : Value → List (Ref × Record)
  | .slice xs => recsSlice k side 0 xs
  | _ => []

/-- The objects of the transactions, counted from `k`. -/
def recsTxs : Nat → List Record → List (Ref × Record)
  | _, [] => []
  | k, tx :: rest =>
    recsSide k .outputs (index tx "outputs") ++ recsSide k .inputs (index tx "inputs") ++
      recsTxs (k + 1) rest

/-- The heap of a tree-shaped batch: every record of the batch, under its address. -/
def recs (txs : List Record) : List (Ref × Record) :=
  recsTxs 0 txs

/-- A tree-shaped batch in memory: every record is a distinct object. -/
def layout (txs : List Record) : Mem Ref :=
  { heap := recs txs, txs := layoutTxs 0 txs }

/-- The collector state of the tree model as a collector state on the memory. -/
def Collector.toMem (st : Collector) : MemCollector Ref :=
  { controlMaps := st.controlMaps
    outputMaps := st.outputMaps
    controlPrograms := st.controlPrograms }

/-- A memory with one record object, for `0xAA`, that stands both as output 0 and as
input 0 of the one transaction. -/
def sharedMem : Mem Nat :=
  { heap := [(0, [("control_program", Value.str "aa")])]
    txs := [[("outputs", SideVal.slice [Elem.ptr 0]), ("inputs", SideVal.slice [Elem.ptr 0])]] }

/-- A memory with two record objects for `0xAA`: object 0 is output 0 and object 1 is
input 0 of the one transaction. -/
def unsharedMem : Mem Nat :=
  { heap := [(0, [("control_program", Value.str "aa")]),
      (1, [("control_program", Value.str "aa")])]
    txs := [[("outputs", SideVal.slice [Elem.ptr 0]), ("inputs", SideVal.slice [Elem.ptr 1])]] }

/-- The tree-shaped batch that `unsharedMem` lays out in memory. -/
def pairBatch : List Record :=
  [txOf [recOf "aa"] [recOf "aa"]]

/-- Application of `g a` to the object at every address `a` of a heap. -/
def heapMap {α : Type} (g : α → Record → Record) (H : List (α × Record)) : List (α × Record) :=
  H.map (fun e => (e.1, g e.1 e.2))

/-- One iteration of the loop over the rows in memory, on the row itself. -/
def distributeScanRowMem (controlMaps outputMaps : List (Bytes × List Ref))
    (heap : List (Ref × Record)) (row : ScanRow) : List (Ref × Record) :=
  distributeRowMem controlMaps outputMaps heap row.accountID row.program row.change
    row.accountAlias (rowTag row)

/-! ## Theorems -/

/-! ### Go maps -/

theorem goGet_goSet_self {κ ν : Type} [DecidableEq κ] (k : κ) (v : ν) (l : List (κ × ν)) :
    goGet k (goSet k v l) = some v := by
  induction l with
  | nil => simp [goSet, goGet]
  | cons a t ih =>
    obtain ⟨k', v'⟩ := a
    by_cases h : k' = k
    · simp [goSet, goGet, h]
    · simp [goSet, goGet, h, ih]

theorem goGet_goSet_ne {κ ν : Type} [DecidableEq κ] {k k' : κ} (h : k ≠ k') (v : ν)
    (l : List (κ × ν)) : goGet k' (goSet k v l) = goGet k' l := by
  induction l with
  | nil => simp [goSet, goGet, h]
  | cons a t ih =>
    obtain ⟨k0, v0⟩ := a
    by_cases h0 : k0 = k
    · subst h0; simp [goSet, goGet, h]
    · by_cases h1 : k0 = k'
      · subst h1; simp [goSet, goGet, h0]
      · simp [goSet, goGet, h0, h1, ih]

theorem goSet_goSet_same {κ ν : Type} [DecidableEq κ] (k : κ) (v w : ν) (l : List (κ × ν)) :
    goSet k w (goSet k v l) = goSet k w l := by
  induction l with
  | nil => simp [goSet]
  | cons a t ih =>
    obtain ⟨k0, v0⟩ := a
    by_cases h0 : k0 = k
    · simp [goSet, h0]
    · simp [goSet, h0, ih]

theorem goSet_comm {κ ν : Type} [DecidableEq κ] {k k' : κ} (h : k ≠ k') (v w : ν)
    (l : List (κ × ν)) (hp : (goGet k l).isSome) :
    goSet k v (goSet k' w l) = goSet k' w (goSet k v l) := by
  induction l with
  | nil => simp [goGet] at hp
  | cons a t ih =>
    obtain ⟨k0, v0⟩ := a
    by_cases h0 : k0 = k
    · subst h0; simp [goSet, h, h.symm]
    · by_cases h1 : k0 = k'
      · subst h1; simp [goSet, h0, h.symm]
      · simp only [goGet, h0, if_false] at hp
        simp [goSet, h0, h1, ih hp]

theorem goGet_isSome_goSet {κ ν : Type} [DecidableEq κ] (k k' : κ) (v : ν)
    (l : List (κ × ν)) (hp : (goGet k l).isSome) : (goGet k (goSet k' v l)).isSome := by
  by_cases h : k' = k
  · subst h; simp [goGet_goSet_self]
  · rw [goGet_goSet_ne h]; exact hp

theorem goGet_goModify_self {κ ν : Type} [DecidableEq κ] (k : κ) (f : ν → ν)
    (l : List (κ × ν)) : goGet k (goModify k f l) = (goGet k l).map f := by
  induction l with
  | nil => simp [goModify, goGet]
  | cons a t ih =>
    obtain ⟨k0, v0⟩ := a
    by_cases h0 : k0 = k
    · simp [goModify, goGet, h0]
    · simp [goModify, goGet, h0, ih]

theorem goGet_goModify_ne {κ ν : Type} [DecidableEq κ] {k k' : κ} (h : k ≠ k') (f : ν → ν)
    (l : List (κ × ν)) : goGet k' (goModify k f l) = goGet k' l := by
  induction l with
  | nil => simp [goModify, goGet]
  | cons a t ih =>
    obtain ⟨k0, v0⟩ := a
    by_cases h0 : k0 = k
    · subst h0; simp [goModify, goGet, h]
    · by_cases h1 : k0 = k'
      · subst h1; simp [goModify, goGet, h0]
      · simp [goModify, goGet, h0, h1, ih]

theorem goModify_id {κ ν : Type} [DecidableEq κ] (k : κ) (f : ν → ν) (hf : ∀ v, f v = v)
    (l : List (κ × ν)) : goModify k f l = l := by
  induction l with
  | nil => simp [goModify]
  | cons a t ih =>
    obtain ⟨k0, v0⟩ := a
    by_cases h0 : k0 = k
    · simp [goModify, h0, hf]
    · simp [goModify, h0, ih]

theorem goModify_goModify_same {κ ν : Type} [DecidableEq κ] (k : κ) (f g : ν → ν)
    (l : List (κ × ν)) : goModify k g (goModify k f l) = goModify k (fun v => g (f v)) l := by
  induction l with
  | nil => simp [goModify]
  | cons a t ih =>
    obtain ⟨k0, v0⟩ := a
    by_cases h0 : k0 = k
    · simp [goModify, h0]
    · simp [goModify, h0, ih]

theorem goModify_comm {κ ν : Type} [DecidableEq κ] {k k' : κ} (h : k ≠ k') (f g : ν → ν)
    (l : List (κ × ν)) : goModify k f (goModify k' g l) = goModify k' g (goModify k f l) := by
  induction l with
  | nil => simp [goModify]
  | cons a t ih =>
    obtain ⟨k0, v0⟩ := a
    by_cases h0 : k0 = k
    · subst h0; simp [goModify, h, h.symm]
    · by_cases h1 : k0 = k'
      · subst h1; simp [goModify, h0, h.symm]
      · simp [goModify, h0, h1, ih]

/-! ### The heap of records -/

theorem modElem_id (g : Record → Record) (hg : ∀ r, g r = r) (x : Value) : modElem g x = x := by
  cases x <;> simp [modElem, hg]

theorem modElem_comp (f g : Record → Record) (x : Value) :
    modElem g (modElem f x) = modElem (fun r => g (f r)) x := by
  cases x <;> simp [modElem]

theorem mapSlice_id (g : Nat → Record → Record) (j0 : Nat) (xs : List Value)
    (hg : ∀ j r, j0 ≤ j → g j r = r) : mapSlice g j0 xs = xs := by
  induction xs generalizing j0 with
  | nil => rfl
  | cons x t ih =>
    simp only [mapSlice]
    rw [modElem_id _ (fun r => hg j0 r (Nat.le_refl _)),
      ih (j0 + 1) (fun j r hj => hg j r (by omega))]

theorem mapSlice_comp (f g : Nat → Record → Record) (j0 : Nat) (xs : List Value) :
    mapSlice g j0 (mapSlice f j0 xs) = mapSlice (fun j r => g j (f j r)) j0 xs := by
  induction xs generalizing j0 with
  | nil => rfl
  | cons x t ih => simp only [mapSlice, modElem_comp, ih]

theorem mapSlice_congr (f g : Nat → Record → Record) (j0 : Nat) (xs : List Value)
    (h : ∀ j r, f j r = g j r) : mapSlice f j0 xs = mapSlice g j0 xs := by
  have : f = g := by funext j r; exact h j r
  rw [this]

theorem modifyAt_eq_mapSlice (f : Record → Record) (xs : List Value) (i j0 n : Nat)
    (hn : n = j0 + i) :
    modifyAt (modElem f) i xs = mapSlice (fun j r => if j = n then f r else r) j0 xs := by
  induction xs generalizing i j0 with
  | nil => cases i <;> rfl
  | cons x t ih =>
    cases i with
    | zero =>
      simp only [modifyAt, mapSlice]
      rw [mapSlice_id _ (j0 + 1) t (fun j r hj => by
        have : j ≠ n := by omega
        simp [this])]
      have : j0 = n := by omega
      simp [this]
    | succ i =>
      simp only [modifyAt, mapSlice]
      rw [← ih i (j0 + 1) (by omega)]
      have : j0 ≠ n := by omega
      rw [modElem_id _ (fun r => by simp [this])]

theorem getElem?_mapSlice (g : Nat → Record → Record) (j0 i : Nat) (xs : List Value) :
    (mapSlice g j0 xs)[i]? = (xs[i]?).map (modElem (g (j0 + i))) := by
  induction xs generalizing j0 i with
  | nil => simp [mapSlice]
  | cons x t ih =>
    cases i with
    | zero => simp [mapSlice]
    | succ i =>
      simp only [mapSlice, List.getElem?_cons_succ]
      rw [ih (j0 + 1) i]
      have : j0 + 1 + i = j0 + (i + 1) := by omega
      rw [this]

theorem mapSide_id (g : Nat → Record → Record) (hg : ∀ j r, g j r = r) (v : Value) :
    mapSide g v = v := by
  cases v <;> simp [mapSide]
  exact mapSlice_id g 0 _ (fun j r _ => hg j r)

theorem mapSide_comp (f g : Nat → Record → Record) (v : Value) :
    mapSide g (mapSide f v) = mapSide (fun j r => g j (f j r)) v := by
  cases v <;> simp [mapSide, mapSlice_comp]

theorem modSide_eq_mapSide (f : Record → Record) (i : Nat) (v : Value) :
    modSide f i v = mapSide (fun j r => if j = i then f r else r) v := by
  cases v <;> simp [mapSide, modSide]
  exact modifyAt_eq_mapSlice f _ i 0 i (by omega)

theorem side_key_ne : Side.outputs.key ≠ Side.inputs.key := by decide

theorem mapTx_id (g : Side → Nat → Record → Record) (hg : ∀ s j r, g s j r = r) (tx : Record) :
    mapTx g tx = tx := by
  unfold mapTx
  rw [goModify_id _ _ (mapSide_id _ (hg .inputs)), goModify_id _ _ (mapSide_id _ (hg .outputs))]

theorem mapTx_comp (f g : Side → Nat → Record → Record) (tx : Record) :
    mapTx g (mapTx f tx) = mapTx (fun s j r => g s j (f s j r)) tx := by
  unfold mapTx
  rw [@goModify_comm String Value _ "inputs" "outputs" (by decide) (mapSide (g .inputs)),
    goModify_goModify_same, goModify_goModify_same]
  congr 1
  · funext v; exact mapSide_comp _ _ v
  · congr 1
    funext v; exact mapSide_comp _ _ v

theorem goGet_mapTx (g : Side → Nat → Record → Record) (s : Side) (tx : Record) :
    goGet s.key (mapTx g tx) = (goGet s.key tx).map (mapSide (g s)) := by
  unfold mapTx
  cases s
  · rw [show Side.outputs.key = "outputs" from rfl, goGet_goModify_self,
      goGet_goModify_ne (by decide)]
  · rw [show Side.inputs.key = "inputs" from rfl, goGet_goModify_ne (by decide),
      goGet_goModify_self]

theorem modSide_eq_mapTx (f : Record → Record) (s : Side) (i : Nat) (tx : Record) :
    goModify s.key (modSide f i) tx =
      mapTx (fun s' j r => if s' = s ∧ j = i then f r else r) tx := by
  unfold mapTx
  cases s
  · rw [goModify_id "inputs" _ (mapSide_id _ (by simp))]
    congr 1
    funext v
    rw [modSide_eq_mapSide]
    simp
  · rw [goModify_id "outputs" _ (mapSide_id _ (by simp))]
    congr 1
    funext v
    rw [modSide_eq_mapSide]
    simp

theorem mapTxs_id (g : Ref → Record → Record) (k0 : Nat) (txs : List Record)
    (hg : ∀ ref r, k0 ≤ ref.tx → g ref r = r) : mapTxs g k0 txs = txs := by
  induction txs generalizing k0 with
  | nil => rfl
  | cons tx t ih =>
    simp only [mapTxs]
    rw [mapTx_id _ (fun s j r => hg ⟨k0, s, j⟩ r (Nat.le_refl _)),
      ih (k0 + 1) (fun ref r h => hg ref r (by omega))]

theorem mapTxs_comp (f g : Ref → Record → Record) (k0 : Nat) (txs : List Record) :
    mapTxs g k0 (mapTxs f k0 txs) = mapTxs (fun ref r => g ref (f ref r)) k0 txs := by
  induction txs generalizing k0 with
  | nil => rfl
  | cons tx t ih => simp only [mapTxs, mapTx_comp, ih]

theorem modifyAt_eq_mapTxs (f : Record → Record) (ref : Ref) (txs : List Record) (i k0 : Nat)
    (hn : ref.tx = k0 + i) :
    modifyAt (goModify ref.side.key (modSide f ref.idx)) i txs =
      mapTxs (fun ref' r => if ref' = ref then f r else r) k0 txs := by
  induction txs generalizing i k0 with
  | nil => cases i <;> rfl
  | cons tx t ih =>
    obtain ⟨n, s, idx⟩ := ref
    simp only at hn
    cases i with
    | zero =>
      simp only [modifyAt, mapTxs]
      rw [mapTxs_id _ (k0 + 1) t (fun ref' r h => by
        have : ref' ≠ ⟨n, s, idx⟩ := by
          intro e; rw [e] at h; simp only at h; omega
        simp [this])]
      have : k0 = n := by omega
      subst this
      rw [modSide_eq_mapTx]
      simp
    | succ i =>
      simp only [modifyAt, mapTxs]
      rw [← ih i (k0 + 1) (by simp only; omega)]
      rw [mapTx_id _ (fun s' j r => by
        have : k0 ≠ n := by omega
        simp [this])]

theorem modRec_eq_mapRecs (f : Record → Record) (ref : Ref) (txs : List Record) :
    modRec f ref txs = mapRecs (fun ref' r => if ref' = ref then f r else r) txs :=
  modifyAt_eq_mapTxs f ref txs ref.tx 0 (by omega)

theorem mapRecs_comp (f g : Ref → Record → Record) (txs : List Record) :
    mapRecs g (mapRecs f txs) = mapRecs (fun ref r => g ref (f ref r)) txs :=
  mapTxs_comp f g 0 txs

theorem getElem?_mapTxs (g : Ref → Record → Record) (k0 i : Nat) (txs : List Record) :
    (mapTxs g k0 txs)[i]? = (txs[i]?).map (mapTx (fun s j => g ⟨k0 + i, s, j⟩)) := by
  induction txs generalizing k0 i with
  | nil => simp [mapTxs]
  | cons x t ih =>
    cases i with
    | zero => simp [mapTxs]
    | succ i =>
      simp only [mapTxs, List.getElem?_cons_succ]
      rw [ih (k0 + 1) i]
      have : k0 + 1 + i = k0 + (i + 1) := by omega
      rw [this]

theorem getRec_mapRecs (g : Ref → Record → Record) (txs : List Record) (ref : Ref) :
    getRec (mapRecs g txs) ref = (getRec txs ref).map (g ref) := by
  obtain ⟨k, s, j⟩ := ref
  unfold getRec mapRecs
  simp only [getElem?_mapTxs, Nat.zero_add]
  cases htx : txs[k]? with
  | none => simp
  | some tx =>
    simp only [Option.map_some', goGet_mapTx]
    cases hv : goGet s.key tx with
    | none => simp
    | some v =>
      cases v <;> simp [mapSide]
      rename_i xs
      rw [getElem?_mapSlice]
      cases hx : xs[j]? with
      | none => simp
      | some x => cases x <;> simp [modElem]

/-! ### The collector -/

theorem indexList_appendTo (m : List (Bytes × List Ref)) (p q : Bytes) (r : Ref) :
    indexList (appendTo m p r) q = if q = p then indexList m p ++ [r] else indexList m q := by
  unfold appendTo indexList
  by_cases h : q = p
  · subst h; simp [goGet_goSet_self]
  · rw [goGet_goSet_ne (Ne.symm h)]; simp [h]

theorem goGet_appendTo_isSome (m : List (Bytes × List Ref)) (p q : Bytes) (r : Ref) :
    (goGet q (appendTo m p r)).isSome ↔ q = p ∨ (goGet q m).isSome := by
  unfold appendTo
  by_cases h : q = p
  · subst h; simp [goGet_goSet_self]
  · rw [goGet_goSet_ne (Ne.symm h)]; simp [h]

theorem indexed_nil : Indexed ⟨[], [], []⟩ [] := by
  refine ⟨rfl, fun p => rfl, fun p => rfl, fun p => ?_⟩
  simp [goGet]

theorem progOf_of_index_null {r : Record} (h : index r "control_program" = Value.null) :
    progOf r = none := by
  unfold progOf; rw [h]

theorem progOf_of_index_str {r : Record} {s : String} {p : Bytes}
    (h : index r "control_program" = Value.str s) (hp : hexDecodeString s = .ok p) :
    progOf r = some p := by
  unfold progOf; rw [h]; simp only [hp]

theorem updateOne_ok_iff (maps : List MapSel) (ref : Ref) (st st' : Collector) (m : Value) :
    updateOne maps ref st m = .ok st' ↔
      ∃ r, m = Value.map r ∧
        ((index r "control_program" = Value.null ∧ st' = st) ∨
          ∃ s p, index r "control_program" = Value.str s ∧ hexDecodeString s = .ok p ∧
            st' = maps.foldl (fun a sel => a.append sel p ref)
              { st with controlPrograms := st.controlPrograms ++ [p] }) := by
  cases m with
  | map r =>
    simp only [updateOne, Value.map.injEq, exists_eq_left']
    cases hi : index r "control_program" with
    | null => simp [eq_comm]
    | str s =>
      cases hd : hexDecodeString s with
      | error e => simp [hd]
      | ok p =>
        simp only [hd, Except.ok.injEq, Value.str.injEq, false_and, false_or, exists_and_left,
          exists_eq_left', reduceCtorEq]
        exact eq_comm
    | bool b => simp
    | num n => simp
    | raw bs => simp
    | slice xs => simp
    | map kvs => simp
  | null => simp [updateOne]
  | bool b => simp [updateOne]
  | num n => simp [updateOne]
  | str s => simp [updateOne]
  | raw bs => simp [updateOne]
  | slice xs => simp [updateOne]

theorem updateOne_indexed {maps : List MapSel} {ref : Ref} {st st' : Collector} {m : Value}
    {items : List (Ref × Bytes)} (hI : Indexed st items)
    (hm : (maps = [.control, .output] ∧ ref.side = .outputs) ∨
      (maps = [.control] ∧ ref.side = .inputs))
    (h : updateOne maps ref st m = .ok st') : Indexed st' (items ++ scanElem ref m) := by
  obtain ⟨r, hmr, hcase⟩ := (updateOne_ok_iff maps ref st st' m).1 h
  subst hmr
  clear h
  obtain ⟨h1, h2, h3, h4⟩ := hI
  rcases hcase with ⟨hn, rfl⟩ | ⟨s, p, hs, hp, rfl⟩
  · simp only [scanElem, progOf_of_index_null hn, List.append_nil]
    exact ⟨h1, h2, h3, h4⟩
  · simp only [scanElem, progOf_of_index_str hs hp]
    rcases hm with ⟨rfl, hside⟩ | ⟨rfl, hside⟩
    · refine ⟨?_, fun q => ?_, fun q => ?_, fun q => ?_⟩
      · simp [Collector.append, h1]
      · simp only [List.foldl, Collector.append, indexList_appendTo, h2, List.filter_append,
          List.map_append]
        by_cases hq : q = p
        · subst hq; simp
        · simp [hq, Ne.symm hq]
      · simp only [List.foldl, Collector.append, indexList_appendTo, h3, List.filter_append,
          List.map_append]
        by_cases hq : q = p
        · subst hq; simp [hside]
        · simp [hq, Ne.symm hq]
      · simp only [List.foldl, Collector.append, goGet_appendTo_isSome, h4]
        simp [or_comm]
    · refine ⟨?_, fun q => ?_, fun q => ?_, fun q => ?_⟩
      · simp [Collector.append, h1]
      · simp only [List.foldl, Collector.append, indexList_appendTo, h2, List.filter_append,
          List.map_append]
        by_cases hq : q = p
        · subst hq; simp
        · simp [hq, Ne.symm hq]
      · simp only [List.foldl, Collector.append, h3, List.filter_append, List.map_append]
        simp [hside]
      · simp only [List.foldl, Collector.append, goGet_appendTo_isSome, h4]
        simp [or_comm]

theorem updateLoop_indexed {maps : List MapSel} {k : Nat} {side : Side}
    (hm : (maps = [.control, .output] ∧ side = .outputs) ∨ (maps = [.control] ∧ side = .inputs))
    (xs : List Value) (j : Nat) (st st' : Collector) (items : List (Ref × Bytes))
    (hI : Indexed st items) (h : updateLoop maps k side j xs st = .ok st') :
    Indexed st' (items ++ scanSlice k side j xs) := by
  induction xs generalizing j st items with
  | nil =>
    simp only [updateLoop, Except.ok.injEq] at h
    subst h; simpa [scanSlice] using hI
  | cons x t ih =>
    simp only [updateLoop] at h
    cases h1 : updateOne maps ⟨k, side, j⟩ st x with
    | error e => rw [h1] at h; cases h
    | ok st1 =>
      rw [h1] at h
      have := ih (j + 1) st1 _ (updateOne_indexed hI hm h1) h
      simpa [scanSlice, List.append_assoc] using this

theorem update_indexed {maps : List MapSel} {k : Nat} {side : Side}
    (hm : (maps = [.control, .output] ∧ side = .outputs) ∨ (maps = [.control] ∧ side = .inputs))
    (v : Value) (st st' : Collector) (items : List (Ref × Bytes))
    (hI : Indexed st items) (h : update v k side maps st = .ok st') :
    Indexed st' (items ++ scanSide k side v) := by
  cases v with
  | slice xs => exact updateLoop_indexed hm xs 0 st st' items hI h
  | null => simp [update] at h
  | bool b => simp [update] at h
  | num n => simp [update] at h
  | str s => simp [update] at h
  | raw bs => simp [update] at h
  | map kvs => simp [update] at h

theorem collectLoop_indexed (txs : List Record) (k : Nat) (st st' : Collector)
    (items : List (Ref × Bytes)) (hI : Indexed st items)
    (h : collectLoop k txs st = .ok st') : Indexed st' (items ++ scanTxs k txs) := by
  induction txs generalizing k st items with
  | nil =>
    simp only [collectLoop, Except.ok.injEq] at h
    subst h; simpa [scanTxs] using hI
  | cons tx t ih =>
    simp only [collectLoop] at h
    cases h1 : update (index tx "outputs") k .outputs [.control, .output] st with
    | error e => rw [h1] at h; cases h
    | ok st1 =>
      rw [h1] at h
      simp only at h
      cases h2 : update (index tx "inputs") k .inputs [.control] st1 with
      | error e => rw [h2] at h; cases h
      | ok st2 =>
        rw [h2] at h
        have i1 := update_indexed (Or.inl ⟨rfl, rfl⟩) _ st st1 items hI h1
        have i2 := update_indexed (Or.inr ⟨rfl, rfl⟩) _ st1 st2 _ i1 h2
        have := ih (k + 1) st2 _ i2 h
        simpa [scanTxs, List.append_assoc] using this

theorem collect_indexed {txs : List Record} {st : Collector} (h : collect txs = .ok st) :
    Indexed st (scan txs) := by
  have := collectLoop_indexed txs 0 ⟨[], [], []⟩ st [] indexed_nil h
  simpa [scan] using this

theorem updateOne_isOk_iff (maps : List MapSel) (ref : Ref) (st : Collector) (m : Value) :
    (∃ st', updateOne maps ref st m = .ok st') ↔ ElemOk m := by
  constructor
  · rintro ⟨st', h⟩
    obtain ⟨r, hmr, hcase⟩ := (updateOne_ok_iff maps ref st st' m).1 h
    refine ⟨r, hmr, ?_⟩
    rcases hcase with ⟨hn, _⟩ | ⟨s, p, hs, hp, _⟩
    · exact Or.inl hn
    · exact Or.inr ⟨s, p, hs, hp⟩
  · rintro ⟨r, hmr, hok⟩
    rcases hok with hn | ⟨s, p, hs, hp⟩
    · exact ⟨st, (updateOne_ok_iff maps ref st st m).2 ⟨r, hmr, Or.inl ⟨hn, rfl⟩⟩⟩
    · exact ⟨_, (updateOne_ok_iff maps ref st _ m).2 ⟨r, hmr, Or.inr ⟨s, p, hs, hp, rfl⟩⟩⟩

theorem updateLoop_isOk_iff (maps : List MapSel) (k : Nat) (side : Side) (xs : List Value)
    (j : Nat) (st : Collector) :
    (∃ st', updateLoop maps k side j xs st = .ok st') ↔ ∀ x ∈ xs, ElemOk x := by
  induction xs generalizing j st with
  | nil => simp [updateLoop]
  | cons x t ih =>
    simp only [updateLoop, List.mem_cons, forall_eq_or_imp]
    constructor
    · rintro ⟨st', h⟩
      cases h1 : updateOne maps ⟨k, side, j⟩ st x with
      | error e => rw [h1] at h; cases h
      | ok st1 =>
        rw [h1] at h
        exact ⟨(updateOne_isOk_iff _ _ _ _).1 ⟨st1, h1⟩, (ih (j + 1) st1).1 ⟨st', h⟩⟩
    · rintro ⟨hx, ht⟩
      obtain ⟨st1, h1⟩ := (updateOne_isOk_iff maps ⟨k, side, j⟩ st x).2 hx
      obtain ⟨st', h2⟩ := (ih (j + 1) st1).2 ht
      exact ⟨st', by rw [h1]; exact h2⟩

theorem update_isOk_iff (maps : List MapSel) (k : Nat) (side : Side) (v : Value)
    (st : Collector) :
    (∃ st', update v k side maps st = .ok st') ↔
      ∃ xs, v = Value.slice xs ∧ ∀ x ∈ xs, ElemOk x := by
  cases v with
  | slice xs => simpa [update] using updateLoop_isOk_iff maps k side xs 0 st
  | null => simp [update]
  | bool b => simp [update]
  | num n => simp [update]
  | str s => simp [update]
  | raw bs => simp [update]
  | map kvs => simp [update]

theorem collectLoop_isOk_iff (txs : List Record) (k : Nat) (st : Collector) :
    (∃ st', collectLoop k txs st = .ok st') ↔ WellFormed txs := by
  induction txs generalizing k st with
  | nil => simp [collectLoop, WellFormed]
  | cons tx t ih =>
    have hwf : WellFormed (tx :: t) ↔
        ((∃ xs, index tx "outputs" = Value.slice xs ∧ ∀ x ∈ xs, ElemOk x) ∧
          (∃ xs, index tx "inputs" = Value.slice xs ∧ ∀ x ∈ xs, ElemOk x)) ∧
        WellFormed t := by
      unfold WellFormed
      simp only [List.mem_cons, forall_eq_or_imp]
      constructor
      · rintro ⟨h1, h2⟩
        exact ⟨⟨h1 .outputs, h1 .inputs⟩, h2⟩
      · rintro ⟨⟨h1, h2⟩, h3⟩
        refine ⟨fun side => ?_, h3⟩
        cases side
        · exact h1
        · exact h2
    rw [hwf]
    simp only [collectLoop]
    constructor
    · rintro ⟨st', h⟩
      cases h1 : update (index tx "outputs") k .outputs [.control, .output] st with
      | error e => rw [h1] at h; cases h
      | ok st1 =>
        rw [h1] at h
        simp only at h
        cases h2 : update (index tx "inputs") k .inputs [.control] st1 with
        | error e => rw [h2] at h; cases h
        | ok st2 =>
          rw [h2] at h
          exact ⟨⟨(update_isOk_iff _ _ _ _ _).1 ⟨st1, h1⟩, (update_isOk_iff _ _ _ _ _).1 ⟨st2, h2⟩⟩,
            (ih (k + 1) st2).1 ⟨st', h⟩⟩
    · rintro ⟨⟨ho, hi⟩, ht⟩
      obtain ⟨st1, h1⟩ := (update_isOk_iff [.control, .output] k .outputs _ st).2 ho
      obtain ⟨st2, h2⟩ := (update_isOk_iff [.control] k .inputs _ st1).2 hi
      obtain ⟨st', h3⟩ := (ih (k + 1) st2).2 ht
      exact ⟨st', by rw [h1]; simp only; rw [h2]; exact h3⟩

/-- Collection succeeds exactly on the batches whose sides are slices of accepted
records. -/
theorem collect_isOk_iff (txs : List Record) :
    (∃ st, collect txs = .ok st) ↔ WellFormed txs :=
  collectLoop_isOk_iff txs 0 _

theorem collect_error_of_not_wellFormed {txs : List Record} (h : ¬ WellFormed txs) :
    ∃ e, collect txs = .error e := by
  cases hc : collect txs with
  | error e => exact ⟨e, rfl⟩
  | ok st => exact absurd ((collect_isOk_iff txs).1 ⟨st, hc⟩) h

theorem index_eq_slice_iff (tx : Record) (k : String) (xs : List Value) :
    index tx k = Value.slice xs ↔ goGet k tx = some (Value.slice xs) := by
  unfold index
  cases goGet k tx <;> simp

theorem getRec_eq_some_iff (txs : List Record) (ref : Ref) (r : Record) :
    getRec txs ref = some r ↔
      ∃ tx xs, txs[ref.tx]? = some tx ∧ index tx ref.side.key = Value.slice xs ∧
        xs[ref.idx]? = some (Value.map r) := by
  constructor
  · intro h
    unfold getRec at h
    cases htx : txs[ref.tx]? with
    | none => simp [htx] at h
    | some tx =>
      simp only [htx] at h
      cases hv : goGet ref.side.key tx with
      | none => simp [hv] at h
      | some v =>
        cases v with
        | slice xs =>
          simp only [hv] at h
          cases hx : xs[ref.idx]? with
          | none => simp [hx] at h
          | some x =>
            cases x <;> simp [hx] at h
            subst h
            exact ⟨tx, xs, rfl, (index_eq_slice_iff _ _ _).2 hv, hx⟩
        | null => simp [hv] at h
        | bool b => simp [hv] at h
        | num n => simp [hv] at h
        | str s => simp [hv] at h
        | raw bs => simp [hv] at h
        | map kvs => simp [hv] at h
  · rintro ⟨tx, xs, htx, hv, hx⟩
    unfold getRec
    simp only [htx, (index_eq_slice_iff _ _ _).1 hv, hx]

theorem recOk_of_wellFormed {txs : List Record} (h : WellFormed txs) {ref : Ref} {r : Record}
    (hr : getRec txs ref = some r) : RecOk r := by
  obtain ⟨tx, xs, htx, hxs, hx⟩ := (getRec_eq_some_iff txs ref r).1 hr
  obtain ⟨xs', hxs', hall⟩ := h tx (List.mem_iff_getElem?.2 ⟨_, htx⟩) ref.side
  rw [hxs] at hxs'
  cases hxs'
  obtain ⟨r', hr', hok⟩ := hall _ (List.mem_iff_getElem?.2 ⟨_, hx⟩)
  cases hr'
  exact hok

/-! ### The scan order -/

theorem mem_scanElem (ref0 : Ref) (x : Value) (ref : Ref) (p : Bytes) :
    (ref, p) ∈ scanElem ref0 x ↔ ref = ref0 ∧ ∃ r, x = Value.map r ∧ progOf r = some p := by
  cases x with
  | map r =>
    simp only [scanElem, Value.map.injEq, exists_eq_left']
    cases hp : progOf r with
    | none => simp
    | some q => simp [eq_comm]
  | null => simp [scanElem]
  | bool b => simp [scanElem]
  | num n => simp [scanElem]
  | str s => simp [scanElem]
  | raw bs => simp [scanElem]
  | slice xs => simp [scanElem]

theorem mem_scanSlice (k : Nat) (side : Side) (xs : List Value) (j0 : Nat) (ref : Ref)
    (p : Bytes) :
    (ref, p) ∈ scanSlice k side j0 xs ↔
      ref.tx = k ∧ ref.side = side ∧
        ∃ i r, ref.idx = j0 + i ∧ xs[i]? = some (Value.map r) ∧ progOf r = some p := by
  induction xs generalizing j0 with
  | nil => simp [scanSlice]
  | cons x t ih =>
    simp only [scanSlice, List.mem_append, mem_scanElem, ih]
    constructor
    · rintro (⟨rfl, r, rfl, hp⟩ | ⟨h1, h2, i, r, hi, hx, hp⟩)
      · exact ⟨rfl, rfl, 0, r, rfl, by simp, hp⟩
      · exact ⟨h1, h2, i + 1, r, by omega, by simpa using hx, hp⟩
    · rintro ⟨h1, h2, i, r, hi, hx, hp⟩
      cases i with
      | zero =>
        left
        simp only [List.getElem?_cons_zero, Option.some.injEq] at hx
        obtain ⟨a, b, c⟩ := ref
        simp only at h1 h2 hi
        subst h1 h2 hi
        exact ⟨rfl, r, hx, hp⟩
      | succ i =>
        right
        exact ⟨h1, h2, i, r, by omega, by simpa using hx, hp⟩

theorem mem_scanSide (k : Nat) (side : Side) (v : Value) (ref : Ref) (p : Bytes) :
    (ref, p) ∈ scanSide k side v ↔
      ref.tx = k ∧ ref.side = side ∧
        ∃ xs r, v = Value.slice xs ∧ xs[ref.idx]? = some (Value.map r) ∧ progOf r = some p := by
  cases v with
  | slice xs =>
    simp only [scanSide, mem_scanSlice, Value.slice.injEq, Nat.zero_add]
    constructor
    · rintro ⟨h1, h2, i, r, hi, hx, hp⟩
      exact ⟨h1, h2, xs, r, rfl, by rw [hi]; exact hx, hp⟩
    · rintro ⟨h1, h2, xs', r, rfl, hx, hp⟩
      exact ⟨h1, h2, ref.idx, r, rfl, hx, hp⟩
  | null => simp [scanSide]
  | bool b => simp [scanSide]
  | num n => simp [scanSide]
  | str s => simp [scanSide]
  | raw bs => simp [scanSide]
  | map kvs => simp [scanSide]

theorem mem_scanTxs (txs : List Record) (k0 : Nat) (ref : Ref) (p : Bytes) :
    (ref, p) ∈ scanTxs k0 txs ↔
      ∃ i tx, ref.tx = k0 + i ∧ txs[i]? = some tx ∧
        ∃ xs r, index tx ref.side.key = Value.slice xs ∧
          xs[ref.idx]? = some (Value.map r) ∧ progOf r = some p := by
  induction txs generalizing k0 with
  | nil => simp [scanTxs]
  | cons tx t ih =>
    simp only [scanTxs, List.mem_append, mem_scanSide, ih]
    constructor
    · rintro ((⟨h1, h2, xs, r, hv, hx, hp⟩ | ⟨h1, h2, xs, r, hv, hx, hp⟩) |
        ⟨i, tx', hi, htx, hrest⟩)
      · exact ⟨0, tx, by omega, by simp, xs, r, by rw [h2]; exact hv, hx, hp⟩
      · exact ⟨0, tx, by omega, by simp, xs, r, by rw [h2]; exact hv, hx, hp⟩
      · exact ⟨i + 1, tx', by omega, by simpa using htx, hrest⟩
    · rintro ⟨i, tx', hi, htx, xs, r, hv, hx, hp⟩
      cases i with
      | zero =>
        left
        simp only [List.getElem?_cons_zero, Option.some.injEq] at htx
        subst htx
        cases hs : ref.side with
        | outputs =>
          left
          rw [hs] at hv
          exact ⟨by omega, rfl, xs, r, hv, hx, hp⟩
        | inputs =>
          right
          rw [hs] at hv
          exact ⟨by omega, rfl, xs, r, hv, hx, hp⟩
      | succ i =>
        right
        exact ⟨i, tx', by omega, by simpa using htx, xs, r, hv, hx, hp⟩

/-- The scan lists exactly the records of the batch that carry a decodable control
program. -/
theorem mem_scan (txs : List Record) (ref : Ref) (p : Bytes) :
    (ref, p) ∈ scan txs ↔ ∃ r, getRec txs ref = some r ∧ progOf r = some p := by
  unfold scan
  rw [mem_scanTxs]
  simp only [getRec_eq_some_iff, Nat.zero_add]
  constructor
  · rintro ⟨i, tx, hi, htx, xs, r, hv, hx, hp⟩
    exact ⟨r, ⟨tx, xs, by rw [hi]; exact htx, hv, hx⟩, hp⟩
  · rintro ⟨r, ⟨tx, xs, htx, hv, hx⟩, hp⟩
    exact ⟨ref.tx, tx, rfl, htx, xs, r, hv, hx, hp⟩

/-- After a successful collection, `controlMaps[p]` holds exactly the addresses of the
records whose control program decodes to `p`. -/
theorem mem_controlMaps {txs : List Record} {st : Collector} (h : collect txs = .ok st)
    (ref : Ref) (p : Bytes) :
    ref ∈ indexList st.controlMaps p ↔ ∃ r, getRec txs ref = some r ∧ progOf r = some p := by
  rw [(collect_indexed h).2.1 p, ← mem_scan]
  simp only [List.mem_map, List.mem_filter, decide_eq_true_eq, Prod.exists,
    exists_and_right, exists_eq_right]

/-- After a successful collection, `outputMaps[p]` holds exactly the addresses of the
output records whose control program decodes to `p`. -/
theorem mem_outputMaps {txs : List Record} {st : Collector} (h : collect txs = .ok st)
    (ref : Ref) (p : Bytes) :
    ref ∈ indexList st.outputMaps p ↔
      ref.side = Side.outputs ∧ ∃ r, getRec txs ref = some r ∧ progOf r = some p := by
  rw [(collect_indexed h).2.2.1 p, ← mem_scan]
  simp only [List.mem_map, List.mem_filter, decide_eq_true_eq, Prod.exists,
    exists_and_right, exists_eq_right]
  constructor
  · rintro ⟨q, hm, rfl, hs⟩; exact ⟨hs, hm⟩
  · rintro ⟨hs, hm⟩; exact ⟨p, hm, rfl, hs⟩

/-! ### Sequences of assignments -/

theorem applyOps_nil (r : Record) : applyOps [] r = r := rfl

theorem applyOps_cons (k : String) (v : Value) (ops : List (String × Value)) (r : Record) :
    applyOps ((k, v) :: ops) r = applyOps ops (goSet k v r) := rfl

theorem applyOps_append (ops1 ops2 : List (String × Value)) (r : Record) :
    applyOps (ops1 ++ ops2) r = applyOps ops2 (applyOps ops1 r) := by
  simp [applyOps, List.foldl_append]

/-- The last assignment to a key wins; a key never assigned keeps its value. -/
theorem goGet_applyOps (k : String) (ops : List (String × Value)) (r : Record) :
    goGet k (applyOps ops r) =
      match lastVal k ops with
      | some w => some w
      | none => goGet k r := by
  induction ops generalizing r with
  | nil => rfl
  | cons op rest ih =>
    obtain ⟨k1, v1⟩ := op
    rw [applyOps_cons, ih]
    simp only [lastVal]
    cases hl : lastVal k rest with
    | some w => rfl
    | none =>
      by_cases h : k1 = k
      · subst h; simp [goGet_goSet_self]
      · simp [h, goGet_goSet_ne h]

theorem goSet_of_goGet {κ ν : Type} [DecidableEq κ] {k : κ} {v : ν} {l : List (κ × ν)}
    (h : goGet k l = some v) : goSet k v l = l := by
  induction l with
  | nil => simp [goGet] at h
  | cons a t ih =>
    obtain ⟨k0, v0⟩ := a
    by_cases h0 : k0 = k
    · subst h0
      simp only [goGet, if_true, Option.some.injEq] at h
      simp [goSet, h]
    · simp only [goGet, h0, if_false] at h
      simp [goSet, h0, ih h]

theorem goGet_isSome_applyOps (k : String) (ops : List (String × Value)) (r : Record)
    (h : (goGet k r).isSome) : (goGet k (applyOps ops r)).isSome := by
  rw [goGet_applyOps]
  cases lastVal k ops with
  | some w => rfl
  | none => exact h

theorem applyOps_goSet_absorb (k : String) (v : Value) (ops : List (String × Value))
    (r : Record) (hl : (lastVal k ops).isSome) (hp : (goGet k r).isSome) :
    applyOps ops (goSet k v r) = applyOps ops r := by
  induction ops generalizing r with
  | nil => simp [lastVal] at hl
  | cons op rest ih =>
    obtain ⟨k1, v1⟩ := op
    simp only [applyOps_cons]
    by_cases h : k1 = k
    · subst h; rw [goSet_goSet_same]
    · have hl' : (lastVal k rest).isSome := by
        simp only [lastVal] at hl
        cases hr : lastVal k rest with
        | some w => rfl
        | none => rw [hr] at hl; simp [h] at hl
      rw [← goSet_comm (Ne.symm h) v v1 r hp]
      exact ih _ hl' (goGet_isSome_goSet k k1 v1 r hp)

/-- Running a sequence of assignments a second time changes nothing. -/
theorem applyOps_idem (ops : List (String × Value)) (r : Record) :
    applyOps ops (applyOps ops r) = applyOps ops r := by
  induction ops generalizing r with
  | nil => rfl
  | cons op rest ih =>
    obtain ⟨k, v⟩ := op
    simp only [applyOps_cons]
    have hk : goGet k (goSet k v r) = some v := goGet_goSet_self k v r
    cases hl : lastVal k rest with
    | some w =>
      rw [applyOps_goSet_absorb k v rest _ (by rw [hl]; rfl)
        (goGet_isSome_applyOps k rest _ (by rw [hk]; rfl))]
      exact ih _
    | none =>
      have : goGet k (applyOps rest (goSet k v r)) = some v := by
        rw [goGet_applyOps, hl]; exact hk
      rw [goSet_of_goGet this]
      exact ih _

theorem annotateIdentity_eq (id : String) (tag : Option Bytes) (accountAlias : NullString)
    (m : Record) :
    annotateIdentity id tag accountAlias m = applyOps (identityOps id tag accountAlias) m := by
  unfold annotateIdentity identityOps
  cases tag <;> cases hv : accountAlias.valid <;> simp [applyOps]

theorem annotatePurpose_eq (change : Bool) (out : Record) :
    annotatePurpose change out = applyOps (purposeOps change) out := by
  unfold annotatePurpose purposeOps
  cases change <;> simp [applyOps]

/-! ### The distributor -/

theorem mapRecs_id (txs : List Record) : mapRecs (fun _ r => r) txs = txs :=
  mapTxs_id _ 0 txs (fun _ _ _ => rfl)

theorem foldl_modRec (f : Record → Record) (hf : ∀ r, f (f r) = f r) (refs : List Ref)
    (txs : List Record) :
    refs.foldl (fun t ref => modRec f ref t) txs =
      mapRecs (fun ref r => if ref ∈ refs then f r else r) txs := by
  induction refs generalizing txs with
  | nil => simp [mapRecs_id]
  | cons a t ih =>
    simp only [List.foldl_cons]
    rw [ih, modRec_eq_mapRecs, mapRecs_comp]
    congr 1
    funext ref r
    by_cases h1 : ref = a <;> by_cases h2 : ref ∈ t <;> simp [h1, h2, hf]

theorem distributeScanRow_eq (cm om : List (Bytes × List Ref)) (txs : List Record)
    (row : ScanRow) :
    distributeScanRow cm om txs row =
      mapRecs (fun ref r => applyOps (opsAt cm om row ref) r) txs := by
  unfold distributeScanRow distributeRow
  simp only
  rw [foldl_modRec _ (fun r => by simp only [annotatePurpose_eq]; rw [applyOps_idem]),
    foldl_modRec _ (fun r => by simp only [annotateIdentity_eq]; rw [applyOps_idem]),
    mapRecs_comp]
  congr 1
  funext ref r
  unfold opsAt
  rw [applyOps_append]
  by_cases h1 : ref ∈ indexList cm row.program <;>
    by_cases h2 : ref ∈ indexList om row.program <;>
    simp [h1, h2, annotateIdentity_eq, annotatePurpose_eq, applyOps_nil]

theorem foldl_distributeScanRow (cm om : List (Bytes × List Ref)) (rows : List ScanRow)
    (txs : List Record) :
    rows.foldl (distributeScanRow cm om) txs =
      mapRecs (fun ref r => applyOps (allOpsAt cm om rows ref) r) txs := by
  induction rows generalizing txs with
  | nil => simp [allOpsAt, applyOps_nil, mapRecs_id]
  | cons row t ih =>
    simp only [List.foldl_cons]
    rw [ih, distributeScanRow_eq, mapRecs_comp]
    congr 1
    funext ref r
    simp [allOpsAt, applyOps_append]

theorem foldl_callback (rows : List ScanRow) (c : Columns) :
    rows.foldl callback c =
      { ids := c.ids ++ rows.map ScanRow.accountID
        programs := c.programs ++ rows.map ScanRow.program
        changeFlags := c.changeFlags ++ rows.map ScanRow.change
        aliases := c.aliases ++ rows.map ScanRow.accountAlias
        tags := c.tags ++ rows.map rowTag } := by
  induction rows generalizing c with
  | nil => simp
  | cons row t ih =>
    simp only [List.foldl_cons, ih]
    simp [callback, rowTag]

/-- The five columns are the columns of the table of rows. -/
theorem scanRows_eq (rows : List ScanRow) :
    scanRows rows =
      { ids := rows.map ScanRow.accountID
        programs := rows.map ScanRow.program
        changeFlags := rows.map ScanRow.change
        aliases := rows.map ScanRow.accountAlias
        tags := rows.map rowTag } := by
  unfold scanRows
  rw [foldl_callback]
  simp

theorem distribute_take (cm om : List (Bytes × List Ref)) (rows : List ScanRow)
    (txs : List Record) (n : Nat) (hn : n ≤ rows.length) :
    (List.range n).foldlM (fun t i =>
      match (rows.map ScanRow.accountID)[i]?, (rows.map ScanRow.program)[i]?,
        (rows.map ScanRow.change)[i]?, (rows.map ScanRow.accountAlias)[i]?,
        (rows.map rowTag)[i]? with
      | some id, some program, some change, some accountAlias, some tag =>
        some (distributeRow cm om t id program change accountAlias tag)
      | _, _, _, _, _ => none) txs =
      some ((rows.take n).foldl (distributeScanRow cm om) txs) := by
  induction n with
  | zero => simp
  | succ n ih =>
    have hlt : n < rows.length := by omega
    rw [List.range_succ, List.foldlM_append, ih (by omega)]
    have hrow : rows[n]? = some rows[n] := List.getElem?_eq_getElem hlt
    simp only [Option.bind_eq_bind, Option.some_bind, List.foldlM_cons, List.foldlM_nil,
      List.getElem?_map, hrow, Option.map_some', Option.bind_some]
    have htake : List.take (n + 1) rows = List.take n rows ++ [rows[n]] := by
      rw [List.take_succ, hrow]; rfl
    rw [htake, List.foldl_append]
    rfl

/-- The distribution loop never panics on the columns the callback builds, and is the
row-by-row distribution. -/
theorem distribute_scanRows (cm om : List (Bytes × List Ref)) (rows : List ScanRow)
    (txs : List Record) :
    distribute (scanRows rows) cm om txs =
      some (mapRecs (fun ref r => applyOps (allOpsAt cm om rows ref) r) txs) := by
  unfold distribute
  rw [scanRows_eq]
  simp only [List.length_map]
  rw [distribute_take cm om rows txs rows.length (Nat.le_refl _), List.take_length,
    foldl_distributeScanRow]

/-! ### The three outcomes of `AnnotateTxs` -/

theorem AnnotateTxs_collect_error {db : List Bytes → QueryResult} {txs : List Record}
    {e : Error} (h : collect txs = .error e) : AnnotateTxs db txs = some (some e, txs) := by
  unfold AnnotateTxs; rw [h]

theorem AnnotateTxs_registry_error {db : List Bytes → QueryResult} {txs : List Record}
    {st : Collector} {e : Error} (h : collect txs = .ok st)
    (he : (db st.controlPrograms).err = some e) : AnnotateTxs db txs = some (some e, txs) := by
  unfold AnnotateTxs; rw [h]; simp only [he]

theorem AnnotateTxs_ok {db : List Bytes → QueryResult} {txs : List Record}
    {st : Collector} (h : collect txs = .ok st) (he : (db st.controlPrograms).err = none) :
    AnnotateTxs db txs = some (none, mapRecs (fun ref r =>
      applyOps (allOpsAt st.controlMaps st.outputMaps (db st.controlPrograms).rows ref) r)
        txs) := by
  unfold AnnotateTxs; rw [h]; simp only [he, distribute_scanRows]

/-- A successful run is a successful collection followed by a successful lookup. -/
theorem AnnotateTxs_ok_inv {db : List Bytes → QueryResult} {txs txs' : List Record}
    (h : AnnotateTxs db txs = some (none, txs')) :
    ∃ st, collect txs = .ok st ∧ (db st.controlPrograms).err = none ∧
      txs' = mapRecs (fun ref r =>
        applyOps (allOpsAt st.controlMaps st.outputMaps (db st.controlPrograms).rows ref) r)
          txs := by
  cases hc : collect txs with
  | error e => rw [AnnotateTxs_collect_error hc] at h; simp at h
  | ok st =>
    cases he : (db st.controlPrograms).err with
    | some e => rw [AnnotateTxs_registry_error hc he] at h; simp at h
    | none =>
      rw [AnnotateTxs_ok hc he] at h
      simp only [Option.some.injEq, Prod.mk.injEq, true_and] at h
      exact ⟨st, rfl, he, h.symm⟩

/-- `AnnotateTxs` never panics. -/
theorem AnnotateTxs_total (db : List Bytes → QueryResult) (txs : List Record) :
    ∃ out, AnnotateTxs db txs = some out := by
  cases hc : collect txs with
  | error e => exact ⟨_, AnnotateTxs_collect_error hc⟩
  | ok st =>
    cases he : (db st.controlPrograms).err with
    | some e => exact ⟨_, AnnotateTxs_registry_error hc he⟩
    | none => exact ⟨_, AnnotateTxs_ok hc he⟩

/-! ### The annotation of a single record -/

theorem opsAt_eq {txs : List Record} {st : Collector} (h : collect txs = .ok st)
    {ref : Ref} {r : Record} (hr : getRec txs ref = some r) (row : ScanRow) :
    opsAt st.controlMaps st.outputMaps row ref =
      if progOf r = some row.program then rowOps ref.side row else [] := by
  unfold opsAt rowOps
  have h1 : ref ∈ indexList st.controlMaps row.program ↔ progOf r = some row.program := by
    rw [mem_controlMaps h, hr]; simp
  have h2 : ref ∈ indexList st.outputMaps row.program ↔
      (ref.side = Side.outputs ∧ progOf r = some row.program) := by
    rw [mem_outputMaps h, hr]; simp
  by_cases hp : progOf r = some row.program
  · by_cases hs : ref.side = Side.outputs
    · simp [h1.2 hp, h2.2 ⟨hs, hp⟩, hp, hs]
    · have : ref ∉ indexList st.outputMaps row.program := fun hm => hs (h2.1 hm).1
      simp [h1.2 hp, this, hp, hs]
  · have n1 : ref ∉ indexList st.controlMaps row.program := fun hm => hp (h1.1 hm)
    have n2 : ref ∉ indexList st.outputMaps row.program := fun hm => hp (h2.1 hm).2
    simp [n1, n2, hp]

theorem allOpsAt_eq {txs : List Record} {st : Collector} (h : collect txs = .ok st)
    {ref : Ref} {r : Record} (hr : getRec txs ref = some r) (rows : List ScanRow) :
    applyOps (allOpsAt st.controlMaps st.outputMaps rows ref) r = annotRec ref.side rows r := by
  unfold allOpsAt annotRec
  cases hp : progOf r with
  | none =>
    have : rows.map (fun row => opsAt st.controlMaps st.outputMaps row ref) =
        rows.map (fun _ => []) := by
      apply List.map_congr_left
      intro row _
      rw [opsAt_eq h hr, hp]; simp
    rw [this]
    have hnil : (rows.map (fun _ => ([] : List (String × Value)))).flatten = [] := by
      induction rows with
      | nil => rfl
      | cons a t ih => simp
    rw [hnil]; rfl
  | some p =>
    have : rows.map (fun row => opsAt st.controlMaps st.outputMaps row ref) =
        rows.map (fun row => if row.program = p then rowOps ref.side row else []) := by
      apply List.map_congr_left
      intro row _
      rw [opsAt_eq h hr, hp]
      by_cases hq : row.program = p
      · simp [hq]
      · have : ¬ p = row.program := fun e => hq e.symm
        simp [hq, this]
    simp only [this, progOps]

/-- After a successful run every record is the annotation of what it was: the record at
each address is `annotRec` of the record that was there. -/
theorem getRec_AnnotateTxs {db : List Bytes → QueryResult} {txs txs' : List Record}
    (h : AnnotateTxs db txs = some (none, txs')) :
    ∃ st, collect txs = .ok st ∧ (db st.controlPrograms).err = none ∧
      ∀ ref, getRec txs' ref =
        (getRec txs ref).map (annotRec ref.side (db st.controlPrograms).rows) := by
  obtain ⟨st, hc, he, rfl⟩ := AnnotateTxs_ok_inv h
  refine ⟨st, hc, he, fun ref => ?_⟩
  rw [getRec_mapRecs]
  cases hr : getRec txs ref with
  | none => rfl
  | some r => simp only [Option.map_some', allOpsAt_eq hc hr]

theorem lastVal_append (k : String) (a b : List (String × Value)) :
    lastVal k (a ++ b) =
      match lastVal k b with
      | some w => some w
      | none => lastVal k a := by
  induction a with
  | nil => simp only [List.nil_append, lastVal]; cases lastVal k b <;> rfl
  | cons op t ih =>
    obtain ⟨k1, v1⟩ := op
    have e : (k1, v1) :: t ++ b = (k1, v1) :: (t ++ b) := rfl
    rw [e]
    simp only [lastVal]
    rw [ih]
    cases lastVal k b <;> rfl

theorem lastVal_eq_none {k : String} {ops : List (String × Value)}
    (h : ∀ op ∈ ops, op.1 ≠ k) : lastVal k ops = none := by
  induction ops with
  | nil => rfl
  | cons op t ih =>
    obtain ⟨k1, v1⟩ := op
    simp only [lastVal, ih (fun o ho => h o (List.mem_cons_of_mem _ ho))]
    have : k1 ≠ k := h (k1, v1) (List.mem_cons_self _ _)
    simp [this]

theorem progOps_nil (side : Side) (p : Bytes) : progOps side [] p = [] := rfl

theorem progOps_cons (side : Side) (row : ScanRow) (rows : List ScanRow) (p : Bytes) :
    progOps side (row :: rows) p =
      (if row.program = p then rowOps side row else []) ++ progOps side rows p := by
  simp [progOps]

theorem progOps_eq_nil {side : Side} {rows : List ScanRow} {p : Bytes}
    (h : ∀ row ∈ rows, row.program ≠ p) : progOps side rows p = [] := by
  induction rows with
  | nil => rfl
  | cons a t ih =>
    rw [progOps_cons, ih (fun row hr => h row (List.mem_cons_of_mem _ hr))]
    simp [h a (List.mem_cons_self _ _)]

/-- When the programs of the rows are pairwise distinct, the assignments to a record are
those of the one row for its program. -/
theorem progOps_of_nodup {side : Side} {rows : List ScanRow} {row : ScanRow}
    (hnd : (rows.map ScanRow.program).Nodup) (hm : row ∈ rows) :
    progOps side rows row.program = rowOps side row := by
  induction rows with
  | nil => cases hm
  | cons a t ih =>
    simp only [List.map_cons, List.nodup_cons, List.mem_map, not_exists, not_and] at hnd
    rw [progOps_cons]
    rcases List.mem_cons.1 hm with rfl | hmt
    · rw [progOps_eq_nil (fun r hr e => hnd.1 r hr e)]
      simp
    · have : a.program ≠ row.program := fun e => hnd.1 row hmt e.symm
      rw [ih hnd.2 hmt]
      simp [this]

theorem mem_rowOps_key {side : Side} {row : ScanRow} {op : String × Value}
    (h : op ∈ rowOps side row) :
    op.1 = "account_id" ∨ op.1 = "account_tags" ∨ op.1 = "account_alias" ∨ op.1 = "purpose" := by
  unfold rowOps identityOps purposeOps at h
  simp only [List.mem_append, List.mem_singleton] at h
  rcases h with ((h | h) | h) | h
  · subst h; simp
  · cases hr : rowTag row with
    | none => rw [hr] at h; simp at h
    | some t => rw [hr] at h; simp at h; subst h; simp
  · by_cases hv : row.accountAlias.valid
    · simp [hv] at h; subst h; simp
    · simp [hv] at h
  · by_cases hs : side = Side.outputs
    · simp [hs] at h; subst h; simp
    · simp [hs] at h

theorem mem_progOps_key {side : Side} {rows : List ScanRow} {p : Bytes} {op : String × Value}
    (h : op ∈ progOps side rows p) :
    op.1 = "account_id" ∨ op.1 = "account_tags" ∨ op.1 = "account_alias" ∨ op.1 = "purpose" := by
  induction rows with
  | nil => simp [progOps] at h
  | cons a t ih =>
    rw [progOps_cons, List.mem_append] at h
    rcases h with h | h
    · by_cases hp : a.program = p
      · simp only [hp, if_true] at h; exact mem_rowOps_key h
      · simp [hp] at h
    · exact ih h

theorem lastVal_rowOps_id (side : Side) (row : ScanRow) :
    lastVal "account_id" (rowOps side row) = some (Value.str row.accountID) := by
  unfold rowOps identityOps purposeOps
  cases rowTag row <;> cases row.accountAlias.valid <;> cases side <;> simp [lastVal]

theorem lastVal_rowOps_tags (side : Side) (row : ScanRow) :
    lastVal "account_tags" (rowOps side row) = (rowTag row).map Value.raw := by
  unfold rowOps identityOps purposeOps
  cases rowTag row <;> cases row.accountAlias.valid <;> cases side <;> simp [lastVal]

theorem lastVal_rowOps_alias (side : Side) (row : ScanRow) :
    lastVal "account_alias" (rowOps side row) =
      if row.accountAlias.valid then some (Value.str row.accountAlias.str) else none := by
  unfold rowOps identityOps purposeOps
  cases rowTag row <;> cases row.accountAlias.valid <;> cases side <;> simp [lastVal]

theorem lastVal_rowOps_purpose (row : ScanRow) :
    lastVal "purpose" (rowOps Side.outputs row) =
      some (Value.str (if row.change then "change" else "receive")) := by
  unfold rowOps identityOps purposeOps
  cases rowTag row <;> cases row.accountAlias.valid <;> simp [lastVal]

theorem lastVal_rowOps_purpose_inputs (row : ScanRow) :
    lastVal "purpose" (rowOps Side.inputs row) = none := by
  unfold rowOps identityOps purposeOps
  cases rowTag row <;> cases row.accountAlias.valid <;> simp [lastVal]

theorem lastVal_rowOps_side {k : String} (hk : k ≠ "purpose") (side : Side) (row : ScanRow) :
    lastVal k (rowOps side row) = lastVal k (rowOps Side.inputs row) := by
  cases side with
  | inputs => rfl
  | outputs =>
    have hk' : ¬ "purpose" = k := fun e => hk e.symm
    unfold rowOps identityOps purposeOps
    cases rowTag row <;> cases row.accountAlias.valid <;> simp [lastVal, hk']

theorem lastVal_progOps_side {k : String} (hk : k ≠ "purpose") (side : Side)
    (rows : List ScanRow) (p : Bytes) :
    lastVal k (progOps side rows p) = lastVal k (progOps Side.inputs rows p) := by
  induction rows with
  | nil => rfl
  | cons a t ih =>
    simp only [progOps_cons, lastVal_append, ih]
    by_cases hp : a.program = p
    · simp only [hp, if_true, lastVal_rowOps_side hk side a]
    · simp only [hp, if_false]

/-- The purpose the rows give an output record is that of the last row for its
program. -/
theorem lastVal_progOps_purpose (rows : List ScanRow) (p : Bytes) :
    lastVal "purpose" (progOps Side.outputs rows p) =
      (lastRowFor p rows).map
        (fun row => Value.str (if row.change then "change" else "receive")) := by
  induction rows with
  | nil => rfl
  | cons a t ih =>
    simp only [progOps_cons, lastVal_append, ih, lastRowFor]
    cases lastRowFor p t with
    | some found => rfl
    | none =>
      by_cases hp : a.program = p
      · simp [hp, lastVal_rowOps_purpose]
      · simp [hp, lastVal]

theorem lastVal_progOps_purpose_inputs (rows : List ScanRow) (p : Bytes) :
    lastVal "purpose" (progOps Side.inputs rows p) = none := by
  induction rows with
  | nil => rfl
  | cons a t ih =>
    simp only [progOps_cons, lastVal_append, ih]
    by_cases hp : a.program = p
    · simp only [hp, if_true, lastVal_rowOps_purpose_inputs]
    · simp [hp, lastVal]

theorem lastRowFor_eq_none {p : Bytes} {rows : List ScanRow} :
    lastRowFor p rows = none ↔ ∀ row ∈ rows, row.program ≠ p := by
  induction rows with
  | nil => simp [lastRowFor]
  | cons a t ih =>
    simp only [lastRowFor, List.mem_cons, forall_eq_or_imp]
    cases hl : lastRowFor p t with
    | some found =>
      rw [hl] at ih
      simp only [reduceCtorEq, false_iff] at ih ⊢
      exact fun hh => ih hh.2
    | none =>
      rw [hl] at ih
      by_cases hp : a.program = p
      · simp [hp]
      · simp only [hp, if_false, true_iff]
        exact ⟨hp, ih.1 rfl⟩

theorem lastRowFor_of_nodup {rows : List ScanRow} {row : ScanRow}
    (hnd : (rows.map ScanRow.program).Nodup) (hm : row ∈ rows) :
    lastRowFor row.program rows = some row := by
  induction rows with
  | nil => cases hm
  | cons a t ih =>
    simp only [List.map_cons, List.nodup_cons, List.mem_map, not_exists, not_and] at hnd
    simp only [lastRowFor]
    rcases List.mem_cons.1 hm with rfl | hmt
    · rw [lastRowFor_eq_none.2 (fun r hr e => hnd.1 r hr e)]
      simp
    · rw [ih hnd.2 hmt]

/-- The annotation of a record leaves its control program alone. -/
theorem index_applyOps_progOps (side : Side) (rows : List ScanRow) (p : Bytes) (r : Record) :
    index (applyOps (progOps side rows p) r) "control_program" = index r "control_program" := by
  unfold index
  rw [goGet_applyOps, lastVal_eq_none]
  intro op hop
  rcases mem_progOps_key hop with h | h | h | h <;> rw [h] <;> decide

/-! ### `hex.DecodeString` -/

theorem hexDecode_isOk_aux (n : Nat) (cs : List Char) (hn : cs.length ≤ n) :
    (∃ p, hexDecode cs = .ok p) ↔
      cs.length % 2 = 0 ∧ ∀ c ∈ cs, (fromHexChar c).isSome := by
  induction n generalizing cs with
  | zero =>
    cases cs with
    | nil => simp [hexDecode]
    | cons c t => simp at hn
  | succ n ih =>
    cases cs with
    | nil => simp [hexDecode]
    | cons p t =>
      cases t with
      | nil => by_cases h : (fromHexChar p).isNone <;> simp [hexDecode, h]
      | cons q rest =>
        have hrest := ih rest (by simp only [List.length_cons] at hn; omega)
        have hlen : (p :: q :: rest).length % 2 = 0 ↔ rest.length % 2 = 0 := by
          simp only [List.length_cons]; omega
        rw [hlen]
        cases hp : fromHexChar p with
        | none => simp [hexDecode, hp]
        | some a =>
          cases hq : fromHexChar q with
          | none => simp [hexDecode, hp, hq]
          | some b =>
            cases hd : hexDecode rest with
            | error e =>
              rw [hd] at hrest
              simp only [reduceCtorEq, exists_false, false_iff] at hrest
              simp only [hexDecode, hp, hq, hd, reduceCtorEq, exists_false, false_iff]
              intro hh
              exact hrest ⟨hh.1, fun c hc => hh.2 c (by simp [hc])⟩
            | ok bs =>
              rw [hd] at hrest
              have hr := hrest.1 ⟨bs, rfl⟩
              simp only [hexDecode, hp, hq, hd, Except.ok.injEq, exists_eq', true_iff]
              refine ⟨hr.1, fun c hc => ?_⟩
              simp only [List.mem_cons] at hc
              rcases hc with rfl | rfl | hc
              · simp [hp]
              · simp [hq]
              · exact hr.2 c hc

theorem hexDecode_isOk_iff (cs : List Char) :
    (∃ p, hexDecode cs = .ok p) ↔
      cs.length % 2 = 0 ∧ ∀ c ∈ cs, (fromHexChar c).isSome :=
  hexDecode_isOk_aux cs.length cs (Nat.le_refl _)

/-- `hex.DecodeString` fails exactly on the strings of odd length or with a character
that is not a hexadecimal digit. -/
theorem hexDecodeString_error_iff (s : String) :
    (∃ e, hexDecodeString s = .error e) ↔
      s.length % 2 = 1 ∨ ∃ c ∈ s.data, fromHexChar c = none := by
  have h := hexDecode_isOk_iff s.data
  unfold hexDecodeString
  have hlen : s.length = s.data.length := rfl
  rw [hlen]
  constructor
  · rintro ⟨e, he⟩
    by_contra hcon
    simp only [not_or, not_exists, not_and] at hcon
    have : ∃ p, hexDecode s.data = .ok p :=
      h.2 ⟨by omega, fun c hc => by
        cases hf : fromHexChar c with
        | none => exact absurd hf (hcon.2 c hc)
        | some v => rfl⟩
    obtain ⟨p, hp⟩ := this
    rw [hp] at he
    cases he
  · intro hbad
    cases hd : hexDecode s.data with
    | error e => exact ⟨e, rfl⟩
    | ok p =>
      have := h.1 ⟨p, hd⟩
      rcases hbad with hodd | ⟨c, hc, hf⟩
      · omega
      · have := this.2 c hc
        rw [hf] at this
        cases this

/-! ### Collection looks at the control programs only -/

theorem updateOne_modElem (f : Record → Record)
    (hf : ∀ r, index (f r) "control_program" = index r "control_program")
    (maps : List MapSel) (ref : Ref) (st : Collector) (x : Value) :
    updateOne maps ref st (modElem f x) = updateOne maps ref st x := by
  cases x <;> simp [modElem, updateOne, hf]

theorem updateLoop_mapSlice (g : Nat → Record → Record)
    (hg : ∀ j r, index (g j r) "control_program" = index r "control_program")
    (maps : List MapSel) (k : Nat) (side : Side) (xs : List Value) (j : Nat) (st : Collector) :
    updateLoop maps k side j (mapSlice g j xs) st = updateLoop maps k side j xs st := by
  induction xs generalizing j st with
  | nil => rfl
  | cons x t ih =>
    simp only [mapSlice, updateLoop, updateOne_modElem _ (hg j)]
    cases updateOne maps ⟨k, side, j⟩ st x with
    | error e => rfl
    | ok st1 => exact ih (j + 1) st1

theorem update_mapSide (g : Nat → Record → Record)
    (hg : ∀ j r, index (g j r) "control_program" = index r "control_program")
    (maps : List MapSel) (k : Nat) (side : Side) (v : Value) (st : Collector) :
    update (mapSide g v) k side maps st = update v k side maps st := by
  cases v with
  | slice xs => exact updateLoop_mapSlice g hg maps k side xs 0 st
  | null => rfl
  | bool b => rfl
  | num n => rfl
  | str s => rfl
  | raw bs => rfl
  | map kvs => rfl

theorem index_mapTx (g : Side → Nat → Record → Record) (s : Side) (tx : Record) :
    index (mapTx g tx) s.key = mapSide (g s) (index tx s.key) := by
  unfold index
  rw [goGet_mapTx]
  cases goGet s.key tx <;> rfl

theorem collectLoop_mapTxs (g : Ref → Record → Record)
    (hg : ∀ ref r, index (g ref r) "control_program" = index r "control_program")
    (txs : List Record) (k : Nat) (st : Collector) :
    collectLoop k (mapTxs g k txs) st = collectLoop k txs st := by
  induction txs generalizing k st with
  | nil => rfl
  | cons tx t ih =>
    simp only [mapTxs, collectLoop]
    have ho := index_mapTx (fun s j => g ⟨k, s, j⟩) .outputs tx
    have hi := index_mapTx (fun s j => g ⟨k, s, j⟩) .inputs tx
    simp only [Side.key] at ho hi
    rw [ho, hi, update_mapSide _ (fun j r => hg ⟨k, .outputs, j⟩ r)]
    cases update (index tx "outputs") k .outputs [.control, .output] st with
    | error e => rfl
    | ok st1 =>
      simp only
      rw [update_mapSide _ (fun j r => hg ⟨k, .inputs, j⟩ r)]
      cases update (index tx "inputs") k .inputs [.control] st1 with
      | error e => rfl
      | ok st2 => exact ih (k + 1) st2

/-- A change of the records that keeps their `control_program` fields does not change
what the collector computes. -/
theorem collect_mapRecs (g : Ref → Record → Record)
    (hg : ∀ ref r, index (g ref r) "control_program" = index r "control_program")
    (txs : List Record) : collect (mapRecs g txs) = collect txs :=
  collectLoop_mapTxs g hg txs 0 _

theorem mem_opsAt_key {cm om : List (Bytes × List Ref)} {row : ScanRow} {ref : Ref}
    {op : String × Value} (h : op ∈ opsAt cm om row ref) :
    op.1 = "account_id" ∨ op.1 = "account_tags" ∨ op.1 = "account_alias" ∨ op.1 = "purpose" := by
  unfold opsAt at h
  rw [List.mem_append] at h
  rcases h with h | h
  · by_cases hm : ref ∈ indexList cm row.program
    · simp only [hm, if_true] at h
      exact @mem_rowOps_key Side.inputs row op (by unfold rowOps; simp [h])
    · simp [hm] at h
  · by_cases hm : ref ∈ indexList om row.program
    · simp only [hm, if_true] at h
      exact @mem_rowOps_key Side.outputs row op (by unfold rowOps; simp [h])
    · simp [hm] at h

theorem index_applyOps_allOpsAt (cm om : List (Bytes × List Ref)) (rows : List ScanRow)
    (ref : Ref) (r : Record) :
    index (applyOps (allOpsAt cm om rows ref) r) "control_program" =
      index r "control_program" := by
  unfold index
  rw [goGet_applyOps, lastVal_eq_none]
  intro op hop
  unfold allOpsAt at hop
  simp only [List.mem_flatten, List.mem_map, exists_exists_and_eq_and] at hop
  obtain ⟨row, _, hmem⟩ := hop
  rcases mem_opsAt_key hmem with h | h | h | h <;> rw [h] <;> decide

/-! ### Every record is scanned once -/

theorem scanElem_nodup (ref : Ref) (x : Value) : ((scanElem ref x).map Prod.fst).Nodup := by
  cases x with
  | map r =>
    simp only [scanElem]
    cases progOf r <;> simp
  | null => simp [scanElem]
  | bool b => simp [scanElem]
  | num n => simp [scanElem]
  | str s => simp [scanElem]
  | raw bs => simp [scanElem]
  | slice xs => simp [scanElem]

theorem mem_fst_scanElem {ref0 ref : Ref} {x : Value}
    (h : ref ∈ (scanElem ref0 x).map Prod.fst) : ref = ref0 := by
  simp only [List.mem_map, Prod.exists, exists_and_right, exists_eq_right] at h
  obtain ⟨p, hp⟩ := h
  exact ((mem_scanElem ref0 x ref p).1 hp).1

theorem mem_fst_scanSlice {k : Nat} {side : Side} {xs : List Value} {j0 : Nat} {ref : Ref}
    (h : ref ∈ (scanSlice k side j0 xs).map Prod.fst) :
    ref.tx = k ∧ ref.side = side ∧ j0 ≤ ref.idx := by
  simp only [List.mem_map, Prod.exists, exists_and_right, exists_eq_right] at h
  obtain ⟨p, hp⟩ := h
  obtain ⟨h1, h2, i, r, hi, _, _⟩ := (mem_scanSlice k side xs j0 ref p).1 hp
  exact ⟨h1, h2, by omega⟩

theorem scanSlice_nodup (k : Nat) (side : Side) (xs : List Value) (j0 : Nat) :
    ((scanSlice k side j0 xs).map Prod.fst).Nodup := by
  induction xs generalizing j0 with
  | nil => simp [scanSlice]
  | cons x t ih =>
    simp only [scanSlice, List.map_append]
    rw [List.nodup_append]
    refine ⟨scanElem_nodup _ x, ih (j0 + 1), ?_⟩
    intro ref h1 h2
    have e := mem_fst_scanElem h1
    have := (mem_fst_scanSlice h2).2.2
    rw [e] at this
    simp only at this
    omega

theorem mem_fst_scanSide {k : Nat} {side : Side} {v : Value} {ref : Ref}
    (h : ref ∈ (scanSide k side v).map Prod.fst) : ref.tx = k ∧ ref.side = side := by
  cases v with
  | slice xs => exact ⟨(mem_fst_scanSlice h).1, (mem_fst_scanSlice h).2.1⟩
  | null => simp [scanSide] at h
  | bool b => simp [scanSide] at h
  | num n => simp [scanSide] at h
  | str s => simp [scanSide] at h
  | raw bs => simp [scanSide] at h
  | map kvs => simp [scanSide] at h

theorem scanSide_nodup (k : Nat) (side : Side) (v : Value) :
    ((scanSide k side v).map Prod.fst).Nodup := by
  cases v with
  | slice xs => exact scanSlice_nodup k side xs 0
  | null => simp [scanSide]
  | bool b => simp [scanSide]
  | num n => simp [scanSide]
  | str s => simp [scanSide]
  | raw bs => simp [scanSide]
  | map kvs => simp [scanSide]

theorem mem_fst_scanTxs {txs : List Record} {k0 : Nat} {ref : Ref}
    (h : ref ∈ (scanTxs k0 txs).map Prod.fst) : k0 ≤ ref.tx := by
  simp only [List.mem_map, Prod.exists, exists_and_right, exists_eq_right] at h
  obtain ⟨p, hp⟩ := h
  obtain ⟨i, tx, hi, _⟩ := (mem_scanTxs txs k0 ref p).1 hp
  omega

theorem scanTxs_nodup (txs : List Record) (k0 : Nat) :
    ((scanTxs k0 txs).map Prod.fst).Nodup := by
  induction txs generalizing k0 with
  | nil => simp [scanTxs]
  | cons tx t ih =>
    simp only [scanTxs, List.map_append]
    rw [List.nodup_append, List.nodup_append]
    refine ⟨⟨scanSide_nodup _ _ _, scanSide_nodup _ _ _, ?_⟩, ih (k0 + 1), ?_⟩
    · intro ref h1 h2
      have a := (mem_fst_scanSide h1).2
      have b := (mem_fst_scanSide h2).2
      rw [a] at b
      cases b
    · intro ref h1 h2
      have hk : ref.tx = k0 := by
        rcases List.mem_append.1 h1 with h | h
        · exact (mem_fst_scanSide h).1
        · exact (mem_fst_scanSide h).1
      have := mem_fst_scanTxs h2
      omega

/-- No record is scanned twice. -/
theorem scan_nodup (txs : List Record) : ((scan txs).map Prod.fst).Nodup :=
  scanTxs_nodup txs 0

/-! ### The contract of `AnnotateTxs` -/

theorem progOf_of_goGet {r : Record} {s : String} {p : Bytes}
    (hs : goGet "control_program" r = some (Value.str s)) (hp : hexDecodeString s = .ok p) :
    progOf r = some p :=
  progOf_of_index_str (by unfold index; rw [hs]; rfl) hp

/-- A successful collection and lookup give a successful run, after which the record at
each address is `annotRec` of the record that was there. -/
theorem annotate_record {db : List Bytes → QueryResult} {txs : List Record} {st : Collector}
    (hc : collect txs = .ok st) (he : (db st.controlPrograms).err = none) :
    ∃ txs', AnnotateTxs db txs = some (none, txs') ∧
      ∀ ref r, getRec txs ref = some r →
        getRec txs' ref = some (annotRec ref.side (db st.controlPrograms).rows r) := by
  refine ⟨_, AnnotateTxs_ok hc he, fun ref r hr => ?_⟩
  rw [getRec_mapRecs, hr, Option.map_some', allOpsAt_eq hc hr]

/-- C1. Fan-out completeness: when collection succeeds and the registry returns rows with
pairwise distinct control programs, `AnnotateTxs` succeeds and every input or output
record whose `control_program` string decodes to the program of a row has the `account_id`
of that row, however many records share the program. -/
theorem C1_fanout_account_id (db : List Bytes → QueryResult) (txs : List Record)
    (st : Collector) (rows : List ScanRow)
    (hc : collect txs = .ok st) (hdb : db st.controlPrograms = ⟨rows, none⟩)
    (hnd : (rows.map ScanRow.program).Nodup) :
    ∃ txs', AnnotateTxs db txs = some (none, txs') ∧
      ∀ ref r s row, getRec txs ref = some r →
        goGet "control_program" r = some (Value.str s) → row ∈ rows →
        hexDecodeString s = .ok row.program →
        ∃ r', getRec txs' ref = some r' ∧
          goGet "account_id" r' = some (Value.str row.accountID) := by
  have he : (db st.controlPrograms).err = none := by rw [hdb]
  obtain ⟨txs', hrun, hrec⟩ := annotate_record hc he
  refine ⟨txs', hrun, fun ref r s row hr hs hrow hdec => ?_⟩
  refine ⟨_, hrec ref r hr, ?_⟩
  rw [hdb]
  simp only [annotRec, progOf_of_goGet hs hdec, progOps_of_nodup hnd hrow, goGet_applyOps,
    lastVal_rowOps_id]

/-- The hypotheses of C1 hold on the scenario batch and registry. -/
theorem C1_fanout_account_id_witness :
    collect exBatch = .ok exState ∧ exDb exState.controlPrograms = ⟨[exRow], none⟩ ∧
      ([exRow].map ScanRow.program).Nodup ∧
      ∃ txs', AnnotateTxs exDb exBatch = some (none, txs') ∧
        ∀ ref r s row, getRec exBatch ref = some r →
          goGet "control_program" r = some (Value.str s) → row ∈ [exRow] →
          hexDecodeString s = .ok row.program →
          ∃ r', getRec txs' ref = some r' ∧
            goGet "account_id" r' = some (Value.str row.accountID) :=
  ⟨rfl, rfl, by decide,
    C1_fanout_account_id exDb exBatch exState [exRow] rfl rfl (by decide)⟩

/-- C4. Atomicity on malformed hex: when some record of the batch, at any position, has a
`control_program` string of odd length or with a character that is not a hexadecimal
digit, `AnnotateTxs` returns an error and the batch is exactly as it was. -/
theorem C4_malformed_hex_atomic (db : List Bytes → QueryResult) (txs : List Record)
    (ref : Ref) (r : Record) (s : String) (hr : getRec txs ref = some r)
    (hs : goGet "control_program" r = some (Value.str s))
    (hbad : s.length % 2 = 1 ∨ ∃ c ∈ s.data, fromHexChar c = none) :
    ∃ e, AnnotateTxs db txs = some (some e, txs) := by
  obtain ⟨e0, he0⟩ := (hexDecodeString_error_iff s).2 hbad
  have hnwf : ¬ WellFormed txs := by
    intro hwf
    have hidx : index r "control_program" = Value.str s := by unfold index; rw [hs]; rfl
    rcases recOk_of_wellFormed hwf hr with hn | ⟨s', p, hs', hp⟩
    · rw [hidx] at hn; cases hn
    · rw [hidx] at hs'
      cases hs'
      rw [he0] at hp
      cases hp
  obtain ⟨e, he⟩ := collect_error_of_not_wellFormed hnwf
  exact ⟨e, AnnotateTxs_collect_error he⟩

/-- The hypotheses of C4 hold on a batch whose last input has the odd-length string `abc`. -/
theorem C4_malformed_hex_atomic_witness :
    getRec badHexBatch ⟨1, .inputs, 1⟩ = some [("control_program", Value.str "abc")] ∧
      goGet "control_program" [("control_program", Value.str "abc")] =
        some (Value.str "abc") ∧
      ("abc".length % 2 = 1 ∨ ∃ c ∈ "abc".data, fromHexChar c = none) ∧
      ∃ e, AnnotateTxs exDb badHexBatch = some (some e, badHexBatch) :=
  ⟨rfl, rfl, Or.inl (by decide),
    C4_malformed_hex_atomic exDb badHexBatch ⟨1, .inputs, 1⟩ _ "abc" rfl rfl
      (Or.inl (by decide))⟩

/-- C10. Registry failure is fatal and atomic: when collection succeeds and the batched
lookup returns an error, `AnnotateTxs` returns that same error and the batch is exactly as
it was. -/
theorem C10_registry_failure_atomic (db : List Bytes → QueryResult) (txs : List Record)
    (st : Collector) (e : Error) (hc : collect txs = .ok st)
    (he : (db st.controlPrograms).err = some e) :
    AnnotateTxs db txs = some (some e, txs) :=
  AnnotateTxs_registry_error hc he

/-- The hypotheses of C10 hold on the scenario batch with a failing registry. -/
theorem C10_registry_failure_atomic_witness :
    collect exBatch = .ok exState ∧
      (failingDb exState.controlPrograms).err = some (Error.registry 7) ∧
      AnnotateTxs failingDb exBatch = some (some (Error.registry 7), exBatch) :=
  ⟨rfl, rfl, C10_registry_failure_atomic failingDb exBatch exState _ rfl rfl⟩

/-- C2 (as stated, refuted). Two outputs share the program `0xAA`, the first already
carries `account_alias = "x"`, and the registry row has a null alias: the run succeeds,
the first record keeps its alias and the second has none. -/
theorem C2_counterexample :
    ¬ (∀ txs', AnnotateTxs noAliasDb aliasBatch = some (none, txs') →
      ∀ ref1 ref2 r1 r2 r1' r2' p, getRec aliasBatch ref1 = some r1 →
        getRec aliasBatch ref2 = some r2 → progOf r1 = some p → progOf r2 = some p →
        getRec txs' ref1 = some r1' → getRec txs' ref2 = some r2' →
        goGet "account_id" r1' = goGet "account_id" r2' ∧
          goGet "account_alias" r1' = goGet "account_alias" r2' ∧
          goGet "account_tags" r1' = goGet "account_tags" r2') := by
  intro hall
  have h := hall aliasBatchDone rfl ⟨0, .outputs, 0⟩ ⟨0, .outputs, 1⟩ _ _ _ _ [170]
    rfl rfl rfl rfl rfl rfl
  exact absurd h.2.1 (by decide)

theorem lastVal_progOps_isSome (k : String) (side : Side) (rows : List ScanRow) (p : Bytes) :
    (lastVal k (progOps side rows p)).isSome ↔
      ∃ row ∈ rows, row.program = p ∧ (lastVal k (rowOps side row)).isSome := by
  induction rows with
  | nil => simp [progOps, lastVal]
  | cons a t ih =>
    simp only [progOps_cons, lastVal_append, List.mem_cons, exists_eq_or_imp]
    cases hl : lastVal k (progOps side t p) with
    | some w =>
      rw [hl] at ih
      simp only [Option.isSome_some, true_iff] at ih ⊢
      exact Or.inr ih
    | none =>
      rw [hl] at ih
      simp only [Option.isSome_none, false_iff, Bool.false_eq_true] at ih
      by_cases hp : a.program = p
      · simp only [hp, if_true, true_and]
        constructor
        · intro h; exact Or.inl h
        · rintro (h | h)
          · exact h
          · exact absurd h ih
      · simp only [hp, if_false, false_and, false_or]
        constructor
        · intro h; simp [lastVal] at h
        · intro h; exact absurd h ih

/-- What the rows do to an identity field of an input or output record whose program is
`p`: when some row for `p` assigns the field, the record ends with the value of the last
such assignment, the same for every record; when no row for `p` assigns it, the record
keeps the value it had. -/
theorem goGet_identity_field {k : String} (hk : k ≠ "purpose") (side : Side)
    (rows : List ScanRow) (p : Bytes) (r : Record) :
    ((∃ row ∈ rows, row.program = p ∧ (lastVal k (rowOps Side.inputs row)).isSome) →
        ∃ v, lastVal k (progOps Side.inputs rows p) = some v ∧
          goGet k (applyOps (progOps side rows p) r) = some v) ∧
      ((∀ row ∈ rows, row.program = p → lastVal k (rowOps Side.inputs row) = none) →
        goGet k (applyOps (progOps side rows p) r) = goGet k r) := by
  rw [goGet_applyOps, lastVal_progOps_side hk side]
  constructor
  · intro hex
    have := (lastVal_progOps_isSome k Side.inputs rows p).2 hex
    cases hl : lastVal k (progOps Side.inputs rows p) with
    | none => rw [hl] at this; cases this
    | some v => exact ⟨v, rfl, rfl⟩
  · intro hall
    cases hl : lastVal k (progOps Side.inputs rows p) with
    | none => rfl
    | some v =>
      have hs := (lastVal_progOps_isSome k Side.inputs rows p).1 (by rw [hl]; rfl)
      obtain ⟨row, hrow, hprog, hsome⟩ := hs
      rw [hall row hrow hprog] at hsome
      cases hsome

theorem rowTag_eq_none_iff (row : ScanRow) : rowTag row = none ↔ row.accountTags = [] := by
  unfold rowTag
  cases h : row.accountTags with
  | nil => simp
  | cons a t => simp

/-- C2 (amended). After a successful run, two records whose control programs decode to
the same bytes `p` end with one and the same `account_id` whenever the registry returned a
row for `p`, with one and the same `account_alias` whenever a returned row for `p` has an
alias, and with one and the same `account_tags` whenever a returned row for `p` has a
non-empty tag blob. A field that no returned row for `p` assigns (no row, only null aliases,
only empty blobs) keeps on each record the value it had before the call; so the two
records agree after the run on every one of the three fields on which they agreed before,
and a field absent on both stays absent on both. -/
theorem C2_same_program_same_identity (db : List Bytes → QueryResult)
    (txs txs' : List Record) (st : Collector)
    (h : AnnotateTxs db txs = some (none, txs')) (hc : collect txs = .ok st)
    (ref1 ref2 : Ref) (r1 r2 : Record) (s1 s2 : String) (p : Bytes)
    (h1 : getRec txs ref1 = some r1) (h2 : getRec txs ref2 = some r2)
    (hs1 : goGet "control_program" r1 = some (Value.str s1))
    (hs2 : goGet "control_program" r2 = some (Value.str s2))
    (hp1 : hexDecodeString s1 = .ok p) (hp2 : hexDecodeString s2 = .ok p) :
    ∃ r1' r2', getRec txs' ref1 = some r1' ∧ getRec txs' ref2 = some r2' ∧
      ((∃ row ∈ (db st.controlPrograms).rows, row.program = p) →
        ∃ v, goGet "account_id" r1' = some v ∧ goGet "account_id" r2' = some v) ∧
      ((∀ row ∈ (db st.controlPrograms).rows, row.program ≠ p) →
        goGet "account_id" r1' = goGet "account_id" r1 ∧
          goGet "account_id" r2' = goGet "account_id" r2) ∧
      ((∃ row ∈ (db st.controlPrograms).rows, row.program = p ∧
          row.accountAlias.valid = true) →
        ∃ v, goGet "account_alias" r1' = some v ∧ goGet "account_alias" r2' = some v) ∧
      ((∀ row ∈ (db st.controlPrograms).rows, row.program = p →
          row.accountAlias.valid = false) →
        goGet "account_alias" r1' = goGet "account_alias" r1 ∧
          goGet "account_alias" r2' = goGet "account_alias" r2) ∧
      ((∃ row ∈ (db st.controlPrograms).rows, row.program = p ∧ row.accountTags ≠ []) →
        ∃ v, goGet "account_tags" r1' = some v ∧ goGet "account_tags" r2' = some v) ∧
      ((∀ row ∈ (db st.controlPrograms).rows, row.program = p → row.accountTags = []) →
        goGet "account_tags" r1' = goGet "account_tags" r1 ∧
          goGet "account_tags" r2' = goGet "account_tags" r2) ∧
      (∀ k, k = "account_id" ∨ k = "account_alias" ∨ k = "account_tags" →
        goGet k r1 = goGet k r2 → goGet k r1' = goGet k r2') := by
  obtain ⟨st', hc', he, hrec⟩ := getRec_AnnotateTxs h
  rw [hc] at hc'
  cases hc'
  have q1 := progOf_of_goGet hs1 hp1
  have q2 := progOf_of_goGet hs2 hp2
  refine ⟨_, _, by rw [hrec, h1]; rfl, by rw [hrec, h2]; rfl, ?_, ?_, ?_, ?_, ?_, ?_, ?_⟩
  · rintro ⟨row, hrow, hprog⟩
    have hex : ∃ row ∈ (db st.controlPrograms).rows, row.program = p ∧
        (lastVal "account_id" (rowOps Side.inputs row)).isSome :=
      ⟨row, hrow, hprog, by rw [lastVal_rowOps_id]; rfl⟩
    obtain ⟨v, hv, e1⟩ := (goGet_identity_field (by decide) ref1.side _ p r1).1 hex
    obtain ⟨w, hw, e2⟩ := (goGet_identity_field (by decide) ref2.side _ p r2).1 hex
    rw [hv] at hw
    cases hw
    exact ⟨v, by simpa only [annotRec, q1] using e1, by simpa only [annotRec, q2] using e2⟩
  · intro hno
    have hall : ∀ row ∈ (db st.controlPrograms).rows, row.program = p →
        lastVal "account_id" (rowOps Side.inputs row) = none :=
      fun row hrow hprog => absurd hprog (hno row hrow)
    exact ⟨by simpa only [annotRec, q1] using
        (goGet_identity_field (by decide) ref1.side _ p r1).2 hall,
      by simpa only [annotRec, q2] using
        (goGet_identity_field (by decide) ref2.side _ p r2).2 hall⟩
  · rintro ⟨row, hrow, hprog, hvalid⟩
    have hex : ∃ row ∈ (db st.controlPrograms).rows, row.program = p ∧
        (lastVal "account_alias" (rowOps Side.inputs row)).isSome :=
      ⟨row, hrow, hprog, by rw [lastVal_rowOps_alias, hvalid]; rfl⟩
    obtain ⟨v, hv, e1⟩ := (goGet_identity_field (by decide) ref1.side _ p r1).1 hex
    obtain ⟨w, hw, e2⟩ := (goGet_identity_field (by decide) ref2.side _ p r2).1 hex
    rw [hv] at hw
    cases hw
    exact ⟨v, by simpa only [annotRec, q1] using e1, by simpa only [annotRec, q2] using e2⟩
  · intro hno
    have hall : ∀ row ∈ (db st.controlPrograms).rows, row.program = p →
        lastVal "account_alias" (rowOps Side.inputs row) = none := by
      intro row hrow hprog
      rw [lastVal_rowOps_alias, hno row hrow hprog]
      rfl
    exact ⟨by simpa only [annotRec, q1] using
        (goGet_identity_field (by decide) ref1.side _ p r1).2 hall,
      by simpa only [annotRec, q2] using
        (goGet_identity_field (by decide) ref2.side _ p r2).2 hall⟩
  · rintro ⟨row, hrow, hprog, htags⟩
    have hex : ∃ row ∈ (db st.controlPrograms).rows, row.program = p ∧
        (lastVal "account_tags" (rowOps Side.inputs row)).isSome := by
      refine ⟨row, hrow, hprog, ?_⟩
      rw [lastVal_rowOps_tags]
      cases hr : rowTag row with
      | none => exact absurd ((rowTag_eq_none_iff row).1 hr) htags
      | some t => rfl
    obtain ⟨v, hv, e1⟩ := (goGet_identity_field (by decide) ref1.side _ p r1).1 hex
    obtain ⟨w, hw, e2⟩ := (goGet_identity_field (by decide) ref2.side _ p r2).1 hex
    rw [hv] at hw
    cases hw
    exact ⟨v, by simpa only [annotRec, q1] using e1, by simpa only [annotRec, q2] using e2⟩
  · intro hno
    have hall : ∀ row ∈ (db st.controlPrograms).rows, row.program = p →
        lastVal "account_tags" (rowOps Side.inputs row) = none := by
      intro row hrow hprog
      rw [lastVal_rowOps_tags, (rowTag_eq_none_iff row).2 (hno row hrow hprog)]
      rfl
    exact ⟨by simpa only [annotRec, q1] using
        (goGet_identity_field (by decide) ref1.side _ p r1).2 hall,
      by simpa only [annotRec, q2] using
        (goGet_identity_field (by decide) ref2.side _ p r2).2 hall⟩
  · intro k hk hpre
    have hne : k ≠ "purpose" := by
      rcases hk with rfl | rfl | rfl <;> decide
    simp only [annotRec, q1, q2, goGet_applyOps]
    rw [lastVal_progOps_side hne ref1.side, lastVal_progOps_side hne ref2.side, hpre]

/-- The hypotheses of the amended C2 hold on the two outputs of `aliasBatch`, which share
`0xAA` and differ on `account_alias` before the call, with a row that has no alias. -/
theorem C2_same_program_same_identity_witness :
    AnnotateTxs noAliasDb aliasBatch = some (none, aliasBatchDone) ∧
      collect aliasBatch = .ok ⟨[([170], [⟨0, .outputs, 0⟩, ⟨0, .outputs, 1⟩])],
        [([170], [⟨0, .outputs, 0⟩, ⟨0, .outputs, 1⟩])], [[170], [170]]⟩ ∧
      getRec aliasBatch ⟨0, .outputs, 0⟩ =
        some [("control_program", Value.str "aa"), ("account_alias", Value.str "x")] ∧
      getRec aliasBatch ⟨0, .outputs, 1⟩ = some [("control_program", Value.str "aa")] ∧
      hexDecodeString "aa" = .ok [170] ∧
      ∃ r1' r2', getRec aliasBatchDone ⟨0, .outputs, 0⟩ = some r1' ∧
        getRec aliasBatchDone ⟨0, .outputs, 1⟩ = some r2' ∧
        (∃ v, goGet "account_id" r1' = some v ∧ goGet "account_id" r2' = some v) ∧
        (goGet "account_alias" r1' = some (Value.str "x") ∧
          goGet "account_alias" r2' = none) := by
  refine ⟨rfl, rfl, rfl, rfl, rfl, ?_⟩
  obtain ⟨r1', r2', e1, e2, hid, _, _, halias, _⟩ :=
    C2_same_program_same_identity noAliasDb aliasBatch aliasBatchDone
      ⟨[([170], [⟨0, .outputs, 0⟩, ⟨0, .outputs, 1⟩])],
        [([170], [⟨0, .outputs, 0⟩, ⟨0, .outputs, 1⟩])], [[170], [170]]⟩ rfl rfl
      ⟨0, .outputs, 0⟩ ⟨0, .outputs, 1⟩
      [("control_program", Value.str "aa"), ("account_alias", Value.str "x")]
      [("control_program", Value.str "aa")] "aa" "aa" [170] rfl rfl rfl rfl rfl rfl
  refine ⟨r1', r2', e1, e2, hid ⟨_, List.mem_singleton.2 rfl, rfl⟩, ?_⟩
  exact halias (by
    intro row hrow _
    have : row = ⟨"acct1", [170], false, ⟨"", false⟩, []⟩ := List.mem_singleton.1 hrow
    rw [this])

/-- C3 (as stated, refuted). With a change row followed by a non-change row for `0xAA`,
the output for `0xAA` ends with purpose `receive`, not `change`; and an output for a
program without a row that already carried a `purpose` keeps it instead of having none. -/
theorem C3_counterexample :
    ¬ PurposeRuleStated twoRowDb oneOutputBatch ∧ ¬ PurposeRuleStated exDb purposeBatch := by
  constructor
  · intro hall
    have h := hall oneOutputBatchDone ⟨[([170], [⟨0, .outputs, 0⟩])],
      [([170], [⟨0, .outputs, 0⟩])], [[170]]⟩ rfl rfl ⟨0, .outputs, 0⟩ _ _ [170] rfl rfl rfl rfl
    have h1 := h.1 ⟨⟨"acct1", [170], true, ⟨"", false⟩, []⟩, by simp [twoRowDb], rfl, rfl⟩
    exact absurd h1 (by decide)
  · intro hall
    have h := hall purposeBatch ⟨[([187], [⟨0, .outputs, 0⟩])],
      [([187], [⟨0, .outputs, 0⟩])], [[187]]⟩ rfl rfl ⟨0, .outputs, 0⟩ _ _ [187] rfl rfl rfl rfl
    have h3 := h.2.2 (by
      intro row hrow
      simp only [exDb, List.mem_singleton] at hrow
      subst hrow
      decide)
    exact absurd h3 (by decide)

/-- C3 (amended). After a successful run, an output record whose control program has a
registry row has purpose `change` when the last row for that program has change flag
true and purpose `receive` when it has change flag false (with pairwise distinct programs
the last row is the row); an output record whose control program has no registry row has
the `purpose` field it had before the call, so none if it had none. -/
theorem C3_purpose_of_outputs (db : List Bytes → QueryResult) (txs txs' : List Record)
    (st : Collector) (h : AnnotateTxs db txs = some (none, txs'))
    (hc : collect txs = .ok st) (ref : Ref) (r : Record) (s : String) (p : Bytes)
    (hside : ref.side = Side.outputs) (hr : getRec txs ref = some r)
    (hs : goGet "control_program" r = some (Value.str s)) (hp : hexDecodeString s = .ok p) :
    ∃ r', getRec txs' ref = some r' ∧
      (∀ row, lastRowFor p (db st.controlPrograms).rows = some row → row.change = true →
        goGet "purpose" r' = some (Value.str "change")) ∧
      (∀ row, lastRowFor p (db st.controlPrograms).rows = some row → row.change = false →
        goGet "purpose" r' = some (Value.str "receive")) ∧
      ((∀ row ∈ (db st.controlPrograms).rows, row.program ≠ p) →
        goGet "purpose" r' = goGet "purpose" r) ∧
      (((db st.controlPrograms).rows.map ScanRow.program).Nodup →
        ∀ row ∈ (db st.controlPrograms).rows, row.program = p →
          lastRowFor p (db st.controlPrograms).rows = some row) := by
  obtain ⟨st', hc', he, hrec⟩ := getRec_AnnotateTxs h
  rw [hc] at hc'
  cases hc'
  refine ⟨_, by rw [hrec, hr]; rfl, ?_, ?_, ?_, ?_⟩
  · intro row hlast hch
    simp only [annotRec, progOf_of_goGet hs hp, hside, goGet_applyOps,
      lastVal_progOps_purpose, hlast, Option.map_some', hch, if_true]
  · intro row hlast hch
    simp only [annotRec, progOf_of_goGet hs hp, hside, goGet_applyOps,
      lastVal_progOps_purpose, hlast, Option.map_some', hch]
    rfl
  · intro hno
    simp only [annotRec, progOf_of_goGet hs hp, progOps_eq_nil hno, applyOps_nil]
  · intro hnd row hrow hprog
    subst hprog
    exact lastRowFor_of_nodup hnd hrow

/-- The hypotheses of the amended C3 hold on the `0xAA` output of the second transaction
of the scenario. -/
theorem C3_purpose_of_outputs_witness :
    AnnotateTxs exDb exBatch = some (none, exBatchDone) ∧ collect exBatch = .ok exState ∧
      getRec exBatch ⟨1, .outputs, 0⟩ = some [("control_program", Value.str "aa")] ∧
      hexDecodeString "aa" = .ok [170] ∧
      ∃ r', getRec exBatchDone ⟨1, .outputs, 0⟩ = some r' ∧
        (∀ row, lastRowFor [170] (exDb exState.controlPrograms).rows = some row →
          row.change = true → goGet "purpose" r' = some (Value.str "change")) ∧
        (∀ row, lastRowFor [170] (exDb exState.controlPrograms).rows = some row →
          row.change = false → goGet "purpose" r' = some (Value.str "receive")) ∧
        ((∀ row ∈ (exDb exState.controlPrograms).rows, row.program ≠ [170]) →
          goGet "purpose" r' = goGet "purpose" [("control_program", Value.str "aa")]) ∧
        (((exDb exState.controlPrograms).rows.map ScanRow.program).Nodup →
          ∀ row ∈ (exDb exState.controlPrograms).rows, row.program = [170] →
            lastRowFor [170] (exDb exState.controlPrograms).rows = some row) :=
  ⟨rfl, rfl, rfl, rfl,
    C3_purpose_of_outputs exDb exBatch exBatchDone exState rfl rfl ⟨1, .outputs, 0⟩
      [("control_program", Value.str "aa")] "aa" [170] rfl rfl rfl rfl⟩

/-- C5 (as stated, refuted). A record whose `control_program` is an explicit null is
skipped like a record without the field: the run succeeds and returns no error. -/
theorem C5_counterexample :
    ¬ (∀ ref r v, getRec nullBatch ref = some r → goGet "control_program" r = some v →
      (∀ s, v ≠ Value.str s) → ∃ e t, AnnotateTxs exDb nullBatch = some (some e, t)) := by
  intro hall
  obtain ⟨e, t, h⟩ := hall ⟨0, .outputs, 0⟩ [("control_program", Value.null)] Value.null
    rfl rfl (by intro s hs; cases hs)
  have hrun : AnnotateTxs exDb nullBatch = some (none, nullBatch) := rfl
  rw [hrun] at h
  cases h

/-- C5 (amended). For a record of the batch whose `control_program` field is present with
a value that is not a string: when the value is not null (a number, a boolean, a nested
map or slice) `AnnotateTxs` returns an error and the batch is exactly as it was; when the
value is an explicit null the record is skipped like a record without the field, that is,
the loop body of the collector accepts it and indexes nothing, and whatever the outcome of
`AnnotateTxs` the record is exactly as it was. -/
theorem C5_non_string_control_program (db : List Bytes → QueryResult) (txs : List Record)
    (ref : Ref) (r : Record) (v : Value) (maps : List MapSel) (st : Collector)
    (hr : getRec txs ref = some r) (hv : goGet "control_program" r = some v)
    (hstr : ∀ s, v ≠ Value.str s) :
    (v ≠ Value.null → ∃ e, AnnotateTxs db txs = some (some e, txs)) ∧
      (v = Value.null →
        updateOne maps ref st (Value.map r) = .ok st ∧
          ∃ e txs', AnnotateTxs db txs = some (e, txs') ∧ getRec txs' ref = some r) := by
  have hidx : index r "control_program" = v := by unfold index; rw [hv]; rfl
  constructor
  · intro hnull
    have hnwf : ¬ WellFormed txs := by
      intro hwf
      rcases recOk_of_wellFormed hwf hr with hn | ⟨s', p, hs', _⟩
      · rw [hidx] at hn; exact hnull hn
      · rw [hidx] at hs'; exact hstr s' hs'
    obtain ⟨e, he⟩ := collect_error_of_not_wellFormed hnwf
    exact ⟨e, AnnotateTxs_collect_error he⟩
  · intro hnull
    rw [hnull] at hidx
    refine ⟨(updateOne_ok_iff maps ref st st _).2 ⟨r, rfl, Or.inl ⟨hidx, rfl⟩⟩, ?_⟩
    cases hc : collect txs with
    | error e => exact ⟨some e, txs, AnnotateTxs_collect_error hc, hr⟩
    | ok st0 =>
      cases he : (db st0.controlPrograms).err with
      | some e => exact ⟨some e, txs, AnnotateTxs_registry_error hc he, hr⟩
      | none =>
        obtain ⟨txs', hrun, hrec⟩ := annotate_record hc he
        refine ⟨none, txs', hrun, ?_⟩
        rw [hrec ref r hr]
        simp only [annotRec, progOf_of_index_null hidx]

/-- The hypotheses of the amended C5 hold on a batch with a numeric `control_program`,
where the run fails, and on a batch with a null `control_program`, where the record is
skipped. -/
theorem C5_non_string_control_program_witness :
    (getRec numBatch ⟨0, .inputs, 0⟩ = some [("control_program", Value.num 5)] ∧
      goGet "control_program" [("control_program", Value.num 5)] = some (Value.num 5) ∧
      (∀ s, Value.num 5 ≠ Value.str s) ∧
      ∃ e, AnnotateTxs exDb numBatch = some (some e, numBatch)) ∧
    (getRec nullBatch ⟨0, .outputs, 0⟩ = some [("control_program", Value.null)] ∧
      goGet "control_program" [("control_program", Value.null)] = some Value.null ∧
      (∀ s, Value.null ≠ Value.str s) ∧
      updateOne [.control, .output] ⟨0, .outputs, 0⟩ exState
        (Value.map [("control_program", Value.null)]) = .ok exState ∧
      ∃ e txs', AnnotateTxs exDb nullBatch = some (e, txs') ∧
        getRec txs' ⟨0, .outputs, 0⟩ = some [("control_program", Value.null)]) :=
  ⟨⟨rfl, rfl, (fun s hs => Value.noConfusion hs),
    (C5_non_string_control_program exDb numBatch ⟨0, .inputs, 0⟩ _ (Value.num 5) [.control]
      exState rfl rfl (fun s hs => Value.noConfusion hs)).1 (by decide)⟩,
   ⟨rfl, rfl, (fun s hs => Value.noConfusion hs),
    (C5_non_string_control_program exDb nullBatch ⟨0, .outputs, 0⟩ _ Value.null
      [.control, .output] exState rfl rfl (fun s hs => Value.noConfusion hs)).2 rfl⟩⟩

/-- C6. A record with no `control_program` field causes no error and is left untouched:
the loop body of the collector accepts it and indexes nothing, and whatever the outcome
of `AnnotateTxs` the record has exactly the fields and values it had before. -/
theorem C6_no_control_program_untouched (db : List Bytes → QueryResult) (txs : List Record)
    (ref : Ref) (r : Record) (maps : List MapSel) (st : Collector)
    (hr : getRec txs ref = some r) (hno : goGet "control_program" r = none) :
    updateOne maps ref st (Value.map r) = .ok st ∧
      ∃ e txs', AnnotateTxs db txs = some (e, txs') ∧ getRec txs' ref = some r := by
  have hidx : index r "control_program" = Value.null := by unfold index; rw [hno]; rfl
  refine ⟨(updateOne_ok_iff maps ref st st _).2 ⟨r, rfl, Or.inl ⟨hidx, rfl⟩⟩, ?_⟩
  cases hc : collect txs with
  | error e => exact ⟨some e, txs, AnnotateTxs_collect_error hc, hr⟩
  | ok st0 =>
    cases he : (db st0.controlPrograms).err with
    | some e => exact ⟨some e, txs, AnnotateTxs_registry_error hc he, hr⟩
    | none =>
      obtain ⟨txs', hrun, hrec⟩ := annotate_record hc he
      refine ⟨none, txs', hrun, ?_⟩
      rw [hrec ref r hr]
      simp only [annotRec, progOf_of_index_null hidx]

/-- The hypotheses of C6 hold on the issuance input of the scenario. -/
theorem C6_no_control_program_untouched_witness :
    getRec exBatch ⟨0, .inputs, 0⟩ = some [] ∧
      goGet "control_program" ([] : Record) = none ∧
      updateOne [.control] ⟨0, .inputs, 0⟩ exState (Value.map []) = .ok exState ∧
      ∃ e txs', AnnotateTxs exDb exBatch = some (e, txs') ∧
        getRec txs' ⟨0, .inputs, 0⟩ = some [] :=
  ⟨rfl, rfl,
    C6_no_control_program_untouched exDb exBatch ⟨0, .inputs, 0⟩ [] [.control] exState
      rfl rfl⟩

/-- C7 (as stated, refuted). Two outputs that share the program `0xAA` put the program
in the key list twice. -/
theorem C7_counterexample :
    ¬ (∀ st, collect dupBatch = .ok st → st.controlPrograms.Nodup) := by
  intro hall
  have h := hall ⟨[([170], [⟨0, .outputs, 0⟩, ⟨0, .outputs, 1⟩])],
    [([170], [⟨0, .outputs, 0⟩, ⟨0, .outputs, 1⟩])], [[170], [170]]⟩ rfl
  exact absurd h (by decide)

/-- C7 (amended). The key list `AnnotateTxs` passes to the registry is the only thing the
registry is asked, and it holds one entry per record that carries a control program, in
scan order, not one per distinct program: it is the list of the programs of the scanned
records, no record is scanned twice, the scanned records are exactly the records of the
batch with a decodable control program, so the size of the key list is the number of such
records, and a program is in the key list exactly when some record carries it. -/
theorem C7_one_key_per_record (db : List Bytes → QueryResult) (txs : List Record)
    (st : Collector) (hc : collect txs = .ok st) :
    AnnotateTxs db txs = AnnotateTxs (fun _ => db st.controlPrograms) txs ∧
      st.controlPrograms = (scan txs).map Prod.snd ∧
      ((scan txs).map Prod.fst).Nodup ∧
      (∀ ref p, (ref, p) ∈ scan txs ↔ ∃ r, getRec txs ref = some r ∧ progOf r = some p) ∧
      st.controlPrograms.length = (scan txs).length ∧
      (∀ p, p ∈ st.controlPrograms ↔
        ∃ ref r, getRec txs ref = some r ∧ progOf r = some p) := by
  have hkeys := (collect_indexed hc).1
  refine ⟨?_, hkeys, scan_nodup txs, mem_scan txs, by rw [hkeys, List.length_map], ?_⟩
  · unfold AnnotateTxs; rw [hc]
  · intro p
    rw [hkeys]
    simp only [List.mem_map, Prod.exists, exists_eq_right]
    constructor
    · rintro ⟨ref, hm⟩
      exact ⟨ref, (mem_scan txs ref p).1 hm⟩
    · rintro ⟨ref, hm⟩
      exact ⟨ref, (mem_scan txs ref p).2 hm⟩

/-- The hypothesis of the amended C7 holds on the scenario batch. -/
theorem C7_one_key_per_record_witness :
    collect exBatch = .ok exState ∧
      (AnnotateTxs exDb exBatch = AnnotateTxs (fun _ => exDb exState.controlPrograms) exBatch ∧
        exState.controlPrograms = (scan exBatch).map Prod.snd ∧
        ((scan exBatch).map Prod.fst).Nodup ∧
        (∀ ref p, (ref, p) ∈ scan exBatch ↔
          ∃ r, getRec exBatch ref = some r ∧ progOf r = some p) ∧
        exState.controlPrograms.length = (scan exBatch).length ∧
        (∀ p, p ∈ exState.controlPrograms ↔
          ∃ ref r, getRec exBatch ref = some r ∧ progOf r = some p)) :=
  ⟨rfl, C7_one_key_per_record exDb exBatch exState rfl⟩

/-- C8. Idempotence: a second run of `AnnotateTxs` on the batch a first successful run
produced, with the same registry, succeeds and leaves the whole batch, hence every record
of every transaction, equal to what the first run produced. -/
theorem C8_idempotent (db : List Bytes → QueryResult) (txs txs' : List Record)
    (h : AnnotateTxs db txs = some (none, txs')) :
    AnnotateTxs db txs' = some (none, txs') := by
  obtain ⟨st, hc, he, rfl⟩ := AnnotateTxs_ok_inv h
  have hc' : collect (mapRecs (fun ref r => applyOps
      (allOpsAt st.controlMaps st.outputMaps (db st.controlPrograms).rows ref) r) txs) =
        .ok st := by
    rw [collect_mapRecs _ (fun ref r => index_applyOps_allOpsAt _ _ _ ref r)]
    exact hc
  rw [AnnotateTxs_ok hc' he, mapRecs_comp]
  simp only [applyOps_idem]

/-- The hypothesis of C8 holds on the scenario batch and registry. -/
theorem C8_idempotent_witness :
    AnnotateTxs exDb exBatch = some (none, exBatchDone) ∧
      AnnotateTxs exDb exBatchDone = some (none, exBatchDone) :=
  ⟨rfl, C8_idempotent exDb exBatch exBatchDone rfl⟩

theorem lastVal_identityOps_tags (id : String) (tag : Option Bytes)
    (accountAlias : NullString) :
    lastVal "account_tags" (identityOps id tag accountAlias) = tag.map Value.raw := by
  unfold identityOps
  cases tag <;> cases accountAlias.valid <;> simp [lastVal]

theorem lastVal_identityOps_alias (id : String) (tag : Option Bytes)
    (accountAlias : NullString) :
    lastVal "account_alias" (identityOps id tag accountAlias) =
      if accountAlias.valid then some (Value.str accountAlias.str) else none := by
  unfold identityOps
  cases tag <;> cases accountAlias.valid <;> simp [lastVal]

theorem lastVal_opsAt_tags (cm om : List (Bytes × List Ref)) (row : ScanRow) (ref : Ref)
    (hm : ref ∈ indexList cm row.program) :
    lastVal "account_tags" (opsAt cm om row ref) = (rowTag row).map Value.raw := by
  unfold opsAt
  simp only [hm, if_true, lastVal_append, lastVal_identityOps_tags]
  by_cases ho : ref ∈ indexList om row.program <;> simp [ho, purposeOps, lastVal]

theorem lastVal_opsAt_alias (cm om : List (Bytes × List Ref)) (row : ScanRow) (ref : Ref)
    (hm : ref ∈ indexList cm row.program) :
    lastVal "account_alias" (opsAt cm om row ref) =
      if row.accountAlias.valid then some (Value.str row.accountAlias.str) else none := by
  unfold opsAt
  simp only [hm, if_true, lastVal_append, lastVal_identityOps_alias]
  by_cases ho : ref ∈ indexList om row.program <;> simp [ho, purposeOps, lastVal]

/-- The distribution loop over `pre ++ [row]` is the loop over `pre` followed by the
iteration for `row` on the batch the earlier rows left. -/
theorem distribute_scanRows_append (cm om : List (Bytes × List Ref)) (pre : List ScanRow)
    (row : ScanRow) (txs : List Record) :
    distribute (scanRows (pre ++ [row])) cm om txs =
      (distribute (scanRows pre) cm om txs).bind
        (fun t => distribute (scanRows [row]) cm om t) := by
  simp only [distribute_scanRows, Option.some_bind, mapRecs_comp]
  congr 2
  funext ref r
  simp [allOpsAt, applyOps_append]

/-- C9. Optional identity fields: the iteration of the distribution loop for a registry
row, run on any batch, gives every record indexed under the program of the row
`account_tags` equal to the tag blob of the row when the blob is non-empty and
`account_alias` equal to the alias of the row when the alias is present; when the blob is
empty, respectively the alias null, the field is exactly what it was (absent stays
absent). -/
theorem C9_optional_identity_fields (controlMaps outputMaps : List (Bytes × List Ref))
    (txs : List Record) (row : ScanRow) (ref : Ref) (r : Record)
    (hm : ref ∈ indexList controlMaps row.program) (hr : getRec txs ref = some r) :
    ∃ txs' r', distribute (scanRows [row]) controlMaps outputMaps txs = some txs' ∧
      getRec txs' ref = some r' ∧
      goGet "account_tags" r' =
        (if row.accountTags.length > 0 then some (Value.raw row.accountTags)
          else goGet "account_tags" r) ∧
      goGet "account_alias" r' =
        (if row.accountAlias.valid then some (Value.str row.accountAlias.str)
          else goGet "account_alias" r) := by
  have hall : allOpsAt controlMaps outputMaps [row] ref = opsAt controlMaps outputMaps row ref := by
    simp [allOpsAt]
  refine ⟨_, _, distribute_scanRows controlMaps outputMaps [row] txs,
    by rw [getRec_mapRecs, hr]; rfl, ?_, ?_⟩
  · rw [hall, goGet_applyOps, lastVal_opsAt_tags _ _ _ _ hm]
    unfold rowTag
    by_cases hlen : row.accountTags.length > 0 <;> simp [hlen]
  · rw [hall, goGet_applyOps, lastVal_opsAt_alias _ _ _ _ hm]
    by_cases hv : row.accountAlias.valid <;> simp [hv]

/-- The hypotheses of C9 hold for a tagged row without alias and a record with an alias. -/
theorem C9_optional_identity_fields_witness :
    (⟨0, .outputs, 0⟩ : Ref) ∈ indexList oneRefMaps taggedRow.program ∧
      getRec aliasBatch ⟨0, .outputs, 0⟩ =
        some [("control_program", Value.str "aa"), ("account_alias", Value.str "x")] ∧
      ∃ txs' r', distribute (scanRows [taggedRow]) oneRefMaps oneRefMaps aliasBatch =
          some txs' ∧
        getRec txs' ⟨0, .outputs, 0⟩ = some r' ∧
        goGet "account_tags" r' =
          (if taggedRow.accountTags.length > 0 then some (Value.raw taggedRow.accountTags)
            else goGet "account_tags"
              [("control_program", Value.str "aa"), ("account_alias", Value.str "x")]) ∧
        goGet "account_alias" r' =
          (if taggedRow.accountAlias.valid then some (Value.str taggedRow.accountAlias.str)
            else goGet "account_alias"
              [("control_program", Value.str "aa"), ("account_alias", Value.str "x")]) :=
  ⟨by decide, rfl,
    C9_optional_identity_fields oneRefMaps oneRefMaps aliasBatch taggedRow ⟨0, .outputs, 0⟩ _
      (by decide) rfl⟩

/-! ### Further properties of the annotation of a record -/

theorem lastVal_progOps_id (side : Side) (rows : List ScanRow) (p : Bytes) :
    lastVal "account_id" (progOps side rows p) =
      (lastRowFor p rows).map (fun row => Value.str row.accountID) := by
  induction rows with
  | nil => rfl
  | cons a t ih =>
    simp only [progOps_cons, lastVal_append, ih, lastRowFor]
    cases lastRowFor p t with
    | some found => rfl
    | none =>
      by_cases hp : a.program = p
      · simp [hp, lastVal_rowOps_id]
      · simp [hp, lastVal]

theorem lastRowFor_mem {p : Bytes} {rows : List ScanRow} {row : ScanRow}
    (h : lastRowFor p rows = some row) : row ∈ rows ∧ row.program = p := by
  induction rows with
  | nil => simp [lastRowFor] at h
  | cons a t ih =>
    simp only [lastRowFor] at h
    cases hl : lastRowFor p t with
    | some found =>
      rw [hl] at h
      simp only [Option.some.injEq] at h
      subst h
      exact ⟨List.mem_cons_of_mem _ (ih hl).1, (ih hl).2⟩
    | none =>
      rw [hl] at h
      by_cases hp : a.program = p
      · simp only [hp, if_true, Option.some.injEq] at h
        subst h
        exact ⟨List.mem_cons_self _ _, hp⟩
      · simp [hp] at h

theorem lastRowFor_isSome_of_mem {p : Bytes} {rows : List ScanRow} {row : ScanRow}
    (hm : row ∈ rows) (hp : row.program = p) : ∃ found, lastRowFor p rows = some found := by
  cases hl : lastRowFor p rows with
  | some found => exact ⟨found, rfl⟩
  | none => exact absurd hp (lastRowFor_eq_none.1 hl row hm)

theorem lastVal_progOps_other {k : String} (h1 : k ≠ "account_id") (h2 : k ≠ "account_tags")
    (h3 : k ≠ "account_alias") (h4 : k ≠ "purpose") (side : Side) (rows : List ScanRow)
    (p : Bytes) : lastVal k (progOps side rows p) = none := by
  apply lastVal_eq_none
  intro op hop
  rcases mem_progOps_key hop with h | h | h | h <;> rw [h]
  · exact Ne.symm h1
  · exact Ne.symm h2
  · exact Ne.symm h3
  · exact Ne.symm h4

/-- The annotation of a record changes no field other than the four annotation fields. -/
theorem goGet_annotRec_other {k : String} (h1 : k ≠ "account_id") (h2 : k ≠ "account_tags")
    (h3 : k ≠ "account_alias") (h4 : k ≠ "purpose") (side : Side) (rows : List ScanRow)
    (r : Record) : goGet k (annotRec side rows r) = goGet k r := by
  unfold annotRec
  cases progOf r with
  | none => rfl
  | some p => simp only [goGet_applyOps, lastVal_progOps_other h1 h2 h3 h4]

/-- The annotation of a record removes no field. -/
theorem goGet_annotRec_isSome (k : String) (side : Side) (rows : List ScanRow) (r : Record)
    (h : (goGet k r).isSome) : (goGet k (annotRec side rows r)).isSome := by
  unfold annotRec
  cases progOf r with
  | none => exact h
  | some p => exact goGet_isSome_applyOps k _ r h

/-- The annotation of an input record leaves `purpose` alone. -/
theorem goGet_annotRec_purpose_inputs (rows : List ScanRow) (r : Record) :
    goGet "purpose" (annotRec Side.inputs rows r) = goGet "purpose" r := by
  unfold annotRec
  cases progOf r with
  | none => rfl
  | some p => simp only [goGet_applyOps, lastVal_progOps_purpose_inputs]

/-- A record whose program has no row is not changed. -/
theorem annotRec_of_no_row {side : Side} {rows : List ScanRow} {r : Record} {p : Bytes}
    (hp : progOf r = some p) (hno : ∀ row ∈ rows, row.program ≠ p) :
    annotRec side rows r = r := by
  simp only [annotRec, hp, progOps_eq_nil hno, applyOps_nil]

/-- C11. Unknown owners are left alone: when collection and the lookup succeed the run
succeeds, and every record whose decoded control program is the program of no returned row
is exactly as it was before the call; the loop body of the collector accepts such a
record without error. -/
theorem C11_unknown_owner_untouched (db : List Bytes → QueryResult) (txs : List Record)
    (st : Collector) (hc : collect txs = .ok st) (he : (db st.controlPrograms).err = none)
    (ref : Ref) (r : Record) (s : String) (p : Bytes) (hr : getRec txs ref = some r)
    (hs : goGet "control_program" r = some (Value.str s)) (hp : hexDecodeString s = .ok p)
    (hno : ∀ row ∈ (db st.controlPrograms).rows, row.program ≠ p)
    (maps : List MapSel) (st0 : Collector) :
    (∃ txs', AnnotateTxs db txs = some (none, txs') ∧ getRec txs' ref = some r) ∧
      ∃ st1, updateOne maps ref st0 (Value.map r) = .ok st1 := by
  constructor
  · obtain ⟨txs', hrun, hrec⟩ := annotate_record hc he
    refine ⟨txs', hrun, ?_⟩
    rw [hrec ref r hr, annotRec_of_no_row (progOf_of_goGet hs hp) hno]
  · have hidx : index r "control_program" = Value.str s := by unfold index; rw [hs]; rfl
    exact (updateOne_isOk_iff maps ref st0 _).2 ⟨r, rfl, Or.inr ⟨s, p, hidx, hp⟩⟩

/-- The hypotheses of C11 hold on the `0xBB` output of the scenario. -/
theorem C11_unknown_owner_untouched_witness :
    collect exBatch = .ok exState ∧ (exDb exState.controlPrograms).err = none ∧
      getRec exBatch ⟨1, .outputs, 1⟩ = some [("control_program", Value.str "bb")] ∧
      hexDecodeString "bb" = .ok [187] ∧
      (∀ row ∈ (exDb exState.controlPrograms).rows, row.program ≠ [187]) ∧
      (∃ txs', AnnotateTxs exDb exBatch = some (none, txs') ∧
        getRec txs' ⟨1, .outputs, 1⟩ = some [("control_program", Value.str "bb")]) ∧
      ∃ st1, updateOne [.control, .output] ⟨1, .outputs, 1⟩ exState
        (Value.map [("control_program", Value.str "bb")]) = .ok st1 :=
  ⟨rfl, rfl, rfl, rfl, by decide,
    C11_unknown_owner_untouched exDb exBatch exState rfl rfl ⟨1, .outputs, 1⟩
      [("control_program", Value.str "bb")] "bb" [187] rfl rfl rfl (by decide)
      [.control, .output] exState⟩

/-- C13. The join key is the decoded bytes: two records anywhere in the batch whose
`control_program` strings decode to the same byte string `p`, whatever the letter case of
their hex digits, are both indexed under `p` by the collector, and when the registry
returns a row for `p` both end with the `account_id` of one and the same row for `p`. -/
theorem C13_join_key_is_decoded_bytes (db : List Bytes → QueryResult) (txs : List Record)
    (st : Collector) (hc : collect txs = .ok st) (he : (db st.controlPrograms).err = none)
    (ref1 ref2 : Ref) (r1 r2 : Record) (s1 s2 : String) (p : Bytes)
    (h1 : getRec txs ref1 = some r1) (h2 : getRec txs ref2 = some r2)
    (hs1 : goGet "control_program" r1 = some (Value.str s1))
    (hs2 : goGet "control_program" r2 = some (Value.str s2))
    (hp1 : hexDecodeString s1 = .ok p) (hp2 : hexDecodeString s2 = .ok p) :
    ref1 ∈ indexList st.controlMaps p ∧ ref2 ∈ indexList st.controlMaps p ∧
      ∃ txs' r1' r2', AnnotateTxs db txs = some (none, txs') ∧
        getRec txs' ref1 = some r1' ∧ getRec txs' ref2 = some r2' ∧
        ∀ row ∈ (db st.controlPrograms).rows, row.program = p →
          ∃ found ∈ (db st.controlPrograms).rows, found.program = p ∧
            goGet "account_id" r1' = some (Value.str found.accountID) ∧
            goGet "account_id" r2' = some (Value.str found.accountID) := by
  have q1 := progOf_of_goGet hs1 hp1
  have q2 := progOf_of_goGet hs2 hp2
  refine ⟨(mem_controlMaps hc ref1 p).2 ⟨r1, h1, q1⟩,
    (mem_controlMaps hc ref2 p).2 ⟨r2, h2, q2⟩, ?_⟩
  obtain ⟨txs', hrun, hrec⟩ := annotate_record hc he
  refine ⟨txs', _, _, hrun, hrec ref1 r1 h1, hrec ref2 r2 h2, ?_⟩
  intro row hrow hprog
  obtain ⟨found, hfound⟩ := lastRowFor_isSome_of_mem hrow hprog
  refine ⟨found, (lastRowFor_mem hfound).1, (lastRowFor_mem hfound).2, ?_, ?_⟩
  · simp only [annotRec, q1, goGet_applyOps, lastVal_progOps_id, hfound, Option.map_some']
  · simp only [annotRec, q2, goGet_applyOps, lastVal_progOps_id, hfound, Option.map_some']

/-- The hypotheses of C13 hold on an output written `aa` and an input written `AA`. -/
theorem C13_join_key_is_decoded_bytes_witness :
    collect twinBatch = .ok twinState ∧ (exDb twinState.controlPrograms).err = none ∧
      getRec twinBatch ⟨0, .outputs, 0⟩ = some [("control_program", Value.str "aa")] ∧
      getRec twinBatch ⟨0, .inputs, 0⟩ = some [("control_program", Value.str "AA")] ∧
      hexDecodeString "aa" = .ok [170] ∧ hexDecodeString "AA" = .ok [170] ∧
      (⟨0, .outputs, 0⟩ : Ref) ∈ indexList twinState.controlMaps [170] ∧
      (⟨0, .inputs, 0⟩ : Ref) ∈ indexList twinState.controlMaps [170] ∧
      ∃ txs' r1' r2', AnnotateTxs exDb twinBatch = some (none, txs') ∧
        getRec txs' ⟨0, .outputs, 0⟩ = some r1' ∧ getRec txs' ⟨0, .inputs, 0⟩ = some r2' ∧
        ∀ row ∈ (exDb twinState.controlPrograms).rows, row.program = [170] →
          ∃ found ∈ (exDb twinState.controlPrograms).rows, found.program = [170] ∧
            goGet "account_id" r1' = some (Value.str found.accountID) ∧
            goGet "account_id" r2' = some (Value.str found.accountID) :=
  ⟨rfl, rfl, rfl, rfl, rfl, rfl,
    C13_join_key_is_decoded_bytes exDb twinBatch twinState rfl rfl ⟨0, .outputs, 0⟩
      ⟨0, .inputs, 0⟩ [("control_program", Value.str "aa")]
      [("control_program", Value.str "AA")] "aa" "AA" [170] rfl rfl rfl rfl rfl rfl⟩

/-- On a batch whose records are distinct map objects (the tree model), a successful run
leaves the `purpose` field of every input record as it was, also when the program of the
input has a registry row and occurs on an output of the batch; such an input still has the
`account_id` of the last row for its program. -/
theorem purpose_output_only_unshared (db : List Bytes → QueryResult)
    (txs txs' : List Record)
    (st : Collector) (h : AnnotateTxs db txs = some (none, txs'))
    (hc : collect txs = .ok st) (ref : Ref) (r : Record)
    (hside : ref.side = Side.inputs) (hr : getRec txs ref = some r) :
    ∃ r', getRec txs' ref = some r' ∧ goGet "purpose" r' = goGet "purpose" r ∧
      ∀ s p row, goGet "control_program" r = some (Value.str s) →
        hexDecodeString s = .ok p →
        lastRowFor p (db st.controlPrograms).rows = some row →
        goGet "account_id" r' = some (Value.str row.accountID) := by
  obtain ⟨st', hc', he, hrec⟩ := getRec_AnnotateTxs h
  rw [hc] at hc'
  cases hc'
  refine ⟨_, by rw [hrec, hr]; rfl, ?_, ?_⟩
  · rw [hside]; exact goGet_annotRec_purpose_inputs _ r
  · intro s p row hs hp hlast
    simp only [annotRec, progOf_of_goGet hs hp, goGet_applyOps, lastVal_progOps_id, hlast,
      Option.map_some']

/-- C17 (defect of the code). Purpose is not output-only when a record object is shared:
in the memory where one map object for `0xAA` stands both as output 0 and as input 0 of a
transaction, and the registry returns the row (`acct1`, `0xAA`, change false, alias `bob`),
the run succeeds and the object, which had no `purpose`, ends with `purpose = "receive"`;
so the record standing at input 0 has gained `purpose`. -/
theorem C17_shared_input_gains_purpose :
    sharedMem.txs =
        [[("outputs", SideVal.slice [Elem.ptr 0]), ("inputs", SideVal.slice [Elem.ptr 0])]] ∧
      (goGet 0 sharedMem.heap).bind (goGet "purpose") = none ∧
      AnnotateTxsMem exDb sharedMem = some (none,
        [(0, [("control_program", Value.str "aa"), ("account_id", Value.str "acct1"),
          ("account_alias", Value.str "bob"), ("purpose", Value.str "receive")])]) ∧
      ((AnnotateTxsMem exDb sharedMem).bind (fun out => goGet 0 out.2)).bind
        (goGet "purpose") = some (Value.str "receive") :=
  ⟨rfl, rfl, rfl, rfl⟩

/-- On batches whose records are distinct map objects (the tree model), for a fixed list
of registry rows the record at an address after a successful run is `annotRec` of its side,
the rows and the record that was there; so two records with equal initial fields and the
same side end equal, whichever batches they sit in and wherever they stand in them. -/
theorem locality_unshared (dbA dbB : List Bytes → QueryResult)
    (txsA txsB txsA' txsB' : List Record)
    (stA stB : Collector) (rows : List ScanRow)
    (hA : AnnotateTxs dbA txsA = some (none, txsA'))
    (hB : AnnotateTxs dbB txsB = some (none, txsB'))
    (hcA : collect txsA = .ok stA) (hcB : collect txsB = .ok stB)
    (hrowsA : (dbA stA.controlPrograms).rows = rows)
    (hrowsB : (dbB stB.controlPrograms).rows = rows)
    (refA refB : Ref) (r : Record) (hrA : getRec txsA refA = some r)
    (hrB : getRec txsB refB = some r) (hside : refA.side = refB.side) :
    getRec txsA' refA = some (annotRec refA.side rows r) ∧
      getRec txsB' refB = some (annotRec refA.side rows r) := by
  obtain ⟨sA, hcA', _, hrecA⟩ := getRec_AnnotateTxs hA
  obtain ⟨sB, hcB', _, hrecB⟩ := getRec_AnnotateTxs hB
  rw [hcA] at hcA'
  rw [hcB] at hcB'
  cases hcA'
  cases hcB'
  constructor
  · rw [hrecA, hrA, hrowsA]; rfl
  · rw [hrecB, hrB, hrowsB, hside]; rfl

/-- On `unsharedMem`, which holds the records of the tree-shaped batch `pairBatch` as two
distinct objects, the run in memory and the run on the tree give the same records. -/
theorem unsharedMem_agrees_with_tree :
    (AnnotateTxsMem exDb unsharedMem).map (fun out => (out.1, goGet 0 out.2, goGet 1 out.2)) =
      (AnnotateTxs exDb pairBatch).map
        (fun out => (out.1, getRec out.2 ⟨0, .outputs, 0⟩, getRec out.2 ⟨0, .inputs, 0⟩)) :=
  rfl

/-- C19 (defect of the code, the one of C17). Annotation is not local when a record object
is shared: the input 0 of `sharedMem` and the input 0 of `unsharedMem` have equal initial
fields and the same role, and both runs use the same registry rows and succeed, yet the
first ends with `purpose = "receive"`, because its object is also an output, and the second
ends without `purpose`. -/
theorem C19_shared_input_not_local :
    goGet 0 sharedMem.heap = goGet 1 unsharedMem.heap ∧
      sharedMem.txs =
        [[("outputs", SideVal.slice [Elem.ptr 0]), ("inputs", SideVal.slice [Elem.ptr 0])]] ∧
      unsharedMem.txs =
        [[("outputs", SideVal.slice [Elem.ptr 0]), ("inputs", SideVal.slice [Elem.ptr 1])]] ∧
      (AnnotateTxsMem exDb sharedMem).map (fun out => (out.1, goGet 0 out.2)) =
        some (none, some [("control_program", Value.str "aa"),
          ("account_id", Value.str "acct1"), ("account_alias", Value.str "bob"),
          ("purpose", Value.str "receive")]) ∧
      (AnnotateTxsMem exDb unsharedMem).map (fun out => (out.1, goGet 1 out.2)) =
        some (none, some [("control_program", Value.str "aa"),
          ("account_id", Value.str "acct1"), ("account_alias", Value.str "bob")]) ∧
      (AnnotateTxsMem exDb sharedMem).map (fun out => goGet 0 out.2) ≠
        (AnnotateTxsMem exDb unsharedMem).map (fun out => goGet 1 out.2) :=
  ⟨rfl, rfl, rfl, rfl, rfl, by decide⟩

/-- C14. The scenario of the specification: against a registry holding the one row
(program `0xAA`, account `acct1`, change false, alias `bob`, no tags) the run on the batch
of two transactions succeeds; the output of the first transaction and the first output of
the second end with `account_id = "acct1"`, `account_alias = "bob"`,
`purpose = "receive"` and no `account_tags`; the issuance input is unchanged; the output
for `0xBB` has no annotation field. -/
theorem C14_scenario :
    AnnotateTxs (registryOf [exRow]) exBatch = some (none, exBatchDone) ∧
      getRec exBatchDone ⟨0, .outputs, 0⟩ =
        some [("control_program", Value.str "aa"), ("account_id", Value.str "acct1"),
          ("account_alias", Value.str "bob"), ("purpose", Value.str "receive")] ∧
      getRec exBatchDone ⟨1, .outputs, 0⟩ =
        some [("control_program", Value.str "aa"), ("account_id", Value.str "acct1"),
          ("account_alias", Value.str "bob"), ("purpose", Value.str "receive")] ∧
      (getRec exBatchDone ⟨0, .outputs, 0⟩).bind (goGet "account_tags") = none ∧
      (getRec exBatchDone ⟨1, .outputs, 0⟩).bind (goGet "account_tags") = none ∧
      getRec exBatch ⟨0, .inputs, 0⟩ = some [] ∧
      getRec exBatchDone ⟨0, .inputs, 0⟩ = some [] ∧
      getRec exBatchDone ⟨1, .outputs, 1⟩ = some [("control_program", Value.str "bb")] :=
  ⟨rfl, rfl, rfl, rfl, rfl, rfl, rfl, rfl⟩

/-- C18. Structural errors are fatal and atomic: when some transaction of the batch has no
`outputs` or no `inputs` key, or has one whose value is not a slice, or has a slice with an
element that is not a key-value record, `AnnotateTxs` returns an error, whether or not any
record carries a control program, and the batch is exactly as it was. -/
theorem C18_structural_error_atomic (db : List Bytes → QueryResult) (txs : List Record)
    (tx : Record) (side : Side) (htx : tx ∈ txs)
    (hbad : goGet side.key tx = none ∨
      (∃ v, goGet side.key tx = some v ∧ ∀ xs, v ≠ Value.slice xs) ∨
      (∃ xs x, goGet side.key tx = some (Value.slice xs) ∧ x ∈ xs ∧ ∀ r, x ≠ Value.map r)) :
    ∃ e, AnnotateTxs db txs = some (some e, txs) := by
  have hnwf : ¬ WellFormed txs := by
    intro hwf
    obtain ⟨xs, hxs, hall⟩ := hwf tx htx side
    have hget := (index_eq_slice_iff tx side.key xs).1 hxs
    rcases hbad with hnone | ⟨v, hv, hns⟩ | ⟨ys, x, hys, hx, hnm⟩
    · rw [hnone] at hget; cases hget
    · rw [hv] at hget
      simp only [Option.some.injEq] at hget
      exact hns xs hget
    · rw [hys] at hget
      simp only [Option.some.injEq, Value.slice.injEq] at hget
      subst hget
      obtain ⟨r, hr, _⟩ := hall x hx
      exact hnm r hr
  obtain ⟨e, he⟩ := collect_error_of_not_wellFormed hnwf
  exact ⟨e, AnnotateTxs_collect_error he⟩

/-- The hypotheses of C18 hold on a batch whose transaction has no `inputs` key. -/
theorem C18_structural_error_atomic_witness :
    [("outputs", Value.slice [recOf "aa"])] ∈ noInputsBatch ∧
      goGet Side.inputs.key [("outputs", Value.slice [recOf "aa"])] = none ∧
      ∃ e, AnnotateTxs exDb noInputsBatch = some (some e, noInputsBatch) :=
  ⟨by simp [noInputsBatch], rfl,
    C18_structural_error_atomic exDb noInputsBatch [("outputs", Value.slice [recOf "aa"])]
      Side.inputs (by simp [noInputsBatch]) (Or.inl rfl)⟩

/-! ### The distributor on arbitrary columns -/

theorem foldlM_isSome {α β : Type} (f : β → α → Option β) (l : List α)
    (h : ∀ a ∈ l, ∀ b, ∃ b', f b a = some b') (b : β) : ∃ b', l.foldlM f b = some b' := by
  induction l generalizing b with
  | nil => exact ⟨b, rfl⟩
  | cons a t ih =>
    obtain ⟨b1, hb1⟩ := h a (List.mem_cons_self _ _) b
    obtain ⟨b2, hb2⟩ := ih (fun x hx => h x (List.mem_cons_of_mem _ hx)) b1
    exact ⟨b2, by simp [List.foldlM_cons, hb1, hb2]⟩

/-- With five columns of equal length the distribution loop never indexes out of
range. -/
theorem distribute_isSome (c : Columns) (cm om : List (Bytes × List Ref)) (txs : List Record)
    (h1 : c.programs.length = c.ids.length) (h2 : c.changeFlags.length = c.ids.length)
    (h3 : c.aliases.length = c.ids.length) (h4 : c.tags.length = c.ids.length) :
    ∃ txs', distribute c cm om txs = some txs' := by
  unfold distribute
  apply foldlM_isSome
  intro i hi t
  have hlt : i < c.ids.length := List.mem_range.1 hi
  rw [List.getElem?_eq_getElem hlt, List.getElem?_eq_getElem (by omega : i < c.programs.length),
    List.getElem?_eq_getElem (by omega : i < c.changeFlags.length),
    List.getElem?_eq_getElem (by omega : i < c.aliases.length),
    List.getElem?_eq_getElem (by omega : i < c.tags.length)]
  exact ⟨_, rfl⟩

theorem indexList_eq_nil_of_forall_not_mem {α : Type} (l : List α) (h : ∀ a, a ∉ l) :
    l = [] := by
  cases l with
  | nil => rfl
  | cons a t => exact absurd (List.mem_cons_self a t) (h a)

/-- C16. The distributor is total on arbitrary rows: with five columns of equal length, as
the callback builds them from any list of rows, the distribution loop completes for every
batch and every pair of index maps without a failed lookup or an index out of range; and
the iteration for a row whose program is carried by no record of the batch leaves every
batch it runs on unchanged. -/
theorem C16_distributor_total (txs : List Record) (st : Collector)
    (hc : collect txs = .ok st) (c : Columns) (rows : List ScanRow) (row : ScanRow)
    (cm om : List (Bytes × List Ref)) (t : List Record)
    (h1 : c.programs.length = c.ids.length) (h2 : c.changeFlags.length = c.ids.length)
    (h3 : c.aliases.length = c.ids.length) (h4 : c.tags.length = c.ids.length)
    (hno : ∀ ref r, getRec txs ref = some r → progOf r ≠ some row.program) :
    (∃ t', distribute c cm om t = some t') ∧
      ((scanRows rows).programs.length = (scanRows rows).ids.length ∧
        (scanRows rows).changeFlags.length = (scanRows rows).ids.length ∧
        (scanRows rows).aliases.length = (scanRows rows).ids.length ∧
        (scanRows rows).tags.length = (scanRows rows).ids.length) ∧
      (∃ t', distribute (scanRows rows) cm om t = some t') ∧
      indexList st.controlMaps row.program = [] ∧
      indexList st.outputMaps row.program = [] ∧
      distribute (scanRows [row]) st.controlMaps st.outputMaps t = some t := by
  have e1 : indexList st.controlMaps row.program = [] :=
    indexList_eq_nil_of_forall_not_mem _ (fun ref hm => by
      obtain ⟨r, hr, hp⟩ := (mem_controlMaps hc ref row.program).1 hm
      exact hno ref r hr hp)
  have e2 : indexList st.outputMaps row.program = [] :=
    indexList_eq_nil_of_forall_not_mem _ (fun ref hm => by
      obtain ⟨_, r, hr, hp⟩ := (mem_outputMaps hc ref row.program).1 hm
      exact hno ref r hr hp)
  refine ⟨distribute_isSome c cm om t h1 h2 h3 h4, ?_, ⟨_, distribute_scanRows cm om rows t⟩,
    e1, e2, ?_⟩
  · rw [scanRows_eq]; simp
  · rw [distribute_scanRows]
    have : (fun (ref : Ref) (r : Record) =>
        applyOps (allOpsAt st.controlMaps st.outputMaps [row] ref) r) = fun _ r => r := by
      funext ref r
      simp [allOpsAt, opsAt, e1, e2, applyOps_nil]
    rw [this, mapRecs_id]

/-- The hypotheses of C16 hold for the columns of two rows and a row for a program
`0xCC` that no record of the scenario carries. -/
theorem C16_distributor_total_witness :
    collect exBatch = .ok exState ∧
      (∀ ref r, getRec exBatch ref = some r → progOf r ≠ some [204]) ∧
      (∃ t', distribute (scanRows [exRow, taggedRow]) oneRefMaps oneRefMaps aliasBatch =
        some t') ∧
      distribute (scanRows [⟨"acct9", [204], true, ⟨"", false⟩, []⟩]) exState.controlMaps
        exState.outputMaps aliasBatch = some aliasBatch := by
  have hno : ∀ ref r, getRec exBatch ref = some r → progOf r ≠ some [204] := by
    intro ref r hr hp
    have hm := (mem_scan exBatch ref [204]).2 ⟨r, hr, hp⟩
    revert hm
    have : scan exBatch = [(⟨0, .outputs, 0⟩, [170]), (⟨1, .outputs, 0⟩, [170]),
      (⟨1, .outputs, 1⟩, [187])] := rfl
    rw [this]
    simp
  have h := C16_distributor_total exBatch exState rfl (scanRows [exRow, taggedRow])
    [exRow, taggedRow] ⟨"acct9", [204], true, ⟨"", false⟩, []⟩ oneRefMaps oneRefMaps aliasBatch
    rfl rfl rfl rfl hno
  exact ⟨rfl, hno, h.1, h.2.2.2.2.2⟩

/-! ### The scan is in scan order -/

theorem scanElem_pairwise (ref : Ref) (x : Value) :
    ((scanElem ref x).map Prod.fst).Pairwise Ref.before := by
  cases x with
  | map r =>
    simp only [scanElem]
    cases progOf r <;> simp
  | null => simp [scanElem]
  | bool b => simp [scanElem]
  | num n => simp [scanElem]
  | str s => simp [scanElem]
  | raw bs => simp [scanElem]
  | slice xs => simp [scanElem]

theorem scanSlice_pairwise (k : Nat) (side : Side) (xs : List Value) (j0 : Nat) :
    ((scanSlice k side j0 xs).map Prod.fst).Pairwise Ref.before := by
  induction xs generalizing j0 with
  | nil => simp [scanSlice]
  | cons x t ih =>
    simp only [scanSlice, List.map_append]
    rw [List.pairwise_append]
    refine ⟨scanElem_pairwise _ x, ih (j0 + 1), ?_⟩
    intro a ha b hb
    have e := mem_fst_scanElem ha
    obtain ⟨b1, b2, b3⟩ := mem_fst_scanSlice hb
    subst e
    exact Or.inr ⟨b1.symm, Or.inr ⟨b2.symm, by simp only; omega⟩⟩

theorem scanSide_pairwise (k : Nat) (side : Side) (v : Value) :
    ((scanSide k side v).map Prod.fst).Pairwise Ref.before := by
  cases v with
  | slice xs => exact scanSlice_pairwise k side xs 0
  | null => simp [scanSide]
  | bool b => simp [scanSide]
  | num n => simp [scanSide]
  | str s => simp [scanSide]
  | raw bs => simp [scanSide]
  | map kvs => simp [scanSide]

theorem scanTxs_pairwise (txs : List Record) (k0 : Nat) :
    ((scanTxs k0 txs).map Prod.fst).Pairwise Ref.before := by
  induction txs generalizing k0 with
  | nil => simp [scanTxs]
  | cons tx t ih =>
    simp only [scanTxs, List.map_append]
    rw [List.pairwise_append, List.pairwise_append]
    refine ⟨⟨scanSide_pairwise _ _ _, scanSide_pairwise _ _ _, ?_⟩, ih (k0 + 1), ?_⟩
    · intro a ha b hb
      obtain ⟨a1, a2⟩ := mem_fst_scanSide ha
      obtain ⟨b1, b2⟩ := mem_fst_scanSide hb
      exact Or.inr ⟨by omega, Or.inl ⟨a2, b2⟩⟩
    · intro a ha b hb
      have hk : a.tx = k0 := by
        rcases List.mem_append.1 ha with h | h
        · exact (mem_fst_scanSide h).1
        · exact (mem_fst_scanSide h).1
      have := mem_fst_scanTxs hb
      exact Or.inl (by omega)

/-- The scan visits the records in scan order. -/
theorem scan_pairwise (txs : List Record) : ((scan txs).map Prod.fst).Pairwise Ref.before :=
  scanTxs_pairwise txs 0

theorem filter_map_fst_outputs (items : List (Ref × Bytes)) (p : Bytes) :
    (items.filter (fun e => decide (e.2 = p ∧ e.1.side = Side.outputs))).map Prod.fst =
      ((items.filter (fun e => decide (e.2 = p))).map Prod.fst).filter
        (fun ref => decide (ref.side = Side.outputs)) := by
  induction items with
  | nil => rfl
  | cons a t ih =>
    simp only [Bool.decide_and] at ih ⊢
    by_cases h1 : a.2 = p <;> by_cases h2 : a.1.side = Side.outputs <;>
      simp [List.filter_cons, h1, h2, ih]

/-- C15. The indexes of the collector: after a successful collection, for every byte
string `p`, `controlMaps[p]` lists exactly the addresses of the input and output records
whose `control_program` decodes to `p`, and `outputMaps[p]` exactly the output records
among them, each once and in scan order (transactions in batch order, all outputs of a
transaction before its inputs); every program of the key list is a key of `controlMaps`
with a non-empty list, and every key of `controlMaps` is in the key list. -/
theorem C15_collector_indexes (txs : List Record) (st : Collector)
    (hc : collect txs = .ok st) (p : Bytes) :
    (indexList st.controlMaps p =
        ((scan txs).filter (fun e => decide (e.2 = p))).map Prod.fst) ∧
      (indexList st.controlMaps p).Pairwise Ref.before ∧
      (∀ ref, ref ∈ indexList st.controlMaps p ↔
        ∃ r, getRec txs ref = some r ∧ progOf r = some p) ∧
      (indexList st.outputMaps p =
        (indexList st.controlMaps p).filter (fun ref => decide (ref.side = Side.outputs))) ∧
      (indexList st.outputMaps p).Pairwise Ref.before ∧
      (∀ ref, ref ∈ indexList st.outputMaps p ↔
        ref.side = Side.outputs ∧ ∃ r, getRec txs ref = some r ∧ progOf r = some p) ∧
      (p ∈ st.controlPrograms →
        (goGet p st.controlMaps).isSome ∧ indexList st.controlMaps p ≠ []) ∧
      ((goGet p st.controlMaps).isSome → p ∈ st.controlPrograms) := by
  obtain ⟨hkeys, hcm, hom, hdom⟩ := collect_indexed hc
  have hpw : (indexList st.controlMaps p).Pairwise Ref.before := by
    rw [hcm p]
    exact List.Pairwise.sublist ((List.filter_sublist _).map Prod.fst) (scan_pairwise txs)
  have hout : indexList st.outputMaps p =
      (indexList st.controlMaps p).filter (fun ref => decide (ref.side = Side.outputs)) := by
    rw [hom p, hcm p, filter_map_fst_outputs]
  refine ⟨hcm p, hpw, fun ref => mem_controlMaps hc ref p, hout, ?_,
    fun ref => mem_outputMaps hc ref p, ?_, ?_⟩
  · rw [hout]
    exact List.Pairwise.filter _ hpw
  · intro hp
    rw [hkeys] at hp
    refine ⟨(hdom p).2 hp, ?_⟩
    simp only [List.mem_map, Prod.exists, exists_eq_right] at hp
    obtain ⟨ref, hm⟩ := hp
    have : ref ∈ indexList st.controlMaps p :=
      (mem_controlMaps hc ref p).2 ((mem_scan txs ref p).1 hm)
    intro hnil
    rw [hnil] at this
    cases this
  · intro hs
    rw [hkeys]
    exact (hdom p).1 hs

/-- The hypothesis of C15 holds on the scenario batch. -/
theorem C15_collector_indexes_witness :
    collect exBatch = .ok exState ∧
      indexList exState.controlMaps [170] = [⟨0, .outputs, 0⟩, ⟨1, .outputs, 0⟩] ∧
      (indexList exState.controlMaps [170]).Pairwise Ref.before ∧
      (indexList exState.outputMaps [170] =
        (indexList exState.controlMaps [170]).filter
          (fun ref => decide (ref.side = Side.outputs))) ∧
      ([170] ∈ exState.controlPrograms →
        (goGet [170] exState.controlMaps).isSome ∧ indexList exState.controlMaps [170] ≠ []) :=
  ⟨rfl, rfl, (C15_collector_indexes exBatch exState rfl [170]).2.1,
    (C15_collector_indexes exBatch exState rfl [170]).2.2.2.1,
    (C15_collector_indexes exBatch exState rfl [170]).2.2.2.2.2.2.1⟩

/-! ### The shape of the batch -/

theorem length_mapTxs (g : Ref → Record → Record) (k : Nat) (txs : List Record) :
    (mapTxs g k txs).length = txs.length := by
  induction txs generalizing k with
  | nil => rfl
  | cons tx t ih => simp [mapTxs, ih]

theorem length_mapSlice (g : Nat → Record → Record) (j : Nat) (xs : List Value) :
    (mapSlice g j xs).length = xs.length := by
  induction xs generalizing j with
  | nil => rfl
  | cons x t ih => simp [mapSlice, ih]

theorem map_fst_goModify {κ ν : Type} [DecidableEq κ] (k : κ) (f : ν → ν)
    (l : List (κ × ν)) : (goModify k f l).map Prod.fst = l.map Prod.fst := by
  induction l with
  | nil => rfl
  | cons a t ih =>
    obtain ⟨k0, v0⟩ := a
    by_cases h0 : k0 = k
    · simp [goModify, h0]
    · simp [goModify, h0, ih]

theorem map_fst_mapTx (g : Side → Nat → Record → Record) (tx : Record) :
    (mapTx g tx).map Prod.fst = tx.map Prod.fst := by
  unfold mapTx
  rw [map_fst_goModify, map_fst_goModify]

theorem goGet_mapTx_other (g : Side → Nat → Record → Record) (tx : Record) {key : String}
    (h1 : key ≠ "outputs") (h2 : key ≠ "inputs") : goGet key (mapTx g tx) = goGet key tx := by
  unfold mapTx
  rw [goGet_goModify_ne (Ne.symm h1), goGet_goModify_ne (Ne.symm h2)]

theorem sideOf_mapRecs (g : Ref → Record → Record) (txs : List Record) (k : Nat)
    (side : Side) :
    sideOf (mapRecs g txs) k side =
      (sideOf txs k side).map (mapSlice (fun j => g ⟨k, side, j⟩) 0) := by
  unfold sideOf mapRecs
  simp only [getElem?_mapTxs, Nat.zero_add]
  cases htx : txs[k]? with
  | none => rfl
  | some tx =>
    simp only [Option.map_some', goGet_mapTx]
    cases hv : goGet side.key tx with
    | none => rfl
    | some v => cases v <;> simp [mapSide]

/-- In a batch the collector accepts, every element of every side is a key-value
record. -/
theorem elem_of_sideOf {txs : List Record} (hwf : WellFormed txs) {k : Nat} {side : Side}
    {xs : List Value} (hs : sideOf txs k side = some xs) {x : Value} (hx : x ∈ xs) :
    ∃ r, x = Value.map r := by
  unfold sideOf at hs
  cases htx : txs[k]? with
  | none => rw [htx] at hs; cases hs
  | some tx =>
    rw [htx] at hs
    simp only at hs
    obtain ⟨ys, hys, hall⟩ := hwf tx (List.mem_iff_getElem?.2 ⟨_, htx⟩) side
    rw [(index_eq_slice_iff _ _ _).1 hys] at hs
    simp only [Option.some.injEq] at hs
    subst hs
    obtain ⟨r, hr, _⟩ := hall x hx
    exact ⟨r, hr⟩

/-- C12. The frame of `AnnotateTxs`: after a successful run the batch has the same number
of transactions, each transaction has the same keys in the same order and the same values
under every key other than `outputs` and `inputs`, each side is a slice of the same length
whose elements are all records, an address holds a record after the run exactly when it
did before, and the record at each address agrees with the record that was there on
`control_program` and on every field other than `account_id`, `account_alias`,
`account_tags` and `purpose`, and has every field the original had. -/
theorem C12_frame (db : List Bytes → QueryResult) (txs txs' : List Record)
    (h : AnnotateTxs db txs = some (none, txs')) :
    txs'.length = txs.length ∧
      (∀ k : Nat, (txs'[k]?).map (List.map Prod.fst) = (txs[k]?).map (List.map Prod.fst)) ∧
      (∀ (k : Nat) (key : String), key ≠ "outputs" → key ≠ "inputs" →
        (txs'[k]?).map (goGet key) = (txs[k]?).map (goGet key)) ∧
      (∀ k side, (sideOf txs' k side).map List.length = (sideOf txs k side).map List.length) ∧
      (∀ k side xs, sideOf txs k side = some xs → ∀ x ∈ xs, ∃ r, x = Value.map r) ∧
      (∀ ref, (getRec txs' ref).isSome = (getRec txs ref).isSome) ∧
      (∀ ref r, getRec txs ref = some r →
        ∃ r', getRec txs' ref = some r' ∧
          goGet "control_program" r' = goGet "control_program" r ∧
          (∀ key, key ≠ "account_id" → key ≠ "account_alias" → key ≠ "account_tags" →
            key ≠ "purpose" → goGet key r' = goGet key r) ∧
          (∀ key, (goGet key r).isSome → (goGet key r').isSome)) := by
  obtain ⟨st, hc, he, hrec⟩ := getRec_AnnotateTxs h
  obtain ⟨st2, hc2, _, heq⟩ := AnnotateTxs_ok_inv h
  have hwf : WellFormed txs := (collect_isOk_iff txs).1 ⟨st, hc⟩
  refine ⟨?_, ?_, ?_, ?_, ?_, ?_, ?_⟩
  · rw [heq]; exact length_mapTxs _ 0 txs
  · intro k
    rw [heq]
    unfold mapRecs
    rw [getElem?_mapTxs]
    cases txs[k]? with
    | none => rfl
    | some tx => simp only [Option.map_some', map_fst_mapTx]
  · intro k key h1 h2
    rw [heq]
    unfold mapRecs
    rw [getElem?_mapTxs]
    cases txs[k]? with
    | none => rfl
    | some tx => simp only [Option.map_some', goGet_mapTx_other _ _ h1 h2]
  · intro k side
    rw [heq, sideOf_mapRecs]
    cases sideOf txs k side with
    | none => rfl
    | some xs => simp only [Option.map_some', length_mapSlice]
  · intro k side xs hs x hx
    exact elem_of_sideOf hwf hs hx
  · intro ref
    rw [hrec]
    cases getRec txs ref <;> rfl
  · intro ref r hr
    refine ⟨_, by rw [hrec, hr]; rfl, ?_, ?_, ?_⟩
    · exact goGet_annotRec_other (by decide) (by decide) (by decide) (by decide) _ _ r
    · intro key h1 h2 h3 h4
      exact goGet_annotRec_other h1 h3 h2 h4 _ _ r
    · intro key hk
      exact goGet_annotRec_isSome key _ _ r hk

/-- The hypothesis of C12 holds on the scenario batch and registry. -/
theorem C12_frame_witness :
    AnnotateTxs exDb exBatch = some (none, exBatchDone) ∧
      exBatchDone.length = exBatch.length ∧
      (∀ k side,
        (sideOf exBatchDone k side).map List.length = (sideOf exBatch k side).map List.length) ∧
      (∀ ref, (getRec exBatchDone ref).isSome = (getRec exBatch ref).isSome) :=
  ⟨rfl, (C12_frame exDb exBatch exBatchDone rfl).1,
    (C12_frame exDb exBatch exBatchDone rfl).2.2.2.1,
    (C12_frame exDb exBatch exBatchDone rfl).2.2.2.2.2.1⟩

/-! ### A tree-shaped batch in memory -/

theorem goGet_eq_some_iff_mem {κ ν : Type} [DecidableEq κ] {l : List (κ × ν)}
    (hnd : (l.map Prod.fst).Nodup) (a : κ) (v : ν) : goGet a l = some v ↔ (a, v) ∈ l := by
  induction l with
  | nil => simp [goGet]
  | cons e t ih =>
    obtain ⟨k0, v0⟩ := e
    simp only [List.map_cons, List.nodup_cons, List.mem_map, not_exists, not_and] at hnd
    by_cases h0 : k0 = a
    · subst h0
      simp only [goGet, if_true, Option.some.injEq, List.mem_cons, Prod.mk.injEq, true_and]
      constructor
      · intro h; exact Or.inl h.symm
      · rintro (h | h)
        · exact h.symm
        · exact absurd rfl (hnd.1 (k0, v) h)
    · simp only [goGet, h0, if_false, List.mem_cons, Prod.mk.injEq]
      rw [ih hnd.2]
      constructor
      · intro h; exact Or.inr h
      · rintro (h | h)
        · exact absurd h.1.symm h0
        · exact h

theorem mem_recsElem (ref0 : Ref) (x : Value) (ref : Ref) (r : Record) :
    (ref, r) ∈ recsElem ref0 x ↔ ref = ref0 ∧ x = Value.map r := by
  cases x <;> simp [recsElem, eq_comm]

theorem mem_recsSlice (k : Nat) (side : Side) (xs : List Value) (j0 : Nat) (ref : Ref)
    (r : Record) :
    (ref, r) ∈ recsSlice k side j0 xs ↔
      ref.tx = k ∧ ref.side = side ∧ ∃ i, ref.idx = j0 + i ∧ xs[i]? = some (Value.map r) := by
  induction xs generalizing j0 with
  | nil => simp [recsSlice]
  | cons x t ih =>
    simp only [recsSlice, List.mem_append, mem_recsElem, ih]
    constructor
    · rintro (⟨rfl, rfl⟩ | ⟨h1, h2, i, hi, hx⟩)
      · exact ⟨rfl, rfl, 0, rfl, by simp⟩
      · exact ⟨h1, h2, i + 1, by omega, by simpa using hx⟩
    · rintro ⟨h1, h2, i, hi, hx⟩
      cases i with
      | zero =>
        left
        simp only [List.getElem?_cons_zero, Option.some.injEq] at hx
        obtain ⟨a, b, c⟩ := ref
        simp only at h1 h2 hi
        subst h1 h2 hi
        exact ⟨rfl, hx⟩
      | succ i =>
        right
        exact ⟨h1, h2, i, by omega, by simpa using hx⟩

theorem mem_recsSide (k : Nat) (side : Side) (v : Value) (ref : Ref) (r : Record) :
    (ref, r) ∈ recsSide k side v ↔
      ref.tx = k ∧ ref.side = side ∧
        ∃ xs, v = Value.slice xs ∧ xs[ref.idx]? = some (Value.map r) := by
  cases v with
  | slice xs =>
    simp only [recsSide, mem_recsSlice, Value.slice.injEq, Nat.zero_add]
    constructor
    · rintro ⟨h1, h2, i, hi, hx⟩
      exact ⟨h1, h2, xs, rfl, by rw [hi]; exact hx⟩
    · rintro ⟨h1, h2, xs', rfl, hx⟩
      exact ⟨h1, h2, ref.idx, rfl, hx⟩
  | null => simp [recsSide]
  | bool b => simp [recsSide]
  | num n => simp [recsSide]
  | str s => simp [recsSide]
  | raw bs => simp [recsSide]
  | map kvs => simp [recsSide]

theorem mem_recsTxs (txs : List Record) (k0 : Nat) (ref : Ref) (r : Record) :
    (ref, r) ∈ recsTxs k0 txs ↔
      ∃ i tx, ref.tx = k0 + i ∧ txs[i]? = some tx ∧
        ∃ xs, index tx ref.side.key = Value.slice xs ∧ xs[ref.idx]? = some (Value.map r) := by
  induction txs generalizing k0 with
  | nil => simp [recsTxs]
  | cons tx t ih =>
    simp only [recsTxs, List.mem_append, mem_recsSide, ih]
    constructor
    · rintro ((⟨h1, h2, xs, hv, hx⟩ | ⟨h1, h2, xs, hv, hx⟩) | ⟨i, tx', hi, htx, hrest⟩)
      · exact ⟨0, tx, by omega, by simp, xs, by rw [h2]; exact hv, hx⟩
      · exact ⟨0, tx, by omega, by simp, xs, by rw [h2]; exact hv, hx⟩
      · exact ⟨i + 1, tx', by omega, by simpa using htx, hrest⟩
    · rintro ⟨i, tx', hi, htx, xs, hv, hx⟩
      cases i with
      | zero =>
        left
        simp only [List.getElem?_cons_zero, Option.some.injEq] at htx
        subst htx
        cases hs : ref.side with
        | outputs =>
          left
          rw [hs] at hv
          exact ⟨by omega, rfl, xs, hv, hx⟩
        | inputs =>
          right
          rw [hs] at hv
          exact ⟨by omega, rfl, xs, hv, hx⟩
      | succ i =>
        right
        exact ⟨i, tx', by omega, by simpa using htx, xs, hv, hx⟩

/-- The heap of the layout holds exactly the records of the batch, under their
addresses. -/
theorem mem_recs (txs : List Record) (ref : Ref) (r : Record) :
    (ref, r) ∈ recs txs ↔ getRec txs ref = some r := by
  unfold recs
  rw [mem_recsTxs, getRec_eq_some_iff]
  simp only [Nat.zero_add]
  constructor
  · rintro ⟨i, tx, hi, htx, xs, hv, hx⟩
    exact ⟨tx, xs, by rw [hi]; exact htx, hv, hx⟩
  · rintro ⟨tx, xs, htx, hv, hx⟩
    exact ⟨ref.tx, tx, rfl, htx, xs, hv, hx⟩

theorem recsElem_nodup (ref : Ref) (x : Value) : ((recsElem ref x).map Prod.fst).Nodup := by
  cases x <;> simp [recsElem]

theorem mem_fst_recsElem {ref0 ref : Ref} {x : Value}
    (h : ref ∈ (recsElem ref0 x).map Prod.fst) : ref = ref0 := by
  simp only [List.mem_map, Prod.exists, exists_and_right, exists_eq_right] at h
  obtain ⟨r, hr⟩ := h
  exact ((mem_recsElem ref0 x ref r).1 hr).1

theorem mem_fst_recsSlice {k : Nat} {side : Side} {xs : List Value} {j0 : Nat} {ref : Ref}
    (h : ref ∈ (recsSlice k side j0 xs).map Prod.fst) :
    ref.tx = k ∧ ref.side = side ∧ j0 ≤ ref.idx := by
  simp only [List.mem_map, Prod.exists, exists_and_right, exists_eq_right] at h
  obtain ⟨r, hr⟩ := h
  obtain ⟨h1, h2, i, hi, _⟩ := (mem_recsSlice k side xs j0 ref r).1 hr
  exact ⟨h1, h2, by omega⟩

theorem recsSlice_nodup (k : Nat) (side : Side) (xs : List Value) (j0 : Nat) :
    ((recsSlice k side j0 xs).map Prod.fst).Nodup := by
  induction xs generalizing j0 with
  | nil => simp [recsSlice]
  | cons x t ih =>
    simp only [recsSlice, List.map_append]
    rw [List.nodup_append]
    refine ⟨recsElem_nodup _ x, ih (j0 + 1), ?_⟩
    intro ref h1 h2
    have e := mem_fst_recsElem h1
    have := (mem_fst_recsSlice h2).2.2
    rw [e] at this
    simp only at this
    omega

theorem mem_fst_recsSide {k : Nat} {side : Side} {v : Value} {ref : Ref}
    (h : ref ∈ (recsSide k side v).map Prod.fst) : ref.tx = k ∧ ref.side = side := by
  cases v with
  | slice xs => exact ⟨(mem_fst_recsSlice h).1, (mem_fst_recsSlice h).2.1⟩
  | null => simp [recsSide] at h
  | bool b => simp [recsSide] at h
  | num n => simp [recsSide] at h
  | str s => simp [recsSide] at h
  | raw bs => simp [recsSide] at h
  | map kvs => simp [recsSide] at h

theorem recsSide_nodup (k : Nat) (side : Side) (v : Value) :
    ((recsSide k side v).map Prod.fst).Nodup := by
  cases v with
  | slice xs => exact recsSlice_nodup k side xs 0
  | null => simp [recsSide]
  | bool b => simp [recsSide]
  | num n => simp [recsSide]
  | str s => simp [recsSide]
  | raw bs => simp [recsSide]
  | map kvs => simp [recsSide]

theorem mem_fst_recsTxs {txs : List Record} {k0 : Nat} {ref : Ref}
    (h : ref ∈ (recsTxs k0 txs).map Prod.fst) : k0 ≤ ref.tx := by
  simp only [List.mem_map, Prod.exists, exists_and_right, exists_eq_right] at h
  obtain ⟨r, hr⟩ := h
  obtain ⟨i, tx, hi, _⟩ := (mem_recsTxs txs k0 ref r).1 hr
  omega

theorem recsTxs_nodup (txs : List Record) (k0 : Nat) :
    ((recsTxs k0 txs).map Prod.fst).Nodup := by
  induction txs generalizing k0 with
  | nil => simp [recsTxs]
  | cons tx t ih =>
    simp only [recsTxs, List.map_append]
    rw [List.nodup_append, List.nodup_append]
    refine ⟨⟨recsSide_nodup _ _ _, recsSide_nodup _ _ _, ?_⟩, ih (k0 + 1), ?_⟩
    · intro ref h1 h2
      have a := (mem_fst_recsSide h1).2
      have b := (mem_fst_recsSide h2).2
      rw [a] at b
      cases b
    · intro ref h1 h2
      have hk : ref.tx = k0 := by
        rcases List.mem_append.1 h1 with h | h
        · exact (mem_fst_recsSide h).1
        · exact (mem_fst_recsSide h).1
      have := mem_fst_recsTxs h2
      omega

/-- In the layout every record is a distinct object: no address occurs twice in the
heap. -/
theorem recs_nodup (txs : List Record) : ((recs txs).map Prod.fst).Nodup :=
  recsTxs_nodup txs 0

/-- The object at the address `ref` of the layout is the record at `ref` of the batch. -/
theorem goGet_recs (txs : List Record) (ref : Ref) : goGet ref (recs txs) = getRec txs ref := by
  apply Option.ext
  intro r
  simp only [Option.mem_def]
  rw [goGet_eq_some_iff_mem (recs_nodup txs), mem_recs]

/-! ### The collector on the layout -/

theorem toMem_append (st : Collector) (sel : MapSel) (p : Bytes) (ref : Ref) :
    (st.append sel p ref).toMem = st.toMem.append sel p ref := by
  cases sel <;> rfl

theorem toMem_foldl_append (maps : List MapSel) (p : Bytes) (ref : Ref) (st : Collector) :
    (maps.foldl (fun s sel => s.append sel p ref) st).toMem =
      maps.foldl (fun s sel => s.append sel p ref) st.toMem := by
  induction maps generalizing st with
  | nil => rfl
  | cons sel t ih => simp only [List.foldl_cons, ih, toMem_append]

theorem updateOneMem_layoutElem (maps : List MapSel) (H : List (Ref × Record)) (ref : Ref)
    (st : Collector) (x : Value) (hH : ∀ r, x = Value.map r → goGet ref H = some r) :
    updateOneMem maps H st.toMem (layoutElem ref x) =
      (updateOne maps ref st x).map Collector.toMem := by
  cases x with
  | map r =>
    simp only [layoutElem, updateOneMem, updateOne, hH r rfl]
    cases index r "control_program" with
    | null => rfl
    | str s =>
      simp only
      cases hexDecodeString s with
      | error e => rfl
      | ok p =>
        simp only [Except.map]
        rw [toMem_foldl_append]
        rfl
    | bool b => rfl
    | num n => rfl
    | raw bs => rfl
    | slice xs => rfl
    | map kvs => rfl
  | null => rfl
  | bool b => rfl
  | num n => rfl
  | str s => rfl
  | raw bs => rfl
  | slice xs => rfl

theorem updateLoopMem_layoutSlice (maps : List MapSel) (H : List (Ref × Record)) (k : Nat)
    (side : Side) (xs : List Value) (j : Nat) (st : Collector)
    (hH : ∀ i r, xs[i]? = some (Value.map r) → goGet ⟨k, side, j + i⟩ H = some r) :
    updateLoopMem maps H (layoutSlice k side j xs) st.toMem =
      (updateLoop maps k side j xs st).map Collector.toMem := by
  induction xs generalizing j st with
  | nil => rfl
  | cons x t ih =>
    simp only [layoutSlice, updateLoopMem, updateLoop]
    rw [updateOneMem_layoutElem maps H ⟨k, side, j⟩ st x
      (fun r hr => hH 0 r (by simp [hr]))]
    cases updateOne maps ⟨k, side, j⟩ st x with
    | error e => rfl
    | ok st1 =>
      simp only [Except.map]
      exact ih (j + 1) st1 (fun i r hi => by
        have := hH (i + 1) r (by simpa using hi)
        rw [show j + (i + 1) = j + 1 + i by omega] at this
        exact this)

theorem updateMem_layoutSide (maps : List MapSel) (H : List (Ref × Record)) (k : Nat)
    (side : Side) (v : Value) (st : Collector)
    (hH : ∀ xs, v = Value.slice xs →
      ∀ i r, xs[i]? = some (Value.map r) → goGet ⟨k, side, i⟩ H = some r) :
    updateMem (some (layoutSide k side v)) maps H st.toMem =
      (update v k side maps st).map Collector.toMem := by
  cases v with
  | slice xs =>
    simp only [layoutSide, updateMem, update]
    exact updateLoopMem_layoutSlice maps H k side xs 0 st (fun i r hi => by
      have := hH xs rfl i r hi
      rw [Nat.zero_add]
      exact this)
  | null => rfl
  | bool b => rfl
  | num n => rfl
  | str s => rfl
  | raw bs => rfl
  | map kvs => rfl

theorem collectLoopMem_layoutTxs (H : List (Ref × Record)) (txs : List Record) (k : Nat)
    (st : Collector)
    (hH : ∀ i tx, txs[i]? = some tx → ∀ side xs, index tx (Side.key side) = Value.slice xs →
      ∀ j r, xs[j]? = some (Value.map r) → goGet ⟨k + i, side, j⟩ H = some r) :
    collectLoopMem H (layoutTxs k txs) st.toMem =
      (collectLoop k txs st).map Collector.toMem := by
  induction txs generalizing k st with
  | nil => rfl
  | cons tx t ih =>
    simp only [layoutTxs, collectLoopMem, collectLoop]
    have go : goGet "outputs"
        [("outputs", layoutSide k .outputs (index tx "outputs")),
          ("inputs", layoutSide k .inputs (index tx "inputs"))] =
        some (layoutSide k .outputs (index tx "outputs")) := by
      simp [goGet]
    have gi : goGet "inputs"
        [("outputs", layoutSide k .outputs (index tx "outputs")),
          ("inputs", layoutSide k .inputs (index tx "inputs"))] =
        some (layoutSide k .inputs (index tx "inputs")) := by
      simp [goGet]
    rw [go, gi]
    rw [updateMem_layoutSide _ H k .outputs _ st (fun xs hv i r hi => by
      have := hH 0 tx (by simp) .outputs xs hv i r hi
      simpa using this)]
    cases update (index tx "outputs") k .outputs [.control, .output] st with
    | error e => rfl
    | ok st1 =>
      simp only [Except.map]
      rw [updateMem_layoutSide _ H k .inputs _ st1 (fun xs hv i r hi => by
        have := hH 0 tx (by simp) .inputs xs hv i r hi
        simpa using this)]
      cases update (index tx "inputs") k .inputs [.control] st1 with
      | error e => rfl
      | ok st2 =>
        simp only [Except.map]
        exact ih (k + 1) st2 (fun i tx' hi side xs hv j r hj => by
          have := hH (i + 1) tx' (by simpa using hi) side xs hv j r hj
          rw [show k + (i + 1) = k + 1 + i by omega] at this
          exact this)

/-- On the layout of a batch the collector fails with the error of the tree model, or
succeeds with its index maps and key list. -/
theorem collectMem_layout (txs : List Record) :
    collectLoopMem (layout txs).heap (layout txs).txs ⟨[], [], []⟩ =
      (collect txs).map Collector.toMem := by
  have h := collectLoopMem_layoutTxs (recs txs) txs 0 ⟨[], [], []⟩
    (fun i tx hi side xs hv j r hj => by
      rw [goGet_recs]
      exact (getRec_eq_some_iff txs ⟨0 + i, side, j⟩ r).2
        ⟨tx, xs, by simpa using hi, hv, hj⟩)
  exact h

/-! ### The distributor on the layout -/

theorem map_fst_heapMap {α : Type} (g : α → Record → Record) (H : List (α × Record)) :
    (heapMap g H).map Prod.fst = H.map Prod.fst := by
  simp [heapMap]

theorem heapMap_id {α : Type} (H : List (α × Record)) : heapMap (fun _ r => r) H = H := by
  simp [heapMap]

theorem heapMap_comp {α : Type} (f g : α → Record → Record) (H : List (α × Record)) :
    heapMap g (heapMap f H) = heapMap (fun a r => g a (f a r)) H := by
  simp [heapMap]

theorem heapMap_congr_keys {α : Type} (f g : α → Record → Record) (H : List (α × Record))
    (h : ∀ e ∈ H, f e.1 e.2 = g e.1 e.2) : heapMap f H = heapMap g H := by
  unfold heapMap
  apply List.map_congr_left
  intro e he
  rw [h e he]

theorem goModify_eq_heapMap {α : Type} [DecidableEq α] (a : α) (f : Record → Record)
    (H : List (α × Record)) (hnd : (H.map Prod.fst).Nodup) :
    goModify a f H = heapMap (fun b r => if b = a then f r else r) H := by
  induction H with
  | nil => rfl
  | cons e t ih =>
    obtain ⟨k0, v0⟩ := e
    simp only [List.map_cons, List.nodup_cons, List.mem_map, not_exists, not_and] at hnd
    by_cases h0 : k0 = a
    · subst h0
      have ht : heapMap (fun b r => if b = k0 then f r else r) t = t := by
        rw [heapMap_congr_keys _ (fun _ r => r) t (fun e he => by
          have : e.1 ≠ k0 := fun h => hnd.1 e he h
          simp [this]), heapMap_id]
      have hcons : heapMap (fun b r => if b = k0 then f r else r) ((k0, v0) :: t) =
          (k0, f v0) :: heapMap (fun b r => if b = k0 then f r else r) t := by
        simp [heapMap]
      rw [hcons, ht]
      simp [goModify]
    · simp only [goModify, h0, if_false]
      rw [ih hnd.2]
      simp [heapMap, h0]

theorem foldl_goModify {α : Type} [DecidableEq α] (f : Record → Record)
    (hf : ∀ r, f (f r) = f r) (addrs : List α) (H : List (α × Record))
    (hnd : (H.map Prod.fst).Nodup) :
    addrs.foldl (fun h a => goModify a f h) H =
      heapMap (fun b r => if b ∈ addrs then f r else r) H := by
  induction addrs generalizing H with
  | nil => simp [heapMap_id]
  | cons a t ih =>
    simp only [List.foldl_cons]
    rw [goModify_eq_heapMap a f H hnd, ih _ (by rw [map_fst_heapMap]; exact hnd), heapMap_comp]
    congr 1
    funext b r
    by_cases h1 : b = a <;> by_cases h2 : b ∈ t <;> simp [h1, h2, hf]

theorem distributeScanRowMem_eq (cm om : List (Bytes × List Ref)) (H : List (Ref × Record))
    (hnd : (H.map Prod.fst).Nodup) (row : ScanRow) :
    distributeScanRowMem cm om H row =
      heapMap (fun ref r => applyOps (opsAt cm om row ref) r) H := by
  unfold distributeScanRowMem distributeRowMem
  simp only
  rw [foldl_goModify _ (fun r => by simp only [annotateIdentity_eq]; rw [applyOps_idem]) _ H hnd,
    foldl_goModify _ (fun r => by simp only [annotatePurpose_eq]; rw [applyOps_idem]) _ _
      (by rw [map_fst_heapMap]; exact hnd), heapMap_comp]
  congr 1
  funext ref r
  unfold opsAt
  rw [applyOps_append]
  by_cases h1 : ref ∈ indexList cm row.program <;>
    by_cases h2 : ref ∈ indexList om row.program <;>
    simp [h1, h2, annotateIdentity_eq, annotatePurpose_eq, applyOps_nil]

theorem foldl_distributeScanRowMem (cm om : List (Bytes × List Ref)) (rows : List ScanRow)
    (H : List (Ref × Record)) (hnd : (H.map Prod.fst).Nodup) :
    rows.foldl (distributeScanRowMem cm om) H =
      heapMap (fun ref r => applyOps (allOpsAt cm om rows ref) r) H := by
  induction rows generalizing H with
  | nil => simp [allOpsAt, applyOps_nil, heapMap_id]
  | cons row t ih =>
    simp only [List.foldl_cons]
    rw [distributeScanRowMem_eq cm om H hnd, ih _ (by rw [map_fst_heapMap]; exact hnd),
      heapMap_comp]
    congr 1
    funext ref r
    simp [allOpsAt, applyOps_append]

theorem distributeMem_take (cm om : List (Bytes × List Ref)) (rows : List ScanRow)
    (H : List (Ref × Record)) (n : Nat) (hn : n ≤ rows.length) :
    (List.range n).foldlM (fun h i =>
      match (rows.map ScanRow.accountID)[i]?, (rows.map ScanRow.program)[i]?,
        (rows.map ScanRow.change)[i]?, (rows.map ScanRow.accountAlias)[i]?,
        (rows.map rowTag)[i]? with
      | some id, some program, some change, some accountAlias, some tag =>
        some (distributeRowMem cm om h id program change accountAlias tag)
      | _, _, _, _, _ => none) H =
      some ((rows.take n).foldl (distributeScanRowMem cm om) H) := by
  induction n with
  | zero => simp
  | succ n ih =>
    have hlt : n < rows.length := by omega
    rw [List.range_succ, List.foldlM_append, ih (by omega)]
    have hrow : rows[n]? = some rows[n] := List.getElem?_eq_getElem hlt
    simp only [Option.bind_eq_bind, Option.some_bind, List.foldlM_cons, List.foldlM_nil,
      List.getElem?_map, hrow, Option.map_some', Option.bind_some]
    have htake : List.take (n + 1) rows = List.take n rows ++ [rows[n]] := by
      rw [List.take_succ, hrow]; rfl
    rw [htake, List.foldl_append]
    rfl

/-- The distribution loop on a heap without repeated addresses is the address-wise
application of the assignments of the rows. -/
theorem distributeMem_scanRows (cm om : List (Bytes × List Ref)) (rows : List ScanRow)
    (H : List (Ref × Record)) (hnd : (H.map Prod.fst).Nodup) :
    distributeMem (scanRows rows) cm om H =
      some (heapMap (fun ref r => applyOps (allOpsAt cm om rows ref) r) H) := by
  unfold distributeMem
  rw [scanRows_eq]
  simp only [List.length_map]
  rw [distributeMem_take cm om rows H rows.length (Nat.le_refl _), List.take_length,
    foldl_distributeScanRowMem cm om rows H hnd]

theorem recsElem_modElem (f : Record → Record) (ref : Ref) (x : Value) :
    recsElem ref (modElem f x) = (recsElem ref x).map (fun e => (e.1, f e.2)) := by
  cases x <;> simp [recsElem, modElem]

theorem recsSlice_mapSlice (g : Ref → Record → Record) (k : Nat) (side : Side)
    (xs : List Value) (j : Nat) :
    recsSlice k side j (mapSlice (fun i => g ⟨k, side, i⟩) j xs) =
      heapMap g (recsSlice k side j xs) := by
  induction xs generalizing j with
  | nil => rfl
  | cons x t ih =>
    simp only [mapSlice, recsSlice, recsElem_modElem, ih, heapMap, List.map_append]
    congr 1
    cases x <;> simp [recsElem]

theorem recsSide_mapSide (g : Ref → Record → Record) (k : Nat) (side : Side) (v : Value) :
    recsSide k side (mapSide (fun i => g ⟨k, side, i⟩) v) = heapMap g (recsSide k side v) := by
  cases v with
  | slice xs => exact recsSlice_mapSlice g k side xs 0
  | null => rfl
  | bool b => rfl
  | num n => rfl
  | str s => rfl
  | raw bs => rfl
  | map kvs => rfl

theorem recsTxs_mapTxs (g : Ref → Record → Record) (txs : List Record) (k : Nat) :
    recsTxs k (mapTxs g k txs) = heapMap g (recsTxs k txs) := by
  induction txs generalizing k with
  | nil => rfl
  | cons tx t ih =>
    simp only [mapTxs, recsTxs]
    have ho := index_mapTx (fun s j => g ⟨k, s, j⟩) .outputs tx
    have hi := index_mapTx (fun s j => g ⟨k, s, j⟩) .inputs tx
    simp only [Side.key] at ho hi
    rw [ho, hi, recsSide_mapSide, recsSide_mapSide, ih]
    simp [heapMap]

/-- The heap of the layout of an annotated batch is the annotated heap of the layout. -/
theorem recs_mapRecs (g : Ref → Record → Record) (txs : List Record) :
    recs (mapRecs g txs) = heapMap g (recs txs) :=
  recsTxs_mapTxs g txs 0

theorem layoutElem_modElem (f : Record → Record) (ref : Ref) (x : Value) :
    layoutElem ref (modElem f x) = layoutElem ref x := by
  cases x <;> rfl

theorem layoutSlice_mapSlice (g : Nat → Record → Record) (k : Nat) (side : Side)
    (xs : List Value) (j : Nat) :
    layoutSlice k side j (mapSlice g j xs) = layoutSlice k side j xs := by
  induction xs generalizing j with
  | nil => rfl
  | cons x t ih => simp only [mapSlice, layoutSlice, layoutElem_modElem, ih]

theorem layoutSide_mapSide (g : Nat → Record → Record) (k : Nat) (side : Side) (v : Value) :
    layoutSide k side (mapSide g v) = layoutSide k side v := by
  cases v with
  | slice xs => simp only [mapSide, layoutSide, layoutSlice_mapSlice]
  | null => rfl
  | bool b => rfl
  | num n => rfl
  | str s => rfl
  | raw bs => rfl
  | map kvs => rfl

/-- Annotation does not change which object stands where. -/
theorem layoutTxs_mapTxs (g : Ref → Record → Record) (txs : List Record) (k : Nat) :
    layoutTxs k (mapTxs g k txs) = layoutTxs k txs := by
  induction txs generalizing k with
  | nil => rfl
  | cons tx t ih =>
    simp only [mapTxs, layoutTxs]
    have ho := index_mapTx (fun s j => g ⟨k, s, j⟩) .outputs tx
    have hi := index_mapTx (fun s j => g ⟨k, s, j⟩) .inputs tx
    simp only [Side.key] at ho hi
    rw [ho, hi, layoutSide_mapSide, layoutSide_mapSide, ih]

/-- The tree model is the code on a memory without sharing: on the layout of a batch, where
every record is a distinct object, `AnnotateTxsMem` returns the error `AnnotateTxs` returns
and leaves the heap of the layout of the batch `AnnotateTxs` returns; and the layout of
that batch has the objects standing where they stood. -/
theorem AnnotateTxsMem_layout (db : List Bytes → QueryResult) (txs : List Record) :
    AnnotateTxsMem db (layout txs) =
        (AnnotateTxs db txs).map (fun out => (out.1, (layout out.2).heap)) ∧
      ∀ out, AnnotateTxs db txs = some out → (layout out.2).txs = (layout txs).txs := by
  constructor
  · unfold AnnotateTxsMem
    rw [collectMem_layout]
    cases hc : collect txs with
    | error e =>
      rw [AnnotateTxs_collect_error hc]
      rfl
    | ok st =>
      simp only [Except.map, Collector.toMem]
      cases he : (db st.controlPrograms).err with
      | some e =>
        rw [AnnotateTxs_registry_error hc he]
        rfl
      | none =>
        rw [AnnotateTxs_ok hc he]
        simp only [layout, distributeMem_scanRows _ _ _ _ (recs_nodup txs), Option.map_some',
          recs_mapRecs]
  · intro out hout
    cases hc : collect txs with
    | error e =>
      rw [AnnotateTxs_collect_error hc] at hout
      cases hout
      rfl
    | ok st =>
      cases he : (db st.controlPrograms).err with
      | some e =>
        rw [AnnotateTxs_registry_error hc he] at hout
        cases hout
        rfl
      | none =>
        rw [AnnotateTxs_ok hc he] at hout
        cases hout
        exact layoutTxs_mapTxs _ txs 0

theorem AnnotateTxsMem_layout_ok {db : List Bytes → QueryResult} {txs : List Record}
    {H' : List (Ref × Record)} (h : AnnotateTxsMem db (layout txs) = some (none, H')) :
    ∃ txs', AnnotateTxs db txs = some (none, txs') ∧ H' = recs txs' := by
  rw [(AnnotateTxsMem_layout db txs).1] at h
  cases hrun : AnnotateTxs db txs with
  | none => rw [hrun] at h; cases h
  | some out =>
    rw [hrun] at h
    obtain ⟨e, t⟩ := out
    simp only [Option.map_some', Option.some.injEq, Prod.mk.injEq] at h
    obtain ⟨he, hH⟩ := h
    subst he
    exact ⟨t, rfl, hH.symm⟩

/-- Without sharing purpose is output-only: on the layout of a tree-shaped batch, where
every record is a distinct object, a successful run in memory leaves the `purpose` field of
the object of every input record as it was. -/
theorem purpose_output_only_layout (db : List Bytes → QueryResult) (txs : List Record)
    (H' : List (Ref × Record)) (h : AnnotateTxsMem db (layout txs) = some (none, H'))
    (ref : Ref) (r : Record) (hside : ref.side = Side.inputs)
    (hr : goGet ref (layout txs).heap = some r) :
    ∃ r', goGet ref H' = some r' ∧ goGet "purpose" r' = goGet "purpose" r := by
  obtain ⟨txs', hrun, rfl⟩ := AnnotateTxsMem_layout_ok h
  obtain ⟨st, hc, _, _⟩ := AnnotateTxs_ok_inv hrun
  have hr' : getRec txs ref = some r := by
    rw [← goGet_recs]; exact hr
  obtain ⟨r', e1, e2, _⟩ := purpose_output_only_unshared db txs txs' st hrun hc ref r hside hr'
  exact ⟨r', by rw [goGet_recs]; exact e1, e2⟩

/-- Without sharing annotation is local: on the layouts of two tree-shaped batches, with
the same registry rows, the objects of two records with equal initial fields and the same
side are equal after successful runs in memory. -/
theorem locality_layout (dbA dbB : List Bytes → QueryResult) (txsA txsB : List Record)
    (HA HB : List (Ref × Record)) (stA stB : Collector)
    (hA : AnnotateTxsMem dbA (layout txsA) = some (none, HA))
    (hB : AnnotateTxsMem dbB (layout txsB) = some (none, HB))
    (hcA : collect txsA = .ok stA) (hcB : collect txsB = .ok stB)
    (hrows : (dbA stA.controlPrograms).rows = (dbB stB.controlPrograms).rows)
    (refA refB : Ref) (r : Record) (hrA : goGet refA (layout txsA).heap = some r)
    (hrB : goGet refB (layout txsB).heap = some r) (hside : refA.side = refB.side) :
    goGet refA HA = goGet refB HB := by
  obtain ⟨txsA', hrunA, rfl⟩ := AnnotateTxsMem_layout_ok hA
  obtain ⟨txsB', hrunB, rfl⟩ := AnnotateTxsMem_layout_ok hB
  have hA' : getRec txsA refA = some r := by rw [← goGet_recs]; exact hrA
  have hB' : getRec txsB refB = some r := by rw [← goGet_recs]; exact hrB
  obtain ⟨e1, e2⟩ := locality_unshared dbA dbB txsA txsB txsA' txsB' stA stB _ hrunA hrunB
    hcA hcB rfl hrows.symm refA refB r hA' hB' hside
  rw [goGet_recs, goGet_recs, e1, e2]

end Chain.Account
